import Mathlib

/-!
Verification development for the "Badly Coded Image" (BCI) decoder
(bcimgview). The decoder reads three binary image formats (BCRAW, BCPROG,
BCFLAT) sharing an 8-byte magic, 8 flag bytes, two 8-byte big-endian
dimensions, a tagged-metadata section, and a pixel payload.

The C sources are embedded shallowly: a file stream is a `List Nat` of byte
values, `fread` of `n` items is `readBytes`, and each parsing routine is a
Lean function on streams returning the same success/error outcomes as the C
code. Machine integers are modelled as `Nat`/`Int` with explicit reductions
modulo `2 ^ w` exactly where the C arithmetic wraps.
-/

namespace BCI

/-- Model of `fread(buf, n, 1, fh)` on a byte stream: succeeds only when `n`
bytes are available, returning them and the rest of the stream. -/
def readBytes (n : Nat) (s : List Nat) : Option (List Nat × List Nat) :=
  if n ≤ s.length then some (s.take n, s.drop n) else none

/-- Big-endian value of a byte list: first byte is most significant
(`read_u64_bigendian` builds exactly this for 8 bytes). -/
def beVal : List Nat → Nat
  | [] => 0
  | b :: bs => b * 2 ^ (8 * bs.length) + beVal bs

/-- Embedding of `read_u64_bigendian`: read 8 bytes and combine them
big-endian; `none` models the short-read path (which sets
`format_problem = "short read of u64"` and returns the `(uint64_t)-1`
sentinel in C). -/
def readU64 (s : List Nat) : Option (Nat × List Nat) :=
  match readBytes 8 s with
  | none => none
  | some (bytes, rest) => some (beVal bytes, rest)

/-- Conversion of a `uint64_t` value to a signed 64-bit `long`
(two's-complement wrap, as on the target platform). -/
def toSigned64 (v : Nat) : Int :=
  if v < 2 ^ 63 then (v : Int) else (v : Int) - 2 ^ 64

/-- Byte values of the 4-byte tag identifier `"DATA"`. -/
def dataId : List Nat := [68, 65, 84, 65]

/-- Byte values of the 4-byte tag identifier `"TIME"`. -/
def timeId : List Nat := [84, 73, 77, 69]

/-- Byte values of the 4-byte tag identifier `"FRMT"`. -/
def frmtId : List Nat := [70, 82, 77, 84]

/-- Byte values of the initial `logging_fmt` C string
`"Displaying image of width %ld and height %ld from %s"`. -/
def defaultLoggingFmt : List Nat :=
  [68, 105, 115, 112, 108, 97, 121, 105, 110, 103, 32, 105, 109, 97, 103,
   101, 32, 111, 102, 32, 119, 105, 100, 116, 104, 32, 37, 108, 100, 32,
   97, 110, 100, 32, 104, 101, 105, 103, 104, 116, 32, 37, 108, 100, 32,
   102, 114, 111, 109, 32, 37, 115]

/-- The mutable state `process_tagged_data` can update: the image's
`create_time` field and the global `logging_fmt` pointer.  `fmt` holds the
raw bytes of the current format string including its trailing `'\0'`
terminator when it was replaced by a `FRMT` tag. -/
structure TagState where
  createTime : Int
  fmt : List Nat
  deriving Repr, DecidableEq

/-- Error outcomes of `process_tagged_data` (the value of `format_problem`
when the function returns 0).  `sentinelSize` is the path where
`read_u64_bigendian` succeeded but returned `0xFFFFFFFFFFFFFFFF`, which the
caller cannot distinguish from a failed read: it returns 0 *without*
setting `format_problem`. -/
inductive TagErr where
  | shortTagId      -- "short read of tag"
  | shortSizeRead   -- "short read of u64" (set inside read_u64_bigendian)
  | sentinelSize    -- size bytes were all 0xFF; format_problem left unset
  | tagTooLarge     -- "tag too large"
  | badTimeSize     -- "wrong size for TIME"
  | shortFormatRead -- "short read of format"
  | unrecognizedTag -- "unrecognized tag"
  deriving Repr, DecidableEq

/-- Result of the tag-section loop: success with the updated state and the
remaining stream, an error, or exhausted fuel (never happens with the fuel
chosen by `processTags`). -/
inductive TagRes where
  | ok (st : TagState) (rest : List Nat)
  | err (e : TagErr)
  | out
  deriving Repr, DecidableEq

/-- Embedding of the loop body of `process_tagged_data`, with explicit fuel
for the `for (;;)` loop.  Each iteration reads a 4-byte identifier; `DATA`
terminates; otherwise an 8-byte size is read and checked against the
`1LL << 40` ceiling (after the `size == -1` sentinel comparison); `TIME`
stores an 8-byte timestamp (a failed timestamp read is NOT checked by the C
code: `create_time` becomes -1 and the loop continues); `FRMT` reads `size`
payload bytes and installs them, null-terminated, as the logging format;
any other identifier is an error. -/
def processTagsF : Nat → List Nat → TagState → TagRes
  | 0, _, _ => .out
  | fuel + 1, s, st =>
    match readBytes 4 s with
    | none => .err .shortTagId
    | some (ident, s1) =>
      if ident = dataId then .ok st s1
      else
        match readU64 s1 with
        | none => .err .shortSizeRead
        | some (size, s2) =>
          if size = 2 ^ 64 - 1 then .err .sentinelSize
          else if 2 ^ 40 < size then .err .tagTooLarge
          else if ident = timeId then
            if size ≠ 8 then .err .badTimeSize
            else
              match readU64 s2 with
              | none => processTagsF fuel (s2.drop 8) { st with createTime := -1 }
              | some (t, s3) => processTagsF fuel s3 { st with createTime := toSigned64 t }
          else if ident = frmtId then
            match readBytes size s2 with
            | none => .err .shortFormatRead
            | some (payload, s3) => processTagsF fuel s3 { st with fmt := payload ++ [0] }
          else .err .unrecognizedTag

/-- Embedding of `process_tagged_data`: run the loop with enough fuel (each
iteration consumes at least 12 bytes of the stream, so `length + 1` steps
always suffice). -/
def processTags (s : List Nat) (st : TagState) : TagRes :=
  processTagsF (s.length + 1) s st

theorem readBytes_some {n : Nat} {s t r : List Nat}
    (h : readBytes n s = some (t, r)) :
    t = s.take n ∧ r = s.drop n ∧ n ≤ s.length := by
  unfold readBytes at h
  split at h
  · cases h; exact ⟨rfl, rfl, by assumption⟩
  · cases h

theorem readU64_some {s : List Nat} {v : Nat} {r : List Nat}
    (h : readU64 s = some (v, r)) :
    v = beVal (s.take 8) ∧ r = s.drop 8 ∧ 8 ≤ s.length := by
  unfold readU64 at h
  cases hb : readBytes 8 s with
  | none => rw [hb] at h; cases h
  | some p =>
    obtain ⟨t, rest⟩ := p
    rw [hb] at h
    obtain ⟨ht, hr, hn⟩ := readBytes_some hb
    cases h
    exact ⟨by rw [ht], by rw [hr], hn⟩

/-- Fuel adequacy and stability for the tag loop: any fuel beyond the
stream length gives the same (fuel-independent) result. -/
theorem processTagsF_stable :
    ∀ f f' s st, s.length < f → s.length < f' →
      processTagsF f s st = processTagsF f' s st := by
  intro f
  induction f with
  | zero => intro f' s st h; omega
  | succ f ih =>
    intro f' s st hf hf'
    cases f' with
    | zero => omega
    | succ f' =>
      show processTagsF (f + 1) s st = processTagsF (f' + 1) s st
      unfold processTagsF
      cases hb : readBytes 4 s with
      | none => rfl
      | some p =>
        obtain ⟨ident, s1⟩ := p
        obtain ⟨hi, hs1, hlen⟩ := readBytes_some hb
        simp only
        by_cases hd : ident = dataId
        · simp [hd]
        · simp only [hd, if_false]
          cases hu : readU64 s1 with
          | none => rfl
          | some q =>
            obtain ⟨size, s2⟩ := q
            obtain ⟨hv, hs2, hlen2⟩ := readU64_some hu
            simp only
            by_cases hsen : size = 2 ^ 64 - 1
            · simp [hsen]
            · simp only [hsen, if_false]
              by_cases hbig : 2 ^ 40 < size
              · norm_num at hbig; simp [hbig]
              · simp only [hbig, if_false]
                have hs1len : s1.length = s.length - 4 := by rw [hs1]; simp
                have hs2len : s2.length = s1.length - 8 := by rw [hs2]; simp
                by_cases ht : ident = timeId
                · simp only [ht, if_true]
                  by_cases h8 : size = 8
                  · simp only [h8]
                    cases hu2 : readU64 s2 with
                    | none =>
                      simp only [if_neg (by omega : ¬ (8:Nat) ≠ 8)]
                      apply ih
                      · simp; omega
                      · simp; omega
                    | some r =>
                      obtain ⟨t, s3⟩ := r
                      obtain ⟨_, hs3, hlen3⟩ := readU64_some hu2
                      simp only [if_neg (by omega : ¬ (8:Nat) ≠ 8)]
                      apply ih
                      · rw [hs3]; simp; omega
                      · rw [hs3]; simp; omega
                  · simp [h8]
                · simp only [ht, if_false]
                  by_cases hfr : ident = frmtId
                  · simp only [hfr, if_true]
                    cases hrb : readBytes size s2 with
                    | none => rfl
                    | some r =>
                      obtain ⟨payload, s3⟩ := r
                      obtain ⟨_, hs3, hlen3⟩ := readBytes_some hrb
                      simp only
                      apply ih
                      · rw [hs3]; simp; omega
                      · rw [hs3]; simp; omega
                  · simp [hfr]

theorem readBytes_exact {n : Nat} {a b : List Nat} (h : a.length = n) :
    readBytes n (a ++ b) = some (a, b) := by
  subst h
  unfold readBytes
  rw [if_pos (by simp), List.take_left, List.drop_left]

theorem readU64_exact {a b : List Nat} (h : a.length = 8) :
    readU64 (a ++ b) = some (beVal a, b) := by
  unfold readU64
  rw [readBytes_exact h]

/-- One unfolding step of the tag loop at positive fuel. -/
theorem processTagsF_succ (fuel : Nat) (s : List Nat) (st : TagState) :
    processTagsF (fuel + 1) s st =
      match readBytes 4 s with
      | none => .err .shortTagId
      | some (ident, s1) =>
        if ident = dataId then .ok st s1
        else
          match readU64 s1 with
          | none => .err .shortSizeRead
          | some (size, s2) =>
            if size = 2 ^ 64 - 1 then .err .sentinelSize
            else if 2 ^ 40 < size then .err .tagTooLarge
            else if ident = timeId then
              if size ≠ 8 then .err .badTimeSize
              else
                match readU64 s2 with
                | none => processTagsF fuel (s2.drop 8) { st with createTime := -1 }
                | some (t, s3) => processTagsF fuel s3 { st with createTime := toSigned64 t }
            else if ident = frmtId then
              match readBytes size s2 with
              | none => .err .shortFormatRead
              | some (payload, s3) => processTagsF fuel s3 { st with fmt := payload ++ [0] }
            else .err .unrecognizedTag := rfl

/-- Claim C10, counterexample: a `TIME` tag declaring size
`0xFFFFFFFFFFFFFFFF` (which is strictly greater than `2 ^ 40`) is rejected
through the `size == -1` sentinel path, NOT with the `TagTooLarge`
("tag too large") problem the claim requires for every size above
`2 ^ 40`. -/
theorem C10_counterexample :
    processTags (timeId ++ List.replicate 8 255)
        ⟨-1, defaultLoggingFmt⟩ = .err .sentinelSize ∧
    2 ^ 40 < beVal (List.replicate 8 255) ∧
    TagErr.sentinelSize ≠ TagErr.tagTooLarge := by
  refine ⟨?_, by decide, by decide⟩
  decide

/-- Claim C10 as amended: reading `DATA` ends the tag section successfully
with no further payload consumed; a declared size strictly greater than
`2 ^ 40` fails with `TagTooLarge` — except the value `2 ^ 64 - 1`, which
the sentinel-overloaded u64 reader makes the caller treat as a failed read
(rejected, but without the `TagTooLarge` problem); hence `2 ^ 40 + 1` is
rejected as too large while `2 ^ 40` passes that check; a `TIME` tag with
readable size at most `2 ^ 40` and different from 8 fails with
`BadTagSize`; and any identifier other than `TIME`/`FRMT`/`DATA` (with a
readable, in-range size) fails with `UnrecognizedTag`. -/
theorem C10_theorem :
    (∀ rest st, processTags (dataId ++ rest) st = .ok st rest) ∧
    (∀ (ident szb rest : List Nat) st, ident.length = 4 → szb.length = 8 →
      ident ≠ dataId → beVal szb ≠ 2 ^ 64 - 1 → 2 ^ 40 < beVal szb →
      processTags (ident ++ (szb ++ rest)) st = .err .tagTooLarge) ∧
    (∀ (ident rest : List Nat) st, ident.length = 4 → ident ≠ dataId →
      processTags (ident ++ (List.replicate 8 255 ++ rest)) st =
        .err .sentinelSize) ∧
    (∀ (szb rest : List Nat) st, szb.length = 8 → beVal szb ≤ 2 ^ 40 →
      beVal szb ≠ 8 →
      processTags (timeId ++ (szb ++ rest)) st = .err .badTimeSize) ∧
    (∀ (ident szb rest : List Nat) st, ident.length = 4 → szb.length = 8 →
      ident ≠ dataId → ident ≠ timeId → ident ≠ frmtId →
      beVal szb ≤ 2 ^ 40 →
      processTags (ident ++ (szb ++ rest)) st = .err .unrecognizedTag) := by
  refine ⟨?_, ?_, ?_, ?_, ?_⟩
  · intro rest st
    unfold processTags
    rw [processTagsF_succ, readBytes_exact (by decide : dataId.length = 4)]
    simp
  · intro ident szb rest st h4 h8 hnd hns hbig
    unfold processTags
    rw [processTagsF_succ, readBytes_exact h4]
    dsimp only
    rw [if_neg hnd, readU64_exact h8]
    dsimp only
    rw [if_neg hns, if_pos hbig]
  · intro ident rest st h4 hnd
    unfold processTags
    rw [processTagsF_succ, readBytes_exact h4]
    dsimp only
    rw [if_neg hnd, readU64_exact (by simp : (List.replicate 8 255).length = 8)]
    dsimp only
    rw [if_pos (by decide)]
  · intro szb rest st h8 hle hne
    unfold processTags
    rw [processTagsF_succ, readBytes_exact (by decide : timeId.length = 4)]
    dsimp only
    rw [if_neg (by decide : ¬ (timeId = dataId)), readU64_exact h8]
    dsimp only
    rw [if_neg (by omega), if_neg (by omega), if_pos rfl, if_pos hne]
  · intro ident szb rest st h4 h8 hnd hnt hnf hle
    unfold processTags
    rw [processTagsF_succ, readBytes_exact h4]
    dsimp only
    rw [if_neg hnd, readU64_exact h8]
    dsimp only
    rw [if_neg (by omega), if_neg (by omega), if_neg hnt, if_neg hnf]

/-- Witness for C10: concrete instances discharging every hypothesis — the
empty tag section, a `FRMT` tag of size `2 ^ 40 + 1` (too large), the
all-ones sentinel size, a `TIME` tag of declared size exactly `2 ^ 40`
(passing the ceiling check, failing the `TIME` size-8 check), and an
unrecognized identifier `"XXXX"`. -/
theorem C10_witness :
    processTags (dataId ++ [7]) ⟨-1, []⟩ = .ok ⟨-1, []⟩ [7] ∧
    processTags (frmtId ++ ([0, 0, 1, 0, 0, 0, 0, 1] ++ [])) ⟨-1, []⟩ =
      .err .tagTooLarge ∧
    processTags (frmtId ++ (List.replicate 8 255 ++ [])) ⟨-1, []⟩ =
      .err .sentinelSize ∧
    processTags (timeId ++ ([0, 0, 1, 0, 0, 0, 0, 0] ++ [])) ⟨-1, []⟩ =
      .err .badTimeSize ∧
    processTags ([88, 88, 88, 88] ++ ([0, 0, 0, 0, 0, 0, 0, 9] ++ []))
      ⟨-1, []⟩ = .err .unrecognizedTag := by
  refine ⟨C10_theorem.1 [7] ⟨-1, []⟩,
    C10_theorem.2.1 frmtId [0, 0, 1, 0, 0, 0, 0, 1] [] ⟨-1, []⟩
      (by decide) (by decide) (by decide) (by decide) (by decide),
    C10_theorem.2.2.1 frmtId [] ⟨-1, []⟩ (by decide) (by decide),
    C10_theorem.2.2.2.1 [0, 0, 1, 0, 0, 0, 0, 0] [] ⟨-1, []⟩
      (by decide) (by decide) (by decide),
    C10_theorem.2.2.2.2 [88, 88, 88, 88] [0, 0, 0, 0, 0, 0, 0, 9] [] ⟨-1, []⟩
      (by decide) (by decide) (by decide) (by decide) (by decide) (by decide)⟩

/-! ### The logging routine and its printf format semantics (claim C1)

`print_log_msg` executes `printf(logging_fmt, info->width, info->height,
time_str, info->create_time)`.  We model the defined fragment of C
`printf` used here: literal bytes, `%` followed by optional `l` length
modifiers and a `d` or `s` conversion, and `%%`; a NUL byte terminates the
format string (the stored `FRMT` payload carries its terminator).
Undefined-behavior cases (unknown conversions, argument-type mismatch,
missing arguments) are `none`. -/

/-- A variadic argument as passed by this program: a `long` or a `char *`
string. -/
inductive PArg where
  | int (v : Int)
  | str (s : List Nat)
  deriving Repr, DecidableEq

/-- Decimal ASCII digits of a natural number (fuelled helper). -/
def natDecF : Nat → Nat → List Nat
  | 0, _ => []
  | f + 1, n =>
    if n < 10 then [48 + n]
    else natDecF f (n / 10) ++ [48 + n % 10]

/-- Decimal ASCII digits of a natural number. -/
def natDec (n : Nat) : List Nat := natDecF (n + 1) n

/-- Printed form of a `long` under `%ld`: a minus sign for negative
values, then the decimal digits. -/
def intDec : Int → List Nat
  | .ofNat n => natDec n
  | .negSucc n => 45 :: natDec (n + 1)

/-- Bytes a C `%s` conversion prints for a string argument: everything up
to the first NUL. -/
def cstrBytes (s : List Nat) : List Nat := s.takeWhile (· ≠ 0)

/-- Bytes of a format string treated as pure inert data (printed
verbatim, stopping at the NUL terminator): what the logging routine would
emit if it never interpreted the payload. -/
def inertBytes (fmt : List Nat) : List Nat := fmt.takeWhile (· ≠ 0)

/-- Fuelled interpreter for the supported `printf` fragment. -/
def renderF : Nat → List Nat → List PArg → Option (List Nat)
  | 0, _, _ => none
  | f + 1, fmt, args =>
    match fmt with
    | [] => some []
    | 0 :: _ => some []
    | 37 :: rest =>
      match rest.dropWhile (· = 108), args with
      | 100 :: r, .int v :: args' => (renderF f r args').map (intDec v ++ ·)
      | 115 :: r, .str sv :: args' =>
        (renderF f r args').map (cstrBytes sv ++ ·)
      | 37 :: r, _ => (renderF f r args).map (37 :: ·)
      | _, _ => none
    | b :: rest => (renderF f rest args).map (b :: ·)

/-- Rendering of a format string against an argument list (each step of
`renderF` consumes at least one format byte, so `length + 1` fuel always
suffices). -/
def renderPrintf (fmt : List Nat) (args : List PArg) : Option (List Nat) :=
  renderF (fmt.length + 1) fmt args

/-- Embedding of the `printf` call in `print_log_msg`: the current
`logging_fmt` is the FORMAT argument, and the variadic arguments are the
image's width and height, the formatted time string, and the raw
`create_time` value.  (`localtime_r`/`strftime` are environment-dependent;
the rendered time string is taken as a parameter.  When
`create_time == -1` the C code passes the literal string `"recently"`.) -/
def printLogMsgOut (fmt : List Nat) (width height createTime : Int)
    (timeStr : List Nat) : Option (List Nat) :=
  renderPrintf fmt [.int width, .int height, .str timeStr, .int createTime]

/-- Byte values of the C string `"recently"`. -/
def recentlyBytes : List Nat := [114, 101, 99, 101, 110, 116, 108, 121]

/-- Claim C1, counterexample: decoding a tag section whose `FRMT` payload
is the three bytes `"%ld"` installs those bytes (null-terminated) as
`logging_fmt`, and the per-image logging routine then renders the image
width (`"7"`, byte 55) instead of the literal payload bytes — the payload
byte `%` IS interpreted as a printf formatting directive, contradicting
the claim that no operation reinterprets the payload. -/
theorem C1_counterexample :
    processTags (frmtId ++ ([0, 0, 0, 0, 0, 0, 0, 3] ++
        ([37, 108, 100] ++ dataId))) ⟨-1, defaultLoggingFmt⟩ =
      .ok ⟨-1, [37, 108, 100, 0]⟩ [] ∧
    printLogMsgOut [37, 108, 100, 0] 7 9 (-1) recentlyBytes = some [55] ∧
    some [55] ≠ some (inertBytes [37, 108, 100, 0]) := by
  refine ⟨by decide, by decide, by decide⟩

/-- Claim C1 as amended: for every decode whose tag section contains a
`FRMT` tag, the payload bytes are read verbatim and null-terminated, but
they are installed as the active logging format string, and the per-image
logging routine passes them to `printf` as its FORMAT argument — payload
bytes are therefore interpreted as printf formatting directives (for
instance a `"%ld"` payload makes the log message print the image width),
not held as inert data. -/
theorem C1_theorem :
    ∀ (payload szb rest : List Nat) st, szb.length = 8 →
      beVal szb = payload.length → payload.length ≤ 2 ^ 40 →
      (processTags (frmtId ++ (szb ++ (payload ++ (dataId ++ rest)))) st =
        .ok { st with fmt := payload ++ [0] } rest) ∧
      (∀ w h ct ts, printLogMsgOut (payload ++ [0]) w h ct ts =
        renderPrintf (payload ++ [0]) [.int w, .int h, .str ts, .int ct]) ∧
      (∀ w h ct ts, printLogMsgOut [37, 108, 100, 0] w h ct ts =
        some (intDec w)) := by
  intro payload szb rest st h8 hsz hle
  refine ⟨?_, fun _ _ _ _ => rfl, fun w h ct ts => ?_⟩
  · unfold processTags
    rw [processTagsF_succ, readBytes_exact (by decide : frmtId.length = 4)]
    dsimp only
    rw [if_neg (by decide : ¬ (frmtId = dataId)), readU64_exact h8]
    dsimp only
    rw [if_neg (by omega), if_neg (by omega),
        if_neg (by decide : ¬ (frmtId = timeId)), if_pos rfl, hsz,
        readBytes_exact rfl]
    dsimp only
    rw [processTagsF_stable _ ((dataId ++ rest).length + 1) _ _
        (by simp; omega) (by omega)]
    rw [processTagsF_succ, readBytes_exact (by decide : dataId.length = 4)]
    simp
  · simp [printLogMsgOut, renderPrintf, renderF]

/-- Witness for C1 at a concrete `"%ld"` payload and concrete image
metadata. -/
theorem C1_witness :
    (processTags (frmtId ++ ([0, 0, 0, 0, 0, 0, 0, 3] ++
        ([37, 108, 100] ++ (dataId ++ [])))) ⟨-1, defaultLoggingFmt⟩ =
      .ok ⟨-1, [37, 108, 100, 0]⟩ []) ∧
    printLogMsgOut [37, 108, 100, 0] 7 9 (-1) recentlyBytes =
      some (intDec 7) :=
  ⟨(C1_theorem [37, 108, 100] [0, 0, 0, 0, 0, 0, 0, 3] []
      ⟨-1, defaultLoggingFmt⟩ (by decide) (by decide) (by decide)).1,
   (C1_theorem [37, 108, 100] [0, 0, 0, 0, 0, 0, 0, 3] []
      ⟨-1, defaultLoggingFmt⟩ (by decide) (by decide) (by decide)).2.2
      7 9 (-1) recentlyBytes⟩

/-! ### Image parsers: headers and the BCRAW decoder (claims C2, C4) -/

/-- Error outcomes of the format-specific parsers (the `format_problem`
strings of the C code, plus distinguished cases for the overloaded
`(uint64_t)-1` sentinel paths, which error without setting a problem). -/
inductive ParseErr where
  | shortFlags        -- "short read of flags" (BCRAW; BCPROG/BCFLAT set none)
  | reservedFlags     -- "reserved flags should be 0"
  | unsupportedDepth  -- "unsupported depth" / "unsupported color depth"
  | unsupportedPasses -- "unsupported passes number" (BCPROG)
  | unsupportedDict   -- "unsupported dictionary size" (BCFLAT)
  | unsupportedChans  -- "unsupported number of channels" (BCFLAT)
  | shortDim          -- "short read of u64" while reading width/height
  | dimSentinel       -- width/height bytes were all 0xFF (sentinel conflation)
  | sizeTooSmall      -- "size too small" / "size must be positive"
  | sizeTooLarge      -- "size too large" / "size too large compared to stack"
  | tagProblem (e : TagErr) -- an error from process_tagged_data
  | tagsOut           -- tag-loop fuel ran out (unreachable)
  | shortPixels       -- "short read of raw data" / "short read of row"
  | invalidPalette    -- "invalid packed byte" (BCPROG)
  | shortFirstByte    -- "failed to read first byte" (BCFLAT)
  | tooLittleData     -- "too little data" (BCFLAT)
  | excessPixels      -- "excess pixels at end of row" (BCFLAT)
  deriving Repr, DecidableEq

/-- The decoded image handed to the caller: the fields of `struct
image_info` that the decoder fills (the pixel pointer becomes the raster
byte list). -/
structure ImageInfo where
  width : Int
  height : Int
  createTime : Int
  pixels : List Nat
  deriving Repr, DecidableEq

/-- Two's-complement wrap of a value into a signed 64-bit `long` (the
behavior of the multiplication `3 * width * height` in 64-bit arithmetic). -/
def int64Wrap (v : Int) : Int := (v + 2 ^ 63) % 2 ^ 64 - 2 ^ 63

/-- Two's-complement wrap of a value into a signed 32-bit `int` (the
conversion in `int num_bytes = 3 * width * height`). -/
def int32Wrap (v : Int) : Int := (v + 2 ^ 31) % 2 ^ 32 - 2 ^ 31

/-- The `int num_bytes` the BCRAW/BCPROG/BCFLAT parsers compute to size the
pixel allocation: the mathematical product reduced to `long` and then
truncated to `int`. -/
def numBytesInt (w h : Int) : Int := int32Wrap (int64Wrap (3 * w * h))

/-- Decidable equality for `Except` results (needed to evaluate parser
outcomes with `decide`). -/
instance {e a : Type} [DecidableEq e] [DecidableEq a] :
    DecidableEq (Except e a) := fun x y =>
  match x, y with
  | .ok u, .ok v =>
    if h : u = v then isTrue (by rw [h])
    else isFalse (by intro hh; cases hh; exact h rfl)
  | .error u, .error v =>
    if h : u = v then isTrue (by rw [h])
    else isFalse (by intro hh; cases hh; exact h rfl)
  | .ok _, .error _ => isFalse (by intro hh; cases hh)
  | .error _, .ok _ => isFalse (by intro hh; cases hh)

/-- Embedding of `parse_bcraw` up to (but not including) the pixel
allocation: flag checks and the two dimension reads.  A success means the
parser is about to compute `num_bytes = 3 * width * height` and call
`xmalloc`.  There is no bound check of any kind on `width`/`height`. -/
def bcrawPre (s : List Nat) : Except ParseErr ((Int × Int) × List Nat) :=
  match readBytes 8 s with
  | none => .error .shortFlags
  | some (flags, s1) =>
    if (flags.take 7).any (fun b => b ≠ 0) then .error .reservedFlags
    else if flags.getD 7 0 ≠ 8 then .error .unsupportedDepth
    else
      match readU64 s1 with
      | none => .error .shortDim
      | some (wv, s2) =>
        if toSigned64 wv = -1 then .error .dimSentinel
        else
          match readU64 s2 with
          | none => .error .shortDim
          | some (hv, s3) =>
            if toSigned64 hv = -1 then .error .dimSentinel
            else .ok ((toSigned64 wv, toSigned64 hv), s3)

/-- Embedding of `parse_bcprog` up to the pixel allocation: flag checks
(6 reserved zeros, pass scheme 1, palette marker 0xD8), dimension reads,
and the `2 ≤ height ≤ 600`, `1 ≤ width ≤ 800` bounds. -/
def bcprogPre (s : List Nat) : Except ParseErr ((Int × Int) × List Nat) :=
  match readBytes 8 s with
  | none => .error .shortFlags
  | some (flags, s1) =>
    if (flags.take 6).any (fun b => b ≠ 0) then .error .reservedFlags
    else if flags.getD 6 0 ≠ 1 then .error .unsupportedPasses
    else if flags.getD 7 0 ≠ 216 then .error .unsupportedDepth
    else
      match readU64 s1 with
      | none => .error .shortDim
      | some (wv, s2) =>
        if toSigned64 wv = -1 then .error .dimSentinel
        else
          match readU64 s2 with
          | none => .error .shortDim
          | some (hv, s3) =>
            if toSigned64 hv = -1 then .error .dimSentinel
            else if toSigned64 hv < 2 ∨ toSigned64 wv < 1 then
              .error .sizeTooSmall
            else if 600 < toSigned64 hv ∨ 800 < toSigned64 wv then
              .error .sizeTooLarge
            else .ok ((toSigned64 wv, toSigned64 hv), s3)

/-- Embedding of `parse_bcflat` up to the pixel allocation: flag checks
(6 reserved zeros, dictionary id 0x0D, 3 channels), dimension reads,
positivity, and the `size_limit` ceiling (a parameter here, since `main`
may overwrite the global before any decode). -/
def bcflatPre (limit : Int) (s : List Nat) :
    Except ParseErr ((Int × Int) × List Nat) :=
  match readBytes 8 s with
  | none => .error .shortFlags
  | some (flags, s1) =>
    if (flags.take 6).any (fun b => b ≠ 0) then .error .reservedFlags
    else if flags.getD 6 0 ≠ 13 then .error .unsupportedDict
    else if flags.getD 7 0 ≠ 3 then .error .unsupportedChans
    else
      match readU64 s1 with
      | none => .error .shortDim
      | some (wv, s2) =>
        if toSigned64 wv = -1 then .error .dimSentinel
        else
          match readU64 s2 with
          | none => .error .shortDim
          | some (hv, s3) =>
            if toSigned64 hv = -1 then .error .dimSentinel
            else if toSigned64 hv < 1 ∨ toSigned64 wv < 1 then
              .error .sizeTooSmall
            else if limit < toSigned64 hv ∨ limit < toSigned64 wv then
              .error .sizeTooLarge
            else .ok ((toSigned64 wv, toSigned64 hv), s3)

/-- Embedding of the first inner loop of `read_raw_data`: while
`col < width - 8`, read 8 pixels (24 bytes) at once.  Returns the bytes
read, the remaining stream, and the final column.  Fuel bounds the loop
(one unit per iteration); `none` is a short read (or exhausted fuel, which
the chosen fuel makes unreachable). -/
def rawGroupLoop : Nat → Int → Int → List Nat → Option (List Nat × List Nat × Int)
  | 0, _, _, _ => none
  | f + 1, w, col, s =>
    if col < w - 8 then
      match readBytes 24 s with
      | none => none
      | some (bytes, s') =>
        (rawGroupLoop f w (col + 8) s').map fun (bs, r, c) => (bytes ++ bs, r, c)
    else some ([], s, col)

/-- Embedding of the second inner loop of `read_raw_data`: while
`col < width`, read one pixel (3 bytes) at a time. -/
def rawSingleLoop : Nat → Int → Int → List Nat → Option (List Nat × List Nat)
  | 0, _, _, _ => none
  | f + 1, w, col, s =>
    if col < w then
      match readBytes 3 s with
      | none => none
      | some (bytes, s') =>
        (rawSingleLoop f w (col + 1) s').map fun (bs, r) => (bytes ++ bs, r)
    else some ([], s)

/-- One row of `read_raw_data`: the grouped reads followed by the leftover
single-pixel reads. -/
def readRawRow (w : Int) (s : List Nat) : Option (List Nat × List Nat) :=
  match rawGroupLoop (w.toNat + 1) w 0 s with
  | none => none
  | some (bytes, s', col) =>
    (rawSingleLoop (w.toNat + 1) w col s').map fun (bs, r) => (bytes ++ bs, r)

/-- The row loop of `read_raw_data` (`height` iterations; a negative
height runs zero iterations, as in C). -/
def rawRowsLoop : Nat → Int → List Nat → Option (List Nat × List Nat)
  | 0, _, s => some ([], s)
  | n + 1, w, s =>
    match readRawRow w s with
    | none => none
    | some (bytes, s') =>
      (rawRowsLoop n w s').map fun (bs, r) => (bytes ++ bs, r)

/-- Embedding of `read_raw_data`: read `height` rows of `width` pixels, 3
bytes each, in stream order. -/
def readRawData (w h : Int) (s : List Nat) : Option (List Nat × List Nat) :=
  rawRowsLoop h.toNat w s

/-- Embedding of `parse_bcraw`: header, tag section (with the image's
`create_time` initialized to -1 and the current global format string
`fmt0`), then the pixel payload. -/
def parseBcraw (s : List Nat) (fmt0 : List Nat) :
    Except ParseErr (ImageInfo × List Nat) :=
  match bcrawPre s with
  | .error e => .error e
  | .ok ((width, height), s3) =>
    match processTags s3 ⟨-1, fmt0⟩ with
    | .err e => .error (.tagProblem e)
    | .out => .error .tagsOut
    | .ok st rest =>
      match readRawData width height rest with
      | none => .error .shortPixels
      | some (pixels, _rest2) =>
        .ok (⟨width, height, st.createTime, pixels⟩, _rest2)

theorem rawSingleLoop_spec :
    ∀ f (w col : Int) (s : List Nat), (w - col).toNat < f →
      3 * (w - col).toNat ≤ s.length →
      rawSingleLoop f w col s =
        some (s.take (3 * (w - col).toNat), s.drop (3 * (w - col).toNat)) := by
  intro f
  induction f with
  | zero => intro w col s h; omega
  | succ f ih =>
    intro w col s hf hs
    show rawSingleLoop (f + 1) w col s = _
    unfold rawSingleLoop
    by_cases hc : col < w
    · rw [if_pos hc]
      have h3 : 3 ≤ s.length := by omega
      rw [show readBytes 3 s = some (s.take 3, s.drop 3) from by
        unfold readBytes; rw [if_pos h3]]
      dsimp only
      have hnext : (w - (col + 1)).toNat < f := by omega
      have hslen : 3 * (w - (col + 1)).toNat ≤ (s.drop 3).length := by
        simp; omega
      rw [ih w (col + 1) (s.drop 3) hnext hslen]
      simp only [Option.map_some']
      have ht : List.take 3 s ++
          List.take (3 * (w - (col + 1)).toNat) (List.drop 3 s) =
          List.take (3 * (w - col).toNat) s := by
        rw [← List.take_add]; congr 1; omega
      have hd : List.drop (3 * (w - (col + 1)).toNat) (List.drop 3 s) =
          List.drop (3 * (w - col).toNat) s := by
        rw [List.drop_drop]; congr 1; omega
      rw [ht, hd]
    · rw [if_neg hc]
      have : (w - col).toNat = 0 := by omega
      rw [this]
      simp

theorem rawGroupLoop_spec :
    ∀ f (w col : Int) (s : List Nat), 0 ≤ col → (w - 8 - col).toNat < f →
      3 * (w - col).toNat ≤ s.length →
      ∃ col2 : Int,
        rawGroupLoop f w col s =
          some (s.take (3 * (col2 - col).toNat),
                s.drop (3 * (col2 - col).toNat), col2) ∧
        col ≤ col2 ∧ w - 8 ≤ col2 ∧ (col2 = col ∨ col2 < w) := by
  intro f
  induction f with
  | zero => intro w col s _ h; omega
  | succ f ih =>
    intro w col s hc0 hf hs
    show (∃ col2, rawGroupLoop (f + 1) w col s = _ ∧ _)
    unfold rawGroupLoop
    by_cases hc : col < w - 8
    · rw [if_pos hc]
      have h24 : 24 ≤ s.length := by omega
      rw [show readBytes 24 s = some (s.take 24, s.drop 24) from by
        unfold readBytes; rw [if_pos h24]]
      dsimp only
      have hf' : (w - 8 - (col + 8)).toNat < f := by omega
      have hs' : 3 * (w - (col + 8)).toNat ≤ (s.drop 24).length := by
        simp; omega
      obtain ⟨col2, hrec, hle, hge, hlt⟩ := ih w (col + 8) (s.drop 24) (by omega) hf' hs'
      refine ⟨col2, ?_, by omega, hge, ?_⟩
      · rw [hrec]
        simp only [Option.map_some']
        have ht : List.take 24 s ++
            List.take (3 * (col2 - (col + 8)).toNat) (List.drop 24 s) =
            List.take (3 * (col2 - col).toNat) s := by
          rw [← List.take_add]; congr 1; omega
        have hd : List.drop (3 * (col2 - (col + 8)).toNat) (List.drop 24 s) =
            List.drop (3 * (col2 - col).toNat) s := by
          rw [List.drop_drop]; congr 1; omega
        rw [ht, hd]
      · right; omega
    · rw [if_neg hc]
      exact ⟨col, by simp, le_refl col, by omega, Or.inl rfl⟩

theorem readRawRow_spec (w : Int) (s : List Nat) (hw : 0 ≤ w)
    (hs : 3 * w.toNat ≤ s.length) :
    readRawRow w s = some (s.take (3 * w.toNat), s.drop (3 * w.toNat)) := by
  unfold readRawRow
  obtain ⟨col2, hrun, hle, hge, hlt⟩ :=
    rawGroupLoop_spec (w.toNat + 1) w 0 s (le_refl 0) (by omega) (by omega)
  rw [hrun]
  dsimp only
  have hcol2w : col2 ≤ w := by omega
  have hf : (w - col2).toNat < w.toNat + 1 := by omega
  have hs' : 3 * (w - col2).toNat ≤ (s.drop (3 * (col2 - 0).toNat)).length := by
    simp; omega
  rw [rawSingleLoop_spec (w.toNat + 1) w col2 _ hf hs']
  simp only [Option.map_some']
  have ht : List.take (3 * (col2 - 0).toNat) s ++
      List.take (3 * (w - col2).toNat) (List.drop (3 * (col2 - 0).toNat) s) =
      List.take (3 * w.toNat) s := by
    rw [← List.take_add]; congr 1; omega
  have hd : List.drop (3 * (w - col2).toNat)
      (List.drop (3 * (col2 - 0).toNat) s) =
      List.drop (3 * w.toNat) s := by
    rw [List.drop_drop]; congr 1; omega
  rw [ht, hd]

theorem rawRowsLoop_spec :
    ∀ (n : Nat) (w : Int) (s : List Nat), 0 ≤ w →
      3 * w.toNat * n ≤ s.length →
      rawRowsLoop n w s =
        some (s.take (3 * w.toNat * n), s.drop (3 * w.toNat * n)) := by
  intro n
  induction n with
  | zero => intro w s _ _; simp [rawRowsLoop]
  | succ n ih =>
    intro w s hw hs
    show rawRowsLoop (n + 1) w s = _
    unfold rawRowsLoop
    rw [readRawRow_spec w s hw (by nlinarith)]
    dsimp only
    have hexp : 3 * w.toNat * (n + 1) = 3 * w.toNat * n + 3 * w.toNat := by ring
    have hsum : 3 * w.toNat * n + 3 * w.toNat ≤ s.length := by omega
    have hlen2 : 3 * w.toNat * n ≤ (s.drop (3 * w.toNat)).length := by
      simp
      exact Nat.le_sub_of_add_le hsum
    rw [ih w _ hw hlen2]
    simp only [Option.map_some']
    have ht : List.take (3 * w.toNat) s ++
        List.take (3 * w.toNat * n) (List.drop (3 * w.toNat) s) =
        List.take (3 * w.toNat * (n + 1)) s := by
      rw [← List.take_add]; congr 1; ring
    have hd : List.drop (3 * w.toNat * n) (List.drop (3 * w.toNat) s) =
        List.drop (3 * w.toNat * (n + 1)) s := by
      rw [List.drop_drop]; congr 1; ring
    rw [ht, hd]

theorem readRawData_spec (w h : Int) (s : List Nat) (hw : 0 ≤ w) (hh : 0 ≤ h)
    (hs : 3 * w.toNat * h.toNat ≤ s.length) :
    readRawData w h s =
      some (s.take (3 * w.toNat * h.toNat), s.drop (3 * w.toNat * h.toNat)) :=
  rawRowsLoop_spec h.toNat w s hw hs

theorem numBytesInt_eq {w h : Int} (h0 : 0 ≤ 3 * w * h)
    (hlt : 3 * w * h < 2 ^ 31) : numBytesInt w h = 3 * w * h := by
  unfold numBytesInt int64Wrap int32Wrap
  rw [Int.emod_eq_of_lt (by omega) (by omega),
      Int.emod_eq_of_lt (by omega) (by omega)]
  omega

/-- Concrete BCRAW header (after the magic): valid flags, width
`0x55555556 = 1431655766`, height 1.  `3 * width * height = 4294967298`
overflows a signed 32-bit `int` (it truncates to 2). -/
def c4Stream : List Nat :=
  [0, 0, 0, 0, 0, 0, 0, 8] ++
    ([0, 0, 0, 0, 85, 85, 85, 86] ++ [0, 0, 0, 0, 0, 0, 0, 1])

/-- Claim C4, counterexample: the BCRAW parser reaches its allocation
(passes every check before `num_bytes = 3 * width * height; xmalloc(...)`)
for width 1431655766 and height 1, whose product `3 * w * h = 4294967298`
does not fit a signed 32-bit `int`: the computed `num_bytes` wraps to 2.
BCRAW has no dimension bound at all, so the claimed overflow-freedom
before allocation is false. -/
theorem C4_counterexample :
    bcrawPre c4Stream = .ok ((1431655766, 1), []) ∧
    ¬ (3 * (1431655766 : Int) * 1 < 2 ^ 31) ∧
    numBytesInt 1431655766 1 = 2 := by
  refine ⟨by decide, by decide, by decide⟩

/-- Claim C4 as amended: BCPROG and BCFLAT (at its default ceiling 26754)
accept only positive dimensions whose raster byte count `3 * w * h` fits a
signed 32-bit `int` before allocating, and for them `num_bytes` is computed
without overflow; the BCRAW parser, however, performs no dimension check
and reaches its allocation with `3 * w * h` overflowing the `int` byte
count (for example width 1431655766, height 1). -/
theorem C4_theorem :
    (∀ s w h r, bcprogPre s = .ok ((w, h), r) →
      0 < w ∧ 0 < h ∧ 3 * w * h < 2 ^ 31 ∧ numBytesInt w h = 3 * w * h) ∧
    (∀ s w h r, bcflatPre 26754 s = .ok ((w, h), r) →
      0 < w ∧ 0 < h ∧ 3 * w * h < 2 ^ 31 ∧ numBytesInt w h = 3 * w * h) ∧
    (∃ s w h r, bcrawPre s = .ok ((w, h), r) ∧ ¬ (3 * w * h < 2 ^ 31)) := by
  refine ⟨?_, ?_, ?_⟩
  · intro s w h r hp
    unfold bcprogPre at hp
    repeat' split at hp
    all_goals cases hp
    simp only [not_or] at *
    push_neg at *
    refine ⟨by omega, by omega, by nlinarith,
      numBytesInt_eq (by nlinarith) (by nlinarith)⟩
  · intro s w h r hp
    unfold bcflatPre at hp
    repeat' split at hp
    all_goals cases hp
    simp only [not_or] at *
    push_neg at *
    refine ⟨by omega, by omega, by nlinarith,
      numBytesInt_eq (by nlinarith) (by nlinarith)⟩
  · exact ⟨c4Stream, 1431655766, 1, [],
      by decide, by decide⟩

/-- Concrete BCPROG header accepted with width 2, height 2 (for the C4
witness). -/
def c4ProgStream : List Nat :=
  [0, 0, 0, 0, 0, 0, 1, 216] ++
    ([0, 0, 0, 0, 0, 0, 0, 2] ++ [0, 0, 0, 0, 0, 0, 0, 2])

/-- Concrete BCFLAT header accepted with width 20, height 20 (for the C4
witness). -/
def c4FlatStream : List Nat :=
  [0, 0, 0, 0, 0, 0, 13, 3] ++
    ([0, 0, 0, 0, 0, 0, 0, 20] ++ [0, 0, 0, 0, 0, 0, 0, 20])

/-- Witness for C4 at concrete accepted BCPROG and BCFLAT headers. -/
theorem C4_witness :
    (0 < (2 : Int) ∧ 0 < (2 : Int) ∧ 3 * (2 : Int) * 2 < 2 ^ 31 ∧
      numBytesInt 2 2 = 3 * 2 * 2) ∧
    (0 < (20 : Int) ∧ 0 < (20 : Int) ∧ 3 * (20 : Int) * 20 < 2 ^ 31 ∧
      numBytesInt 20 20 = 3 * 20 * 20) :=
  ⟨C4_theorem.1 c4ProgStream 2 2 [] (by decide),
   C4_theorem.2.1 c4FlatStream 20 20 [] (by decide)⟩

/-- Concrete BCRAW stream (after the magic) whose width field is the
all-ones sentinel and whose height is 0: flags are valid, the tag section
is the bare `DATA` terminator, and the payload needs `3 * w * h = 0`
bytes, yet the decode fails (the `(uint64_t)-1` width is treated as a read
failure). -/
def c2Stream : List Nat :=
  [0, 0, 0, 0, 0, 0, 0, 8] ++
    (List.replicate 8 255 ++ (List.replicate 8 0 ++ dataId))

/-- Claim C2, counterexample: a BCRAW stream with correct flags, width
`2 ^ 64 - 1`, height 0, a tag section ending in `DATA`, and (vacuously) at
least `3 * w * h = 0` payload bytes does NOT decode successfully: the
decoder rejects the width through the overloaded `-1` sentinel path. -/
theorem C2_counterexample :
    parseBcraw c2Stream defaultLoggingFmt = .error .dimSentinel ∧
    ∀ out, parseBcraw c2Stream defaultLoggingFmt ≠ .ok out := by
  have h : parseBcraw c2Stream defaultLoggingFmt = .error .dimSentinel := by
    decide
  exact ⟨h, fun out hout => by rw [h] at hout; cases hout⟩

/-- Claim C2 as amended: for every BCRAW stream with correct flags, width
`w` and height `h` both below `2 ^ 63` and NOT the `2 ^ 64 - 1` sentinel,
with `3 * w * h` small enough to fit the signed 32-bit allocation size
(so the raster allocation is well defined), a tag section ending in
`DATA`, and at least `3 * w * h` payload bytes, decoding succeeds and the
raster equals the first `3 * w * h` payload bytes verbatim, in stream
order. -/
theorem C2_theorem :
    ∀ (w h : Nat) (wb hb ts payload rest fmt0 : List Nat) (st' : TagState),
      wb.length = 8 → hb.length = 8 → beVal wb = w → beVal hb = h →
      w < 2 ^ 63 → h < 2 ^ 63 → 3 * w * h < 2 ^ 31 →
      payload.length = 3 * w * h →
      processTags (ts ++ (payload ++ rest)) ⟨-1, fmt0⟩ =
        .ok st' (payload ++ rest) →
      parseBcraw
        ([0, 0, 0, 0, 0, 0, 0, 8] ++ (wb ++ (hb ++ (ts ++ (payload ++ rest)))))
        fmt0 =
        .ok (⟨(w : Int), (h : Int), st'.createTime, payload⟩, rest) := by
  intro w h wb hb ts payload rest fmt0 st' hwb hhb hwv hhv hw63 hh63 h31 hpl hpt
  unfold parseBcraw bcrawPre
  rw [readBytes_exact (by decide : ([0, 0, 0, 0, 0, 0, 0, 8] : List Nat).length = 8)]
  dsimp only
  rw [if_neg (by decide), if_neg (by decide), readU64_exact hwb]
  dsimp only
  have hwsig : toSigned64 (beVal wb) = (w : Int) := by
    rw [hwv]; unfold toSigned64; rw [if_pos (by exact_mod_cast hw63)]
  rw [hwsig, if_neg (by omega), readU64_exact hhb]
  dsimp only
  have hhsig : toSigned64 (beVal hb) = (h : Int) := by
    rw [hhv]; unfold toSigned64; rw [if_pos (by exact_mod_cast hh63)]
  rw [hhsig, if_neg (by omega)]
  dsimp only
  rw [hpt]
  dsimp only
  rw [readRawData_spec _ _ _ (by omega) (by omega)
      (by simp [hpl])]
  dsimp only
  have htake : (payload ++ rest).take (3 * ((w : Int)).toNat * ((h : Int)).toNat) =
      payload := by
    have : 3 * ((w : Int)).toNat * ((h : Int)).toNat = payload.length := by
      simp [hpl]
    rw [this, List.take_left]
  have hdrop : (payload ++ rest).drop (3 * ((w : Int)).toNat * ((h : Int)).toNat) =
      rest := by
    have : 3 * ((w : Int)).toNat * ((h : Int)).toNat = payload.length := by
      simp [hpl]
    rw [this, List.drop_left]
  rw [htake, hdrop]

/-- Witness for C2: a 2-pixel-wide, 1-pixel-high BCRAW image with a bare
`DATA` tag section and 6 payload bytes decodes to exactly those 6 bytes. -/
theorem C2_witness :
    parseBcraw
      ([0, 0, 0, 0, 0, 0, 0, 8] ++ ([0, 0, 0, 0, 0, 0, 0, 2] ++
        ([0, 0, 0, 0, 0, 0, 0, 1] ++ (dataId ++
          ([10, 20, 30, 40, 50, 60] ++ [])))))
      defaultLoggingFmt =
      .ok (⟨(2 : Nat), (1 : Nat), (-1 : Int), [10, 20, 30, 40, 50, 60]⟩, []) :=
  C2_theorem 2 1 [0, 0, 0, 0, 0, 0, 0, 2] [0, 0, 0, 0, 0, 0, 0, 1] dataId
    [10, 20, 30, 40, 50, 60] [] defaultLoggingFmt ⟨-1, defaultLoggingFmt⟩
    (by decide) (by decide) (by decide) (by decide) (by decide) (by decide)
    (by decide) (by decide) (by decide)

/-! ### BCPROG: palette expansion (claim C5)

Step 2 of `read_prog_data` expands, row by row and in place, each palette
byte into 3 RGB bytes.  A row region of the pixel buffer is `3 * width`
bytes whose first `width` entries hold the palette bytes after
deinterlacing.  The C loop runs `col` from `width - 1` down to 0, reading
`row_p[col]` and writing `row_p[3*col .. 3*col+2]`. -/

/-- Embedding of the inner (per-row) loop of step 2 of `read_prog_data`:
`expandCols k row` processes columns `k-1` down to `0` in place.  A
palette byte of 216 or more is the "invalid packed byte" error (`none`). -/
def expandCols : Nat → List Nat → Option (List Nat)
  | 0, row => some row
  | col + 1, row =>
    if 216 ≤ row.getD col 0 then none
    else
      expandCols col
        (((row.set (3 * col) (51 * (row.getD col 0 / 36))).set
            (3 * col + 1) (51 * (row.getD col 0 / 6 % 6))).set
          (3 * col + 2) (51 * (row.getD col 0 % 6)))

theorem getD_set_self {l : List Nat} {i a : Nat} (h : i < l.length) :
    (l.set i a).getD i 0 = a := by
  simp [List.getD_eq_getElem?_getD, List.getElem?_set_self', h]

theorem getD_set_ne {l : List Nat} {i j a : Nat} (h : i ≠ j) :
    (l.set i a).getD j 0 = l.getD j 0 := by
  simp [List.getD_eq_getElem?_getD, List.getElem?_set_ne h]

theorem expandCols_spec :
    ∀ (k : Nat) (row : List Nat), 3 * k ≤ row.length →
      (∀ i < k, row.getD i 0 < 216) →
      ∃ out, expandCols k row = some out ∧ out.length = row.length ∧
        (∀ j, 3 * k ≤ j → out.getD j 0 = row.getD j 0) ∧
        (∀ c < k, out.getD (3 * c) 0 = 51 * (row.getD c 0 / 36) ∧
          out.getD (3 * c + 1) 0 = 51 * (row.getD c 0 / 6 % 6) ∧
          out.getD (3 * c + 2) 0 = 51 * (row.getD c 0 % 6)) := by
  intro k
  induction k with
  | zero =>
    intro row _ _
    exact ⟨row, rfl, rfl, fun j _ => rfl, fun c hc => absurd hc (by omega)⟩
  | succ k ih =>
    intro row hlen hvalid
    have hv : ¬ 216 ≤ row.getD k 0 := by
      have := hvalid k (by omega); omega
    have hk3 : 3 * k + 2 < row.length := by omega
    unfold expandCols
    rw [if_neg hv]
    set row' := ((row.set (3 * k) (51 * (row.getD k 0 / 36))).set
        (3 * k + 1) (51 * (row.getD k 0 / 6 % 6))).set
      (3 * k + 2) (51 * (row.getD k 0 % 6)) with hrow'
    have hlen' : row'.length = row.length := by simp [hrow']
    have hlow : ∀ i, i < 3 * k → row'.getD i 0 = row.getD i 0 := by
      intro i hi
      rw [hrow', getD_set_ne (by omega), getD_set_ne (by omega),
          getD_set_ne (by omega)]
    have hhi : ∀ j, 3 * k + 3 ≤ j → row'.getD j 0 = row.getD j 0 := by
      intro j hj
      rw [hrow', getD_set_ne (by omega), getD_set_ne (by omega),
          getD_set_ne (by omega)]
    have h0 : row'.getD (3 * k) 0 = 51 * (row.getD k 0 / 36) := by
      rw [hrow', getD_set_ne (by omega), getD_set_ne (by omega),
          getD_set_self (by omega)]
    have h1 : row'.getD (3 * k + 1) 0 = 51 * (row.getD k 0 / 6 % 6) := by
      rw [hrow', getD_set_ne (by omega), getD_set_self (by simp; omega)]
    have h2 : row'.getD (3 * k + 2) 0 = 51 * (row.getD k 0 % 6) := by
      rw [hrow', getD_set_self (by simp; omega)]
    obtain ⟨out, hout, holen, hunch, hc⟩ := ih row' (by omega)
      (fun i hi => by rw [hlow i (by omega)]; exact hvalid i (by omega))
    refine ⟨out, hout, by omega, ?_, ?_⟩
    · intro j hj
      rw [hunch j (by omega), hhi j (by omega)]
    · intro c hck
      by_cases hce : c = k
      · subst hce
        refine ⟨?_, ?_, ?_⟩
        · rw [hunch (3 * c) (by omega), h0]
        · rw [hunch (3 * c + 1) (by omega), h1]
        · rw [hunch (3 * c + 2) (by omega), h2]
      · have hcl : c < k := by omega
        obtain ⟨g0, g1, g2⟩ := hc c hcl
        have hrc : row'.getD c 0 = row.getD c 0 := hlow c (by omega)
        exact ⟨by rw [g0, hrc], by rw [g1, hrc], by rw [g2, hrc]⟩

theorem expandCols_bad :
    ∀ (k : Nat) (row : List Nat), 3 * k ≤ row.length →
      (∃ i, i < k ∧ 216 ≤ row.getD i 0) →
      expandCols k row = none := by
  intro k
  induction k with
  | zero => intro row _ ⟨i, hi, _⟩; omega
  | succ k ih =>
    intro row hlen ⟨i, hi, hbad⟩
    unfold expandCols
    by_cases hk : 216 ≤ row.getD k 0
    · rw [if_pos hk]
    · rw [if_neg hk]
      have hik : i < k := by
        rcases Nat.lt_succ_iff_lt_or_eq.mp hi with h | h
        · exact h
        · subst h; omega
      set row' := ((row.set (3 * k) (51 * (row.getD k 0 / 36))).set
          (3 * k + 1) (51 * (row.getD k 0 / 6 % 6))).set
        (3 * k + 2) (51 * (row.getD k 0 % 6)) with hrow'
      have hlen' : row'.length = row.length := by simp [hrow']
      have hri : row'.getD i 0 = row.getD i 0 := by
        rw [hrow', getD_set_ne (by omega), getD_set_ne (by omega),
            getD_set_ne (by omega)]
      exact ih row' (by omega) ⟨i, hik, by rw [hri]; exact hbad⟩

/-- Claim C5 (confirmed): in a BCPROG row region of `3 * w` bytes whose
first `w` entries are the deinterlaced palette bytes, the in-place
backward expansion of step 2 of `read_prog_data` (processing the last
pixel first) produces, for every pixel `c`, exactly the RGB bytes
`(51*(p/36), 51*(p/6 % 6), 51*(p % 6))` of its ORIGINAL palette byte `p`
(red, green and blue digits from most to least significant, scaled by 51;
no not-yet-read input is overwritten), and the presence of any palette
byte of 216 or more makes the expansion fail with the "invalid packed
byte" error. -/
theorem C5_theorem (w : Nat) (row : List Nat) (hlen : row.length = 3 * w) :
    ((∀ i < w, row.getD i 0 < 216) →
      ∃ out, expandCols w row = some out ∧ out.length = 3 * w ∧
        ∀ c < w, out.getD (3 * c) 0 = 51 * (row.getD c 0 / 36) ∧
          out.getD (3 * c + 1) 0 = 51 * (row.getD c 0 / 6 % 6) ∧
          out.getD (3 * c + 2) 0 = 51 * (row.getD c 0 % 6)) ∧
    ((∃ i, i < w ∧ 216 ≤ row.getD i 0) → expandCols w row = none) := by
  constructor
  · intro hvalid
    obtain ⟨out, hout, holen, _, hc⟩ :=
      expandCols_spec w row (by omega) hvalid
    exact ⟨out, hout, by omega, hc⟩
  · exact expandCols_bad w row (by omega)

/-- Witness for C5: a 2-pixel row with palette bytes 7 and 215 expands to
`[0, 51, 51, 255, 255, 255]` in place, and a row containing the palette
byte 255 is rejected. -/
theorem C5_witness :
    (∃ out, expandCols 2 [7, 215, 9, 9, 9, 9] = some out ∧
      out.length = 3 * 2 ∧
      ∀ c < 2, out.getD (3 * c) 0 = 51 * ([7, 215, 9, 9, 9, 9].getD c 0 / 36) ∧
        out.getD (3 * c + 1) 0 =
          51 * ([7, 215, 9, 9, 9, 9].getD c 0 / 6 % 6) ∧
        out.getD (3 * c + 2) 0 = 51 * ([7, 215, 9, 9, 9, 9].getD c 0 % 6)) ∧
    expandCols 1 [255, 9, 9] = none :=
  ⟨(C5_theorem 2 [7, 215, 9, 9, 9, 9] (by decide)).1
      (by decide),
   (C5_theorem 1 [255, 9, 9] (by decide)).2 ⟨0, by decide, by decide⟩⟩

/-! ### BCPROG: row deinterlacing (claim C3)

Step 1 of `read_prog_data` runs three `do`-`while` passes.  Each pass
reads `width` bytes per row from the stream and writes them at
`pixels + row * 3 * width`, i.e. at the final raster position of row
`row`.  Being `do`-`while` loops, each pass reads its FIRST row
unconditionally, before testing `row < height`. -/

/-- Row indices visited by one `do`-`while` pass (`row`, then `row + step`
while `< h`).  Fuel bounds the loop; `h.toNat + 1` always suffices. -/
def passRows : Nat → Int → Int → Int → List Int
  | 0, _, _, _ => []
  | f + 1, row, step, h =>
    row :: (if row + step < h then passRows f (row + step) step h else [])

/-- Embedding of one `do`-`while` pass of step 1 of `read_prog_data`:
read `w` bytes for the current row (a short read is the
"short read of row" error), pair them with the row index they are written
to, and continue while `row + step < h`. -/
def progPassF : Nat → Int → Int → Int → Nat → List Nat →
    Option (List (Int × List Nat) × List Nat)
  | 0, _, _, _, _, _ => none
  | f + 1, row, step, h, w, s =>
    match readBytes w s with
    | none => none
    | some (bytes, s') =>
      if row + step < h then
        (progPassF f (row + step) step h w s').map
          fun (ps, r) => ((row, bytes) :: ps, r)
      else some ([(row, bytes)], s')

/-- Embedding of step 1 of `read_prog_data`: pass 1 starts at row 0 with
step 4, pass 2 at row 2 with step 4, pass 3 at row 1 with step 2. -/
def progStep1 (w h : Int) (s : List Nat) :
    Option (List (Int × List Nat) × List Nat) :=
  match progPassF (h.toNat + 1) 0 4 h w.toNat s with
  | none => none
  | some (p1, s1) =>
    match progPassF (h.toNat + 1) 2 4 h w.toNat s1 with
    | none => none
    | some (p2, s2) =>
      (progPassF (h.toNat + 1) 1 2 h w.toNat s2).map
        fun (p3, s3) => (p1 ++ p2 ++ p3, s3)

/-- The stream split into consecutive `w`-byte chunks. -/
def chunkList (w : Nat) : Nat → List Nat → List (List Nat)
  | 0, _ => []
  | n + 1, s => s.take w :: chunkList w n (s.drop w)

/-- Arithmetic progression of row indices (`start`, `start + step`, ...). -/
def arithSeq (start step : Int) (cnt : Nat) : List Int :=
  (List.range cnt).map fun (i : Nat) => start + step * (i : Int)

/-- Write `bytes` into a byte-addressed buffer at offset `off` (the
function-model of `fread(row_start, w, 1, fh)` landing in the pixel
allocation). -/
def bufWrite (buf : Nat → Nat) (off : Nat) (bytes : List Nat) : Nat → Nat :=
  fun i => if off ≤ i ∧ i < off + bytes.length then bytes.getD (i - off) 0
    else buf i

/-- Apply the writes of a placement list in order: placement `(r, b)`
writes `b` at byte offset `r * 3 * w` of the pixel allocation, exactly as
`unsigned char *row_start = p + row * 3 * info->width` does. -/
def step1Buf (w : Nat) (ps : List (Int × List Nat)) (buf : Nat → Nat) :
    Nat → Nat :=
  match ps with
  | [] => buf
  | p :: rest => step1Buf w rest (bufWrite buf (3 * w * p.1.toNat) p.2)

theorem chunkList_length (w : Nat) :
    ∀ n s, (chunkList w n s).length = n := by
  intro n
  induction n with
  | zero => intro s; rfl
  | succ n ih => intro s; simp [chunkList, ih]

theorem chunkList_append (w : Nat) :
    ∀ n m s, chunkList w (n + m) s =
      chunkList w n s ++ chunkList w m (s.drop (n * w)) := by
  intro n
  induction n with
  | zero => intro m s; simp [chunkList]
  | succ n ih =>
    intro m s
    rw [show n + 1 + m = (n + m) + 1 from by omega]
    show s.take w :: chunkList w (n + m) (s.drop w) =
      (s.take w :: chunkList w n (s.drop w)) ++
        chunkList w m (s.drop ((n + 1) * w))
    rw [List.cons_append, ih m (s.drop w), List.drop_drop,
        show w + n * w = (n + 1) * w from by ring]

theorem arithSeq_length (r st : Int) (cnt : Nat) :
    (arithSeq r st cnt).length = cnt := by
  simp [arithSeq]

theorem arithSeq_succ (r st : Int) (m : Nat) :
    arithSeq r st (m + 1) = r :: arithSeq (r + st) st m := by
  unfold arithSeq
  rw [List.range_succ_eq_map, List.map_cons, List.map_map]
  refine congrArg₂ List.cons (by simp) ?_
  apply List.map_congr_left
  intro i _
  show r + st * ((i + 1 : Nat) : Int) = r + st + st * (i : Int)
  push_cast
  ring

theorem mem_arithSeq {a r st : Int} {cnt : Nat} :
    a ∈ arithSeq r st cnt ↔ ∃ i : Nat, i < cnt ∧ a = r + st * i := by
  unfold arithSeq
  simp [eq_comm]

theorem arithSeq_nodup (r : Int) {st : Int} (hst : 0 < st) (cnt : Nat) :
    (arithSeq r st cnt).Nodup := by
  refine List.Nodup.map ?_ (List.nodup_range cnt)
  intro a b hab
  have h1 : st * (a : Int) = st * (b : Int) := add_left_cancel hab
  have h2 := mul_left_cancel₀ (by omega : st ≠ 0) h1
  exact_mod_cast h2

theorem passRows_arith :
    ∀ (f : Nat) (row step h : Int), step = 2 ∨ step = 4 → 0 ≤ row →
      row < h → (h - row).toNat ≤ f →
      passRows f row step h =
        arithSeq row step ((h - row - 1).toNat / step.toNat + 1) := by
  intro f
  induction f with
  | zero =>
    intro row step h hst h0 hlt hf
    exfalso
    omega
  | succ f ih =>
    intro row step h hst h0 hlt hf
    simp only [passRows]
    by_cases hc : row + step < h
    · rw [if_pos hc,
        ih (row + step) step h hst (by rcases hst with h2 | h4 <;> omega) hc
          (by rcases hst with h2 | h4 <;> subst step <;> omega)]
      have hM : (h - row - 1).toNat / step.toNat + 1 =
          ((h - (row + step) - 1).toNat / step.toNat + 1) + 1 := by
        rcases hst with h2 | h4
        · subst h2; rw [show ((2 : Int)).toNat = 2 from rfl]; omega
        · subst h4; rw [show ((4 : Int)).toNat = 4 from rfl]; omega
      rw [hM]
      conv_rhs => rw [arithSeq_succ]
    · rw [if_neg hc]
      have hone : (h - row - 1).toNat / step.toNat + 1 = 1 := by
        rcases hst with h2 | h4
        · subst h2; rw [show ((2 : Int)).toNat = 2 from rfl]; omega
        · subst h4; rw [show ((4 : Int)).toNat = 4 from rfl]; omega
      rw [hone]
      unfold arithSeq
      rw [show List.range 1 = [0] from rfl]
      simp

theorem progPassF_spec :
    ∀ (f : Nat) (row step h : Int) (w : Nat) (s : List Nat),
      1 ≤ step → (h - row).toNat ≤ f → 0 < f →
      (passRows f row step h).length * w ≤ s.length →
      progPassF f row step h w s =
        some ((passRows f row step h).zip
            (chunkList w (passRows f row step h).length s),
          s.drop ((passRows f row step h).length * w)) := by
  intro f
  induction f with
  | zero => intro _ _ _ _ _ _ _ hf; omega
  | succ f ih =>
    intro row step h w s hstep hf _ hs
    simp only [passRows] at hs ⊢
    by_cases hc : row + step < h
    · rw [if_pos hc] at hs ⊢
      have hlen1 : w ≤ s.length := by
        have h1 : 1 ≤ (row :: passRows f (row + step) step h).length := by simp
        calc w = 1 * w := by ring
        _ ≤ (row :: passRows f (row + step) step h).length * w :=
          Nat.mul_le_mul_right w h1
        _ ≤ s.length := hs
      show (match readBytes w s with
        | none => none
        | some (bytes, s') =>
          if row + step < h then _ else _) = _
      rw [show readBytes w s = some (s.take w, s.drop w) from by
        unfold readBytes; rw [if_pos hlen1]]
      dsimp only
      rw [if_pos hc]
      have hT : (row :: passRows f (row + step) step h).length * w =
          (passRows f (row + step) step h).length * w + w := by
        simp [Nat.succ_mul]
      have hrec := ih (row + step) step h w (s.drop w) hstep
        (by omega) (by omega)
        (by simp; exact Nat.le_sub_of_add_le (by omega))
      rw [hrec]
      simp only [Option.map_some']
      have hz : List.zip (row :: passRows f (row + step) step h)
          (chunkList w (row :: passRows f (row + step) step h).length s) =
          (row, s.take w) :: (passRows f (row + step) step h).zip
            (chunkList w (passRows f (row + step) step h).length
              (s.drop w)) := by
        rw [show (row :: passRows f (row + step) step h).length =
          (passRows f (row + step) step h).length + 1 from by simp]
        rfl
      have hD : List.drop ((row :: passRows f (row + step) step h).length * w)
          s = List.drop ((passRows f (row + step) step h).length * w)
            (s.drop w) := by
        rw [List.drop_drop]
        congr 1
        omega
      rw [hz, hD]
    · rw [if_neg hc] at hs ⊢
      have hlen1 : w ≤ s.length := by simpa using hs
      show (match readBytes w s with
        | none => none
        | some (bytes, s') =>
          if row + step < h then _ else _) = _
      rw [show readBytes w s = some (s.take w, s.drop w) from by
        unfold readBytes; rw [if_pos hlen1]]
      dsimp only
      rw [if_neg hc]
      simp [chunkList]

theorem chunkList_mem_length {w : Nat} :
    ∀ (n : Nat) (s : List Nat), n * w ≤ s.length →
      ∀ c ∈ chunkList w n s, c.length = w := by
  intro n
  induction n with
  | zero => intro s _ c hc; cases hc
  | succ n ih =>
    intro s hs c hc
    have hw : w ≤ s.length := by
      calc w = 1 * w := by ring
      _ ≤ (n + 1) * w := Nat.mul_le_mul_right w (by omega)
      _ ≤ s.length := hs
    rcases List.mem_cons.mp hc with he | hm
    · subst he
      simp [hw]
    · refine ih (s.drop w) ?_ c hm
      simp
      refine Nat.le_sub_of_add_le ?_
      calc n * w + w = (n + 1) * w := by ring
      _ ≤ s.length := hs

/-- The row-read order the spec describes for an accepted BCPROG image of
height `h ≥ 3`: indices divisible by 4 (`0, 4, 8, ...`), then odd
multiples of 2 (`2, 6, 10, ...`), then the odd indices (`1, 3, 5, ...`),
each group listing every such row below `h`. -/
def progOrder (h : Int) : List Int :=
  arithSeq 0 4 ((h - 1).toNat / 4 + 1) ++
    arithSeq 2 4 ((h - 3).toNat / 4 + 1) ++
    arithSeq 1 2 ((h - 2).toNat / 2 + 1)

theorem progOrder_mem {h : Int} (h3 : 3 ≤ h) :
    ∀ r ∈ progOrder h, 0 ≤ r ∧ r < h := by
  intro r hr
  rcases List.mem_append.mp hr with h12 | hg3
  · rcases List.mem_append.mp h12 with hg1 | hg2
    · obtain ⟨i, hi, rfl⟩ := mem_arithSeq.mp hg1
      omega
    · obtain ⟨i, hi, rfl⟩ := mem_arithSeq.mp hg2
      omega
  · obtain ⟨i, hi, rfl⟩ := mem_arithSeq.mp hg3
    omega

theorem progOrder_nodup {h : Int} : (progOrder h).Nodup := by
  unfold progOrder
  rw [List.nodup_append, List.nodup_append]
  refine ⟨⟨arithSeq_nodup 0 (by omega) _, arithSeq_nodup 2 (by omega) _,
    ?_⟩, arithSeq_nodup 1 (by omega) _, ?_⟩
  · intro a ha hb
    obtain ⟨i, _, rfl⟩ := mem_arithSeq.mp ha
    obtain ⟨j, _, hj⟩ := mem_arithSeq.mp hb
    omega
  · intro a ha hb
    obtain ⟨k, _, hk⟩ := mem_arithSeq.mp hb
    rcases List.mem_append.mp ha with hg1 | hg2
    · obtain ⟨i, _, rfl⟩ := mem_arithSeq.mp hg1
      omega
    · obtain ⟨i, _, rfl⟩ := mem_arithSeq.mp hg2
      omega

theorem step1Buf_out :
    ∀ (ps : List (Int × List Nat)) (w : Nat) (buf : Nat → Nat) (x : Nat),
      (∀ p ∈ ps, x < 3 * w * p.1.toNat ∨ 3 * w * p.1.toNat + p.2.length ≤ x) →
      step1Buf w ps buf x = buf x := by
  intro ps
  induction ps with
  | nil => intro w buf x _; rfl
  | cons p rest ih =>
    intro w buf x hout
    show step1Buf w rest (bufWrite buf (3 * w * p.1.toNat) p.2) x = buf x
    rw [ih w _ x (fun q hq => hout q (List.mem_cons_of_mem p hq))]
    unfold bufWrite
    rcases hout p (List.mem_cons_self p rest) with hl | hr
    · rw [if_neg (by omega)]
    · rw [if_neg (by omega)]

theorem step1Buf_get :
    ∀ (ps : List (Int × List Nat)) (w : Nat) (buf : Nat → Nat)
      (r : Int) (b : List Nat) (j : Nat),
      1 ≤ w → ps.Pairwise (fun p q => p.1 ≠ q.1) →
      (∀ p ∈ ps, 0 ≤ p.1 ∧ p.2.length = w) →
      (r, b) ∈ ps → j < w →
      step1Buf w ps buf (3 * w * r.toNat + j) = b.getD j 0 := by
  intro ps
  induction ps with
  | nil => intro _ _ _ _ _ _ _ _ h _; cases h
  | cons p rest ih =>
    intro w buf r b j hw hpw hlen hmem hj
    obtain ⟨hhead, hrest⟩ := List.pairwise_cons.mp hpw
    rcases List.mem_cons.mp hmem with heq | hmem'
    · cases heq.symm
      show step1Buf w rest (bufWrite buf (3 * w * r.toNat) b)
        (3 * w * r.toNat + j) = b.getD j 0
      have hblen : b.length = w := (hlen (r, b) (List.mem_cons_self _ _)).2
      have hr0 : 0 ≤ r := (hlen (r, b) (List.mem_cons_self _ _)).1
      rw [step1Buf_out rest w _ _ ?_]
      · unfold bufWrite
        rw [if_pos ⟨by omega, by omega⟩]
        congr 1
        omega
      · intro q hq
        have hne : r ≠ q.1 := hhead q hq
        have hq0 : 0 ≤ q.1 := (hlen q (List.mem_cons_of_mem _ hq)).1
        have hql : q.2.length = w := (hlen q (List.mem_cons_of_mem _ hq)).2
        have htne : r.toNat ≠ q.1.toNat := by omega
        rcases Nat.lt_or_ge r.toNat q.1.toNat with hlt | hge
        · left
          have hmul : 3 * w * (r.toNat + 1) ≤ 3 * w * q.1.toNat :=
            Nat.mul_le_mul_left (3 * w) hlt
          have hexp : 3 * w * (r.toNat + 1) = 3 * w * r.toNat + 3 * w := by
            ring
          have hw3 : j < 3 * w := by omega
          linarith
        · right
          have hlt' : q.1.toNat + 1 ≤ r.toNat := by omega
          have hmul : 3 * w * (q.1.toNat + 1) ≤ 3 * w * r.toNat :=
            Nat.mul_le_mul_left (3 * w) hlt'
          have hexp : 3 * w * (q.1.toNat + 1) =
              3 * w * q.1.toNat + 3 * w := by ring
          have hwl : q.2.length ≤ 3 * w := by omega
          linarith
    · exact ih w _ r b j hw hrest
        (fun q hq => hlen q (List.mem_cons_of_mem _ hq)) hmem' hj

/-- Concrete BCPROG header (after the magic) accepted with width 1,
height 2: the smallest height the parser's `height < 2` check admits. -/
def c3Stream : List Nat :=
  [0, 0, 0, 0, 0, 0, 1, 216] ++
    ([0, 0, 0, 0, 0, 0, 0, 1] ++ [0, 0, 0, 0, 0, 0, 0, 2])

/-- Claim C3, counterexample: height 2 is accepted by `parse_bcprog`, but
the second deinterlacing pass is a `do`-`while` loop that reads its first
row before testing `row < height`, so it reads one row and places it at
row index 2 — which is `≥ height`, i.e. at byte offset `2 * 3 * width`,
beyond the `3 * width * height`-byte raster (into the allocation's
trailer).  Concretely, for width 1, height 2 and pixel stream
`[9, 8, 7]`, the placements are rows 0, 2, 1. -/
theorem C3_counterexample :
    bcprogPre c3Stream = .ok ((1, 2), []) ∧
    progStep1 1 2 [9, 8, 7] = some ([(0, [9]), (2, [8]), (1, [7])], []) ∧
    ¬ ((2 : Int) < 2) :=
  ⟨by decide, by decide, by decide⟩

/-- Claim C3 as amended: for every accepted BCPROG image with
`3 ≤ height ≤ 600` and `1 ≤ width ≤ 800` (height 2, though accepted, is
excluded: there the second pass places a row at index 2 ≥ height), the
deinterlacing step reads rows from the stream in the order: indices
divisible by 4, then odd multiples of 2, then odd indices; every row read
is `width` bytes, the i-th row read is the i-th `width`-byte chunk of the
stream, every placement row index is `< height`, and writing each row at
its placement offset `row * 3 * width` puts its bytes at their correct
final row position in the raster. -/
theorem C3_theorem :
    ∀ (w h : Nat) (s : List Nat), 3 ≤ h → h ≤ 600 → 1 ≤ w → w ≤ 800 →
      h * w ≤ s.length →
      ∃ ps rest, progStep1 (w : Int) (h : Int) s = some (ps, rest) ∧
        ps.map Prod.fst = progOrder (h : Int) ∧
        (∀ p ∈ ps, 0 ≤ p.1 ∧ p.1 < (h : Int) ∧ p.2.length = w) ∧
        ps.map Prod.snd = chunkList w h s ∧
        rest = s.drop (h * w) ∧
        (∀ (buf : Nat → Nat) (r : Int) (b : List Nat) (j : Nat),
          (r, b) ∈ ps → j < w →
          step1Buf w ps buf (3 * w * r.toNat + j) = b.getD j 0) := by
  intro w h s hh3 hh6 hw1 hw8 hs
  have hW : ((w : Int)).toNat = w := by omega
  have hH : ((h : Int)).toNat = h := by omega
  obtain ⟨n1, hn1⟩ : ∃ n, n = (((h : Int)) - 1).toNat / 4 + 1 := ⟨_, rfl⟩
  obtain ⟨n2, hn2⟩ : ∃ n, n = (((h : Int)) - 3).toNat / 4 + 1 := ⟨_, rfl⟩
  obtain ⟨n3, hn3⟩ : ∃ n, n = (((h : Int)) - 2).toNat / 2 + 1 := ⟨_, rfl⟩
  have hsum : n1 + n2 + n3 = h := by omega
  have hhw : h * w = n1 * w + n2 * w + n3 * w := by rw [← hsum]; ring
  have hp1 : passRows (((h : Int)).toNat + 1) 0 4 ((h : Int)) =
      arithSeq 0 4 n1 := by
    rw [passRows_arith _ 0 4 _ (Or.inr rfl) (le_refl 0) (by omega) (by omega)]
    congr 1
    rw [show ((4 : Int)).toNat = 4 from rfl]
    omega
  have hp2 : passRows (((h : Int)).toNat + 1) 2 4 ((h : Int)) =
      arithSeq 2 4 n2 := by
    rw [passRows_arith _ 2 4 _ (Or.inr rfl) (by omega) (by omega) (by omega)]
    congr 1
    rw [show ((4 : Int)).toNat = 4 from rfl]
    omega
  have hp3 : passRows (((h : Int)).toNat + 1) 1 2 ((h : Int)) =
      arithSeq 1 2 n3 := by
    rw [passRows_arith _ 1 2 _ (Or.inl rfl) (by omega) (by omega) (by omega)]
    congr 1
    rw [show ((2 : Int)).toNat = 2 from rfl]
    omega
  have hprod : (n1 + n2 + n3) * w = n1 * w + n2 * w + n3 * w := by ring
  have hb1 : n1 * w ≤ s.length :=
    le_trans (Nat.mul_le_mul_right w (by omega : n1 ≤ h)) hs
  have hrun1 : progPassF (((h : Int)).toNat + 1) 0 4 ((h : Int)) w s =
      some ((arithSeq 0 4 n1).zip (chunkList w n1 s), s.drop (n1 * w)) := by
    have hb : (passRows (((h : Int)).toNat + 1) 0 4 ((h : Int))).length * w ≤
        s.length := by rw [hp1, arithSeq_length]; exact hb1
    have := progPassF_spec (((h : Int)).toNat + 1) 0 4 ((h : Int)) w s
      (by omega) (by omega) (by omega) hb
    rw [hp1, arithSeq_length] at this
    exact this
  have hb2 : n2 * w ≤ (s.drop (n1 * w)).length := by
    have h12 : (n1 + n2) * w ≤ h * w :=
      Nat.mul_le_mul_right w (by omega : n1 + n2 ≤ h)
    have hexp : (n1 + n2) * w = n1 * w + n2 * w := by ring
    simp
    omega
  have hrun2 : progPassF (((h : Int)).toNat + 1) 2 4 ((h : Int)) w
      (s.drop (n1 * w)) =
      some ((arithSeq 2 4 n2).zip (chunkList w n2 (s.drop (n1 * w))),
        (s.drop (n1 * w)).drop (n2 * w)) := by
    have hb : (passRows (((h : Int)).toNat + 1) 2 4 ((h : Int))).length * w ≤
        (s.drop (n1 * w)).length := by rw [hp2, arithSeq_length]; exact hb2
    have := progPassF_spec (((h : Int)).toNat + 1) 2 4 ((h : Int)) w
      (s.drop (n1 * w)) (by omega) (by omega) (by omega) hb
    rw [hp2, arithSeq_length] at this
    exact this
  have hb3 : n3 * w ≤ ((s.drop (n1 * w)).drop (n2 * w)).length := by
    have h123 : (n1 + n2 + n3) * w ≤ h * w :=
      Nat.mul_le_mul_right w (by omega : n1 + n2 + n3 ≤ h)
    simp
    omega
  have hrun3 : progPassF (((h : Int)).toNat + 1) 1 2 ((h : Int)) w
      ((s.drop (n1 * w)).drop (n2 * w)) =
      some ((arithSeq 1 2 n3).zip
          (chunkList w n3 ((s.drop (n1 * w)).drop (n2 * w))),
        (((s.drop (n1 * w)).drop (n2 * w)).drop (n3 * w))) := by
    have hb : (passRows (((h : Int)).toNat + 1) 1 2 ((h : Int))).length * w ≤
        ((s.drop (n1 * w)).drop (n2 * w)).length := by
      rw [hp3, arithSeq_length]; exact hb3
    have := progPassF_spec (((h : Int)).toNat + 1) 1 2 ((h : Int)) w
      ((s.drop (n1 * w)).drop (n2 * w)) (by omega) (by omega) (by omega) hb
    rw [hp3, arithSeq_length] at this
    exact this
  refine ⟨(arithSeq 0 4 n1).zip (chunkList w n1 s) ++
      ((arithSeq 2 4 n2).zip (chunkList w n2 (s.drop (n1 * w))) ++
        (arithSeq 1 2 n3).zip
          (chunkList w n3 ((s.drop (n1 * w)).drop (n2 * w)))),
    ((s.drop (n1 * w)).drop (n2 * w)).drop (n3 * w),
    ?_, ?_, ?_, ?_, ?_, ?_⟩
  · unfold progStep1
    rw [hW, hrun1]
    dsimp only
    rw [hrun2]
    dsimp only
    rw [hrun3]
    simp [List.append_assoc]
  · rw [List.map_append, List.map_append,
        List.map_fst_zip _ _ (by rw [arithSeq_length, chunkList_length]),
        List.map_fst_zip _ _ (by rw [arithSeq_length, chunkList_length]),
        List.map_fst_zip _ _ (by rw [arithSeq_length, chunkList_length])]
    unfold progOrder
    rw [← hn1, ← hn2, ← hn3, List.append_assoc]
  · intro p hp
    rcases List.mem_append.mp hp with h1 | h23
    · obtain ⟨hf, hsnd⟩ := List.mem_zip h1
      obtain ⟨i, hi, hif⟩ := mem_arithSeq.mp hf
      refine ⟨by omega, by omega, chunkList_mem_length n1 s hb1 _ hsnd⟩
    · rcases List.mem_append.mp h23 with h2 | h3
      · obtain ⟨hf, hsnd⟩ := List.mem_zip h2
        obtain ⟨i, hi, hif⟩ := mem_arithSeq.mp hf
        refine ⟨by omega, by omega, chunkList_mem_length n2 _ hb2 _ hsnd⟩
      · obtain ⟨hf, hsnd⟩ := List.mem_zip h3
        obtain ⟨i, hi, hif⟩ := mem_arithSeq.mp hf
        refine ⟨by omega, by omega, chunkList_mem_length n3 _ hb3 _ hsnd⟩
  · rw [List.map_append, List.map_append,
        List.map_snd_zip _ _ (by rw [arithSeq_length, chunkList_length]),
        List.map_snd_zip _ _ (by rw [arithSeq_length, chunkList_length]),
        List.map_snd_zip _ _ (by rw [arithSeq_length, chunkList_length]),
        show h = n1 + (n2 + n3) from by omega]
    conv_rhs => rw [chunkList_append, chunkList_append]
  · rw [List.drop_drop, List.drop_drop]
    congr 1
    omega

  · intro buf r b j hmem hj
    refine step1Buf_get _ w buf r b j hw1 ?_ ?_ hmem hj
    · have hnd : (((arithSeq 0 4 n1).zip (chunkList w n1 s) ++
          ((arithSeq 2 4 n2).zip (chunkList w n2 (s.drop (n1 * w))) ++
            (arithSeq 1 2 n3).zip
              (chunkList w n3 ((s.drop (n1 * w)).drop (n2 * w))))).map
          Prod.fst).Nodup := by
        rw [List.map_append, List.map_append,
          List.map_fst_zip _ _ (by rw [arithSeq_length, chunkList_length]),
          List.map_fst_zip _ _ (by rw [arithSeq_length, chunkList_length]),
          List.map_fst_zip _ _ (by rw [arithSeq_length, chunkList_length]),
          ← List.append_assoc, hn1, hn2, hn3]
        exact progOrder_nodup
      exact List.pairwise_map.mp hnd
    · intro p hp
      rcases List.mem_append.mp hp with h1 | h23
      · obtain ⟨hf, hsnd⟩ := List.mem_zip h1
        obtain ⟨i, hi, hif⟩ := mem_arithSeq.mp hf
        exact ⟨by omega, chunkList_mem_length n1 s hb1 _ hsnd⟩
      · rcases List.mem_append.mp h23 with h2 | h3
        · obtain ⟨hf, hsnd⟩ := List.mem_zip h2
          obtain ⟨i, hi, hif⟩ := mem_arithSeq.mp hf
          exact ⟨by omega, chunkList_mem_length n2 _ hb2 _ hsnd⟩
        · obtain ⟨hf, hsnd⟩ := List.mem_zip h3
          obtain ⟨i, hi, hif⟩ := mem_arithSeq.mp hf
          exact ⟨by omega, chunkList_mem_length n3 _ hb3 _ hsnd⟩

/-- Witness for C3 at width 1, height 3, pixel stream `[5, 6, 7]`. -/
theorem C3_witness :
    ∃ ps rest,
      progStep1 ((1 : Nat) : Int) ((3 : Nat) : Int) [5, 6, 7] =
        some (ps, rest) ∧
      ps.map Prod.fst = progOrder ((3 : Nat) : Int) ∧
      (∀ p ∈ ps, 0 ≤ p.1 ∧ p.1 < ((3 : Nat) : Int) ∧ p.2.length = 1) ∧
      ps.map Prod.snd = chunkList 1 3 [5, 6, 7] ∧
      rest = List.drop (3 * 1) [5, 6, 7] ∧
      (∀ (buf : Nat → Nat) (r : Int) (b : List Nat) (j : Nat),
        (r, b) ∈ ps → j < 1 →
        step1Buf 1 ps buf (3 * 1 * r.toNat + j) = b.getD j 0) :=
  C3_theorem 1 3 [5, 6, 7] (by decide) (by decide) (by decide) (by decide)
    (by decide)

/-! ### BCFLAT: the entropy decoder (claims C6, C7, C8, C9)

`decode_flat` keeps pending codeword bits in a 32-bit shift register
(`unsigned int reg`), most significant bit first.  Bit-field tests on the
register such as `(reg & 0xe0000000) == 0x20000000` are translated as
`fld reg 29 3 = 1`, where `fld reg lo w = reg / 2 ^ lo % 2 ^ w` extracts
the `w` bits starting at bit `lo`; for every `Nat` the two forms agree
because the C masks are contiguous.  Shifts that wrap in C carry an
explicit `% 2 ^ 32`. -/

/-- Extract the `w`-bit field of `reg` whose least significant bit is bit
`lo`. -/
def fld (reg lo w : Nat) : Nat := reg / 2 ^ lo % 2 ^ w

/-- Embedding of the codeword classifier of `decode_flat` (the long
`if`/`else` tree on `reg`): returns the codeword length, the number of
samples it decodes, and the per-sample signed difference.  `none` is the
`assert(0)` branch (provably unreachable).  The table, branch for branch:
`000`, `0010`, `00110`, `00111xx` (runs of 2,3,4,5+xx zero differences);
`01nsxx` (n: 2 or 3 samples, s: sign, diff `1+xx` or `-4+xx`); `100`,
`1010`/`1011`, `1100xy`, `1101xyy` (single samples, diffs 0, ±1, the
tables {2,3,-3,-2} and {4,5,6,7,-7,-6,-5,-4}); `1110` bands (subtype
`sss`, extension of `3 + sss/2` bits, bases {8,-15,16,-31,32,-63,64,-127},
length `10 + sss/2`); `1111xxx` (±128, reserved patterns decoded the
same). -/
def decodeStep (reg : Nat) : Option (Nat × Nat × Int) :=
  if fld reg 30 2 = 0 then
    if fld reg 29 3 = 0 then some (3, 2, 0)
    else if fld reg 28 4 = 2 then some (4, 3, 0)
    else if fld reg 27 5 = 6 then some (5, 4, 0)
    else if fld reg 27 5 = 7 then some (7, 5 + fld reg 25 2, 0)
    else none
  else if fld reg 30 2 = 1 then
    some (6, if fld reg 29 1 = 1 then 3 else 2,
      if fld reg 28 1 = 1 then -4 + (fld reg 26 2 : Int)
      else 1 + (fld reg 26 2 : Int))
  else
    if fld reg 29 3 = 4 then some (3, 1, 0)
    else if fld reg 29 3 = 5 then
      some (4, 1, if fld reg 28 4 = 10 then 1 else -1)
    else if fld reg 28 4 = 12 then
      some (6, 1, [2, 3, -3, -2].getD (fld reg 26 2) 0)
    else if fld reg 28 4 = 13 then
      some (7, 1, [4, 5, 6, 7, -7, -6, -5, -4].getD (fld reg 25 3) 0)
    else if fld reg 28 4 = 14 then
      some (10 + fld reg 25 3 / 2, 1,
        ([8, -15, 16, -31, 32, -63, 64, -127].getD (fld reg 25 3) 0 : Int) +
          (fld reg (22 - fld reg 25 3 / 2) (3 + fld reg 25 3 / 2) : Int))
    else if fld reg 28 4 = 15 then some (7, 1, -128)
    else none

/-- The next sample value: the previous sample plus the signed difference,
wrapped to an unsigned byte (`unsigned char next = last + diff`). -/
def nextSample (last : Nat) (diff : Int) : Nat :=
  (((last : Int) + diff) % 256).toNat

/-- Decode one run: append `n` samples, each stepping from the previous
one by `diff` (mod 256); returns the samples and the final `last`. -/
def emitRun : Nat → Nat → Int → List Nat × Nat
  | last, 0, _ => ([], last)
  | last, n + 1, diff =>
    let nx := nextSample last diff
    let (rest, fin) := emitRun nx n diff
    (nx :: rest, fin)

/-- Result of the main loop of `decode_flat`: the loop variables at exit,
a failed assertion, or exhausted fuel (unreachable at the chosen fuel). -/
inductive FlatRes where
  | ok (p reg regSize padding numPixels : Nat) (out : List Nat) (last : Nat)
  | assertFail
  | fuelOut
  deriving Repr, DecidableEq

/-- One step of the register refill loop of `decode_flat`: account the
byte as padding when `p` is at or past the real input, then shift it into
the register below the pending bits. -/
def refillStep (compPad : List Nat) (compSize p reg regSize padding : Nat) :
    Nat × Nat × Nat × Nat :=
  (p + 1, reg ||| (compPad.getD p 0) <<< (24 - regSize), regSize + 8,
   if compSize ≤ p then padding + 8 else padding)

/-- The `while (reg_size < 13)` refill loop (at most two iterations, since
each adds 8 bits). -/
def flatRefill : Nat → List Nat → Nat → Nat × Nat × Nat × Nat →
    Nat × Nat × Nat × Nat
  | 0, _, _, st => st
  | f + 1, compPad, compSize, (p, reg, regSize, padding) =>
    if regSize < 13 then
      flatRefill f compPad compSize
        (refillStep compPad compSize p reg regSize padding)
    else (p, reg, regSize, padding)

/-- The main loop of `decode_flat`.  Each iteration refills the register,
classifies the next codeword, stops ("break") when the codeword length
exceeds the genuine (non-padding) bits in the register, and otherwise
retires the codeword and appends its samples: a `00`-class codeword
repeats the current `last` byte; the other classes step by the signed
difference.  Fuel `maxPixels + 1` suffices because every match appends at
least one sample. -/
def flatLoop (compPad : List Nat) (compSize maxPixels : Nat) :
    Nat → Nat → Nat → Nat → Nat → Nat → List Nat → Nat → FlatRes
  | 0, _, _, _, _, _, _, _ => .fuelOut
  | fuel + 1, p, reg, regSize, padding, numPixels, out, last =>
    if numPixels < maxPixels ∧ p < compSize + 2 then
      match flatRefill 2 compPad compSize (p, reg, regSize, padding) with
      | (p', reg', regSize', padding') =>
        match decodeStep reg' with
        | none => .assertFail
        | some (codelen, n, diff) =>
          if regSize' - padding' < codelen then
            .ok p' reg' regSize' padding' numPixels out last
          else
            let (samples, last') :=
              if fld reg' 30 2 = 0 then (List.replicate n last, last)
              else emitRun last n diff
            flatLoop compPad compSize maxPixels fuel p'
              ((reg' <<< codelen) % 2 ^ 32) (regSize' - codelen) padding'
              (numPixels + n) (out ++ samples) last'
    else .ok p reg regSize padding numPixels out last

/-- The trailing "unget" loop of `decode_flat`: while at least 8 bits
remain in the register, clear its lowest occupied byte and put the byte
back (`p--`). -/
def ungetLoop : Nat → Nat → Nat → Nat → Nat × Nat × Nat
  | 0, p, reg, regSize => (p, reg, regSize)
  | f + 1, p, reg, regSize =>
    if 8 ≤ regSize then
      ungetLoop f (p - 1)
        (reg &&& (2 ^ 32 - 1 - (255 <<< (32 - regSize)) % 2 ^ 32))
        (regSize - 8)
    else (p, reg, regSize)

/-- The per-row continuation state (`struct flat_decode_state`). -/
structure FlatState where
  reg : Nat
  regSize : Nat
  last : Nat
  deriving Repr, DecidableEq

/-- Result of one `decode_flat` call: compressed bytes consumed, decoded
samples, and the updated state — or a failed assertion. -/
inductive DFRes where
  | ok (consumed : Nat) (out : List Nat) (st : FlatState)
  | assertFail
  deriving Repr, DecidableEq

/-- Embedding of `decode_flat`: check `comp_size <= FLATBUF` (an
`assert`), pad the input with two zero bytes, run the main loop from the
caller's state, and put whole leftover bytes back; the consumed count is
`MIN(comp_size, p - comp_buf)`.  The number of decoded samples equals the
length of `out` (the C `assert(q - uncomp_buf == num_pixels)`). -/
def decodeFlat (comp : List Nat) (maxPixels : Nat) (st : FlatState) : DFRes :=
  if 100 < comp.length then .assertFail
  else
    match flatLoop (comp ++ [0, 0]) comp.length maxPixels (maxPixels + 1)
      0 st.reg st.regSize 0 0 [] st.last with
    | .fuelOut => .assertFail
    | .assertFail => .assertFail
    | .ok p reg regSize _padding _numPixels out last =>
      if maxPixels + 8 < out.length then .assertFail
      else
        match ungetLoop 4 p reg regSize with
        | (p2, reg2, regSize2) =>
          .ok (min comp.length p2) out ⟨reg2, regSize2, last⟩

/-- Outcome of `read_flat_data` (and of the row/channel loops inside it):
the remaining stream, remaining buffered bytes and the raster on success;
a format error; or a failed `assert`. -/
inductive FlatDataRes where
  | ok (stream : List Nat) (buf : List Nat) (raster : List Nat)
  | err (e : ParseErr)
  | assertFail
  deriving Repr, DecidableEq

/-- Write decoded samples into the raster at positions `base, base + 3,
base + 6, ...` (one color channel, stride 3). -/
def writeSamples : List Nat → Nat → List Nat → List Nat
  | raster, _, [] => raster
  | raster, i, b :: rest => writeSamples (raster.set i b) (i + 3) rest

/-- The `while (x < width)` loop of `read_flat_data` for one row and
channel: refill the 100-byte buffer from the stream, fail with
"too little data" if it is empty, decode, fail the `assert(num_pixels >
0)` if nothing was decoded, fail with "excess pixels at end of row" when
the decode overshot the row, write the samples with stride 3, and drop
the consumed bytes from the buffer.  Fuel `w + 1` suffices because `x`
grows every continuing iteration. -/
def flatRowLoop (w rowOff ch : Nat) :
    Nat → List Nat → List Nat → List Nat → Nat → FlatState → FlatDataRes
  | 0, _, _, _, _, _ => .assertFail
  | fuel + 1, s, buf, raster, x, st =>
    if x < w then
      let grabbed := s.take (100 - buf.length)
      let s' := s.drop (100 - buf.length)
      let buf' := buf ++ grabbed
      if buf'.length = 0 then .err .tooLittleData
      else
        match decodeFlat buf' (w - x) st with
        | .assertFail => .assertFail
        | .ok consumed out st' =>
          if out.length = 0 then .assertFail
          else if w - x + 8 < out.length then .assertFail
          else if w - x < out.length then .err .excessPixels
          else
            flatRowLoop w rowOff ch fuel s' (buf'.drop consumed)
              (writeSamples raster (rowOff + 3 * x + ch) out)
              (x + out.length) st'
    else .ok s buf raster

/-- The row loop of `read_flat_data` for one channel: take the row's
first literal byte (from the buffer if it is non-empty, else directly
from the stream), store it, seed a fresh decode state from it, and decode
the remaining `width - 1` samples. -/
def flatRowsLoop (w ch : Nat) :
    Nat → List Nat → List Nat → List Nat → Nat → FlatDataRes
  | 0, s, buf, raster, _ => .ok s buf raster
  | yr + 1, s, buf, raster, y =>
    match (match buf with
      | b :: bs => some (b, bs, s)
      | [] =>
        match s with
        | [] => none
        | b :: s' => some (b, ([] : List Nat), s')) with
    | none => .err .shortFirstByte
    | some (first, buf', s') =>
      match flatRowLoop w (3 * y * w) ch (w + 1) s' buf'
        ((raster.set (3 * y * w + ch) first)) 1 ⟨0, 0, first⟩ with
      | .ok s'' buf'' raster'' => flatRowsLoop w ch yr s'' buf'' raster'' (y + 1)
      | .err e => .err e
      | .assertFail => .assertFail

/-- The channel loop of `read_flat_data`: channels 0 (R), 1 (G), 2 (B) in
turn, each running the row loop over all `h` rows. -/
def flatChansLoop (w h : Nat) :
    Nat → List Nat → List Nat → List Nat → Nat → FlatDataRes
  | 0, s, buf, raster, _ => .ok s buf raster
  | cr + 1, s, buf, raster, ch =>
    match flatRowsLoop w ch h s buf raster 0 with
    | .ok s' buf' raster' => flatChansLoop w h cr s' buf' raster' (ch + 1)
    | .err e => .err e
    | .assertFail => .assertFail

/-- Embedding of `read_flat_data`: three channels, `h` rows each, over an
initially empty buffer. -/
def readFlatData (w h : Nat) (raster : List Nat) (s : List Nat) :
    FlatDataRes :=
  flatChansLoop w h 3 s [] raster 0

/-- Outcome of a whole-image parse. -/
inductive ImgRes where
  | ok (img : ImageInfo)
  | err (e : ParseErr)
  | assertFail
  deriving Repr, DecidableEq

/-- Embedding of `parse_bcflat` (after the dispatcher consumed the
magic): header and size checks against the current `size_limit`, the tag
section, then `read_flat_data` into a fresh raster of `3 * w * h` bytes
(malloc'd storage, modelled zero-initialized; every byte of a
successfully decoded raster is overwritten). -/
def parseBcflat (limit : Int) (s : List Nat) (fmt0 : List Nat) : ImgRes :=
  match bcflatPre limit s with
  | .error e => .err e
  | .ok ((width, height), s3) =>
    match processTags s3 ⟨-1, fmt0⟩ with
    | .err e => .err (.tagProblem e)
    | .out => .err .tagsOut
    | .ok st rest =>
      match readFlatData width.toNat height.toNat
        (List.replicate (3 * width.toNat * height.toNat) 0) rest with
      | .ok _ _ raster => .ok ⟨width, height, st.createTime, raster⟩
      | .err e => .err e
      | .assertFail => .assertFail

/-- The initial value of the global `size_limit`:
`floor(sqrt(2^31 / 3)) = 26754`. -/
def sizeLimitDefault : Int := 26754

/-- Modelled from `main` in the viewer's top-level file: when
`getrlimit(RLIMIT_STACK)` reports a finite soft limit of `rlim` bytes,
`size_limit` is overwritten with `(long)sqrt(rlim * 1024 / 3)` (integer
square root; the C `double` computation is exact for the magnitudes
involved up to at most one ulp, which does not affect the comparisons
proved here). -/
def sizeLimitAdjusted (rlim : Nat) : Nat := Nat.sqrt (rlim * 1024 / 3)

/-- At the common 8 MiB stack limit, `main` recomputes `size_limit` as
`(long)sqrt(8388608 * 1024 / 3) = sqrt(2863311530) = 53509`. -/
theorem sizeLimitAdjusted_8MiB : sizeLimitAdjusted 8388608 = 53509 := by
  unfold sizeLimitAdjusted
  have h1 : (8388608 * 1024 / 3 : Nat) = 2863311530 := by norm_num
  rw [h1]
  have hlo : 53509 ≤ Nat.sqrt 2863311530 := by
    rw [Nat.le_sqrt]
    norm_num
  have hhi : Nat.sqrt 2863311530 < 53510 := by
    rw [Nat.sqrt_lt]
    norm_num
  omega

/-- Every pair of dimensions the BCFLAT header check accepts is positive
and bounded by the current `size_limit`. -/
theorem bcflatPre_bounds {limit : Int} {s : List Nat} {w h : Int}
    {r : List Nat} (hp : bcflatPre limit s = .ok ((w, h), r)) :
    0 < w ∧ w ≤ limit ∧ 0 < h ∧ h ≤ limit := by
  unfold bcflatPre at hp
  repeat' split at hp
  all_goals cases hp
  simp only [not_or] at *
  push_neg at *
  refine ⟨by omega, by omega, by omega, by omega⟩

/-- Concrete BCFLAT header (after the magic): valid flags, width and
height both `30000`.  Accepted whenever `30000 ≤ size_limit`. -/
def c9Stream : List Nat :=
  [0, 0, 0, 0, 0, 0, 13, 3] ++
    ([0, 0, 0, 0, 0, 0, 117, 48] ++ [0, 0, 0, 0, 0, 0, 117, 48])

/-- Claim C9, counterexample: after `main`'s startup adjustment at the
common 8 MiB stack soft limit, `size_limit` becomes 53509 — the
adjustment RAISED the ceiling above the overflow-safe default 26754 —
and the BCFLAT header check then accepts width = height = 30000, for
which `3 * w * h = 2700000000 ≥ 2 ^ 31` overflows the signed 32-bit
`num_bytes` (it wraps to -1594967296). -/
theorem C9_counterexample :
    sizeLimitDefault = 26754 ∧
    sizeLimitAdjusted 8388608 = 53509 ∧
    bcflatPre ((sizeLimitAdjusted 8388608 : Nat) : Int) c9Stream
      = .ok ((30000, 30000), []) ∧
    ¬ (3 * (30000 : Int) * 30000 < 2 ^ 31) ∧
    numBytesInt 30000 30000 = -1594967296 := by
  refine ⟨rfl, sizeLimitAdjusted_8MiB, ?_, by decide, by decide⟩
  rw [sizeLimitAdjusted_8MiB]
  decide

/-- Claim C9 as amended: at the DEFAULT ceiling 26754 every BCFLAT image
accepted by the header check satisfies `3 * width * height < 2 ^ 31`, but
the startup adjustment `size_limit = (long)sqrt(rlim_cur * 1024 / 3)` is
not clamped to the overflow-safe value: it can RAISE the ceiling (at the
common 8 MiB stack limit, to 53509), after which the header check accepts
dimensions (e.g. 30000 × 30000) whose `3 * w * h` overflows the signed
32-bit byte count. -/
theorem C9_theorem :
    (∀ s w h r, bcflatPre sizeLimitDefault s = .ok ((w, h), r) →
      0 < w ∧ 0 < h ∧ 3 * w * h < 2 ^ 31) ∧
    (∀ rlim s w h r,
      bcflatPre ((sizeLimitAdjusted rlim : Nat) : Int) s = .ok ((w, h), r) →
      0 < w ∧ w ≤ (sizeLimitAdjusted rlim : Int) ∧
      0 < h ∧ h ≤ (sizeLimitAdjusted rlim : Int)) ∧
    sizeLimitDefault < ((sizeLimitAdjusted 8388608 : Nat) : Int) ∧
    (∃ s, bcflatPre ((sizeLimitAdjusted 8388608 : Nat) : Int) s
        = .ok ((30000, 30000), []) ∧
      ¬ (3 * (30000 : Int) * 30000 < 2 ^ 31)) := by
  refine ⟨?_, ?_, ?_, ?_⟩
  · intro s w h r hp
    obtain ⟨h1, h2, h3, h4⟩ := bcflatPre_bounds hp
    have hd : sizeLimitDefault = 26754 := rfl
    rw [hd] at h2 h4
    exact ⟨h1, h3, by nlinarith⟩
  · intro rlim s w h r hp
    exact bcflatPre_bounds hp
  · rw [sizeLimitAdjusted_8MiB]; decide
  · refine ⟨c9Stream, ?_, by decide⟩
    rw [sizeLimitAdjusted_8MiB]
    decide

/-- Witness for C9 at a concrete accepted BCFLAT header (width = height
= 20 at the default ceiling) and at the adjusted ceiling for an 8 MiB
stack. -/
theorem C9_witness :
    (0 < (20 : Int) ∧ 0 < (20 : Int) ∧ 3 * (20 : Int) * 20 < 2 ^ 31) ∧
    (0 < (20 : Int) ∧ (20 : Int) ≤ (sizeLimitAdjusted 8388608 : Int) ∧
      0 < (20 : Int) ∧ (20 : Int) ≤ (sizeLimitAdjusted 8388608 : Int)) :=
  ⟨C9_theorem.1 c4FlatStream 20 20 [] (by decide),
   C9_theorem.2.1 8388608 c4FlatStream 20 20 []
    (by rw [sizeLimitAdjusted_8MiB]; decide)⟩

/-! ### C6: the code table and the per-codeword decode semantics -/

/-- The BCFLAT code table of the specification (§4.5), with every
parameterized line expanded into its concrete codewords.  An entry
`(len, val, n, diff)` is a codeword of `len` bits whose value (read as a
`len`-bit number) is `val`, decoding to `n` samples of per-sample
difference `diff`:
`000`, `0010`, `00110` and `00111xx` are runs of 2, 3, 4 and `5 + xx`
zero differences; `01` + (count bit) + (sign bit) + `xx` repeats
`+(1+xx)` or `-(4-xx)` two or three times; `100`, `1010`/`1011`,
`1100xy`, `1101xyy` are single samples of difference 0, ±1, and the
tables {2,3,-3,-2} and {4,5,6,7,-7,-6,-5,-4}; `1110` + `sss` + an
extension of `3 + sss/2` bits covers bases {8,-15,16,-31,32,-63,64,-127}
plus the extension; `1111xxx` is a single ±128 step (reserved patterns
decoded the same). -/
def codeTable : List (Nat × Nat × Nat × Int) :=
  ([(3, 0, 2, 0), (4, 2, 3, 0), (5, 6, 4, 0)] : List (Nat × Nat × Nat × Int)) ++
  (List.range 4).map
    (fun xx => ((7, 28 + xx, 5 + xx, 0) : Nat × Nat × Nat × Int)) ++
  (List.range 16).map (fun i =>
    ((6, 16 + i, 2 + i / 8,
      if i / 4 % 2 = 1 then (-4 : Int) + (i % 4 : Int)
      else 1 + (i % 4 : Int)) : Nat × Nat × Nat × Int)) ++
  ([(3, 4, 1, 0), (4, 10, 1, 1), (4, 11, 1, -1)] : List (Nat × Nat × Nat × Int)) ++
  (List.range 4).map (fun i =>
    ((6, 48 + i, 1, [(2 : Int), 3, -3, -2].getD i 0) : Nat × Nat × Nat × Int)) ++
  (List.range 8).map (fun i =>
    ((7, 104 + i, 1,
      [(4 : Int), 5, 6, 7, -7, -6, -5, -4].getD i 0) : Nat × Nat × Nat × Int)) ++
  (List.range 8).bind (fun s =>
    (List.range (2 ^ (3 + s / 2))).map (fun a =>
      ((10 + s / 2, (112 + s) * 2 ^ (3 + s / 2) + a, 1,
        [(8 : Int), -15, 16, -31, 32, -63, 64, -127].getD s 0 + (a : Int)) :
        Nat × Nat × Nat × Int))) ++
  (List.range 8).map
    (fun x => ((7, 120 + x, 1, -128) : Nat × Nat × Nat × Int))

/-- Codeword 1 is an initial segment of codeword 2 (as bit strings read
most significant bit first). -/
def isCodeStart (len1 val1 len2 val2 : Nat) : Prop :=
  len1 ≤ len2 ∧ val2 / 2 ^ (len2 - len1) = val1

instance (len1 val1 len2 val2 : Nat) :
    Decidable (isCodeStart len1 val1 len2 val2) :=
  inferInstanceAs (Decidable (_ ∧ _))

/-- A bit field is bounded by `2 ^ width`. -/
theorem fld_lt (reg lo w : Nat) : fld reg lo w < 2 ^ w :=
  Nat.mod_lt _ (by positivity)

/-- Reading a window that lies inside bits 19–31 factors through the
13-bit field at bit 19. -/
theorem fld_window (reg lo w : Nat) (h1 : 19 ≤ lo) (h2 : lo + w ≤ 32) :
    fld reg lo w = fld (fld reg 19 13) (lo - 19) w := by
  show reg / 2 ^ lo % 2 ^ w = reg / 2 ^ 19 % 2 ^ 13 / 2 ^ (lo - 19) % 2 ^ w
  rw [show (2 : Nat) ^ 13 = 2 ^ (lo - 19) * 2 ^ (13 - (lo - 19)) from by
        rw [← pow_add]; congr 1; omega,
      Nat.mod_mul_right_div_self, Nat.div_div_eq_div_mul, ← pow_add,
      show 19 + (lo - 19) = lo from by omega,
      Nat.mod_mod_of_dvd _ (pow_dvd_pow 2 (show w ≤ 13 - (lo - 19) from by omega))]

/-- The codeword classifier reads only bits 19–31 of the register. -/
theorem decodeStep_congr {r1 r2 : Nat} (h : fld r1 19 13 = fld r2 19 13) :
    decodeStep r1 = decodeStep r2 := by
  have e : ∀ lo w, 19 ≤ lo → lo + w ≤ 32 → fld r1 lo w = fld r2 lo w := by
    intro lo w h1 h2
    rw [fld_window r1 lo w h1 h2, fld_window r2 lo w h1 h2, h]
  unfold decodeStep
  rw [e 30 2 (by omega) (by omega), e 29 3 (by omega) (by omega),
      e 28 4 (by omega) (by omega), e 27 5 (by omega) (by omega),
      e 25 2 (by omega) (by omega), e 29 1 (by omega) (by omega),
      e 28 1 (by omega) (by omega), e 26 2 (by omega) (by omega),
      e 25 3 (by omega) (by omega),
      e (22 - fld r2 25 3 / 2) (3 + fld r2 25 3 / 2)
        (by have := fld_lt r2 25 3; omega)
        (by have := fld_lt r2 25 3; omega)]

/-! ### C7: the bit-level reference decoder (spec side)

The specification describes the compressed data as a stream of bits, most
significant bit of each byte first, decoded greedily codeword by
codeword.  The definitions below follow that description; claim C7
compares the buffered, register-based machine against them. -/

/-- The bits of one byte, most significant first. -/
def byteBits (b : Nat) : List Bool :=
  [b / 128 % 2 == 1, b / 64 % 2 == 1, b / 32 % 2 == 1, b / 16 % 2 == 1,
   b / 8 % 2 == 1, b / 4 % 2 == 1, b / 2 % 2 == 1, b % 2 == 1]

/-- The bits of a byte stream, in stream order. -/
def bytesBits (l : List Nat) : List Bool := l.bind byteBits

/-- The value of a bit string read most significant bit first. -/
def bitsVal : List Bool → Nat
  | [] => 0
  | b :: rest => (if b then 1 else 0) * 2 ^ rest.length + bitsVal rest

theorem bitsVal_lt (L : List Bool) : bitsVal L < 2 ^ L.length := by
  induction L with
  | nil => exact Nat.zero_lt_one
  | cons b rest ih =>
    simp only [bitsVal, List.length_cons, pow_succ]
    rcases b with _ | _ <;> simp <;> omega

theorem bitsVal_append (X Y : List Bool) :
    bitsVal (X ++ Y) = bitsVal X * 2 ^ Y.length + bitsVal Y := by
  induction X with
  | nil => simp [bitsVal]
  | cons b rest ih =>
    show (if b then 1 else 0) * 2 ^ (rest ++ Y).length + bitsVal (rest ++ Y) = _
    rw [ih, List.length_append]
    show _ = ((if b then 1 else 0) * 2 ^ rest.length + bitsVal rest) * 2 ^ Y.length
      + bitsVal Y
    rw [pow_add]
    ring

theorem bitsVal_replicate_false (n : Nat) :
    bitsVal (List.replicate n false) = 0 := by
  induction n with
  | zero => rfl
  | succ m ih => simp [List.replicate_succ, bitsVal, ih]

theorem byteBits_length (b : Nat) : (byteBits b).length = 8 := rfl

set_option maxRecDepth 4000 in
theorem byteBits_val : ∀ b, b < 256 → bitsVal (byteBits b) = b := by decide

theorem bytesBits_nil : bytesBits [] = [] := rfl

theorem bytesBits_cons (b : Nat) (l : List Nat) :
    bytesBits (b :: l) = byteBits b ++ bytesBits l := rfl

theorem bytesBits_append (l1 l2 : List Nat) :
    bytesBits (l1 ++ l2) = bytesBits l1 ++ bytesBits l2 := by
  induction l1 with
  | nil => rfl
  | cons b rest ih => simp [bytesBits_cons, ih, List.cons_append]

theorem bytesBits_length (l : List Nat) :
    (bytesBits l).length = 8 * l.length := by
  induction l with
  | nil => rfl
  | cons b rest ih =>
    simp only [bytesBits_cons, List.length_append, byteBits_length, ih,
      List.length_cons]
    ring

theorem bytesBits_take (l : List Nat) :
    ∀ m, bytesBits (l.take m) = (bytesBits l).take (8 * m) := by
  induction l with
  | nil => intro m; simp [bytesBits_nil]
  | cons b rest ih =>
    intro m
    match m with
    | 0 => rfl
    | m + 1 =>
      rw [List.take_succ_cons, bytesBits_cons, bytesBits_cons,
        show 8 * (m + 1) = 8 + 8 * m from by ring,
        show (8 : Nat) + 8 * m = (byteBits b).length + 8 * m from by
          rw [byteBits_length],
        List.take_append, ih]

theorem bytesBits_drop (l : List Nat) :
    ∀ m, bytesBits (l.drop m) = (bytesBits l).drop (8 * m) := by
  induction l with
  | nil => intro m; simp [bytesBits_nil]
  | cons b rest ih =>
    intro m
    match m with
    | 0 => rfl
    | m + 1 =>
      rw [List.drop_succ_cons, bytesBits_cons,
        show 8 * (m + 1) = 8 + 8 * m from by ring,
        show (8 : Nat) + 8 * m = (byteBits b).length + 8 * m from by
          rw [byteBits_length],
        List.drop_append, ih]

/-! Bitwise helpers for the register arithmetic. -/

theorem testBit_add_mul {a : Nat} (b m : Nat) (ha : a < 2 ^ m) (i : Nat) :
    (a + b * 2 ^ m).testBit i
      = if i < m then a.testBit i else b.testBit (i - m) := by
  rcases lt_or_ge i m with h | h
  · rw [if_pos h, Nat.testBit_to_div_mod, Nat.testBit_to_div_mod]
    rw [show b * 2 ^ m = b * (2 * 2 ^ (m - 1 - i)) * 2 ^ i from by
          rw [mul_assoc, ← pow_succ', ← pow_add]; congr 2; omega,
        Nat.add_mul_div_right _ _ (by positivity)]
    rw [mul_comm b (2 * 2 ^ (m - 1 - i)), mul_assoc, mul_comm (2 ^ (m - 1 - i)) b,
      Nat.add_mul_mod_self_left]
  · rw [if_neg (by omega), Nat.testBit_to_div_mod, Nat.testBit_to_div_mod]
    rw [show (2 : Nat) ^ i = 2 ^ m * 2 ^ (i - m) from by rw [← pow_add]; congr 1; omega,
        ← Nat.div_div_eq_div_mul, Nat.add_mul_div_right _ _ (by positivity),
        Nat.div_eq_of_lt ha, Nat.zero_add]

theorem testBit_mul_pow {x k : Nat} (i : Nat) :
    (x * 2 ^ k).testBit i = if i < k then false else x.testBit (i - k) := by
  have h := @testBit_add_mul 0 x k (by positivity) i
  simpa using h

theorem lor_disjoint {x b k : Nat} (hb : b < 2 ^ k) :
    x * 2 ^ k ||| b = x * 2 ^ k + b := by
  apply Nat.eq_of_testBit_eq
  intro i
  rw [Nat.testBit_lor,
    show x * 2 ^ k + b = b + x * 2 ^ k from by ring,
    testBit_add_mul x k hb i, testBit_mul_pow i]
  rcases lt_or_ge i k with h | h
  · rw [if_pos h, if_pos h, Bool.false_or]
  · rw [if_neg (by omega), if_neg (by omega)]
    have hb' : b.testBit i = false := by
      apply Nat.testBit_lt_two_pow
      exact lt_of_lt_of_le hb (Nat.pow_le_pow_right (by norm_num) h)
    rw [hb', Bool.or_false]

theorem land_mask {x k : Nat} (hx : x < 2 ^ 32) (hk : k + 8 ≤ 32) :
    x &&& (2 ^ 32 - 1 - 255 * 2 ^ k)
      = x % 2 ^ k + x / 2 ^ (k + 8) * 2 ^ (k + 8) := by
  have hM : 2 ^ 32 - 1 - 255 * 2 ^ k
      = (2 ^ k - 1) + (2 ^ (24 - k) - 1) * 2 ^ (k + 8) := by
    have h1 : (2 : Nat) ^ (24 - k) * 2 ^ (k + 8) = 2 ^ 32 := by
      rw [← pow_add]; congr 1; omega
    have h2 : (2 : Nat) ^ (k + 8) = 2 ^ k * 256 := by
      rw [pow_add]; norm_num
    have h3 : (1 : Nat) ≤ 2 ^ k := Nat.one_le_two_pow
    have h5 : (2 ^ (24 - k) - 1) * 2 ^ (k + 8) = 2 ^ 32 - 2 ^ (k + 8) := by
      rw [Nat.sub_mul, h1, one_mul]
    have h6 : 2 ^ k * 256 ≤ 2 ^ 32 := by
      rw [← h2]; exact Nat.pow_le_pow_right (by norm_num) (by omega)
    rw [h5, h2]
    omega
  apply Nat.eq_of_testBit_eq
  intro i
  rw [Nat.testBit_land, hM,
    @testBit_add_mul (2 ^ k - 1) (2 ^ (24 - k) - 1) (k + 8)
      (by
        have ha : (2 : Nat) ^ k ≤ 2 ^ (k + 8) :=
          Nat.pow_le_pow_right (by norm_num) (by omega)
        have hb : (1 : Nat) ≤ 2 ^ k := Nat.one_le_two_pow
        omega) i,
    @testBit_add_mul (x % 2 ^ k) (x / 2 ^ (k + 8)) (k + 8)
      (lt_of_lt_of_le (Nat.mod_lt _ (by positivity))
        (Nat.pow_le_pow_right (by norm_num) (by omega))) i]
  rcases lt_or_ge i k with h | h
  · rw [if_pos (by omega), if_pos (by omega), Nat.testBit_two_pow_sub_one,
      Nat.testBit_mod_two_pow]
    have hd : decide (i < k) = true := by simp only [decide_eq_true_eq]; omega
    rw [hd, Bool.and_true, Bool.true_and]
  · rcases lt_or_ge i (k + 8) with h8 | h8
    · rw [if_pos h8, if_pos h8, Nat.testBit_two_pow_sub_one,
        Nat.testBit_mod_two_pow]
      have hd : decide (i < k) = false := by
        simp only [decide_eq_false_iff_not]; omega
      rw [hd, Bool.and_false, Bool.false_and]
    · rw [if_neg (by omega), if_neg (by omega), Nat.testBit_two_pow_sub_one]
      rcases lt_or_ge i 32 with h32 | h32
      · have hd : decide (i - (k + 8) < 24 - k) = true := by
          simp only [decide_eq_true_eq]; omega
        rw [hd, Bool.and_true, ← Nat.shiftRight_eq_div_pow,
          Nat.testBit_shiftRight,
          show k + 8 + (i - (k + 8)) = i from by omega]
      · have hd : decide (i - (k + 8) < 24 - k) = false := by
          simp only [decide_eq_false_iff_not]; omega
        rw [hd, Bool.and_false, ← Nat.shiftRight_eq_div_pow,
          Nat.testBit_shiftRight,
          show k + 8 + (i - (k + 8)) = i from by omega,
          Nat.testBit_lt_two_pow (lt_of_lt_of_le hx
            (Nat.pow_le_pow_right (by norm_num) h32))]

/-- The 13-bit decode window of a register holding the bit string `G` at
its most significant end is the first 13 bits of `G`, zero-padded. -/
theorem fld_rep (G : List Bool) (hG : G.length ≤ 32) :
    fld (bitsVal G * 2 ^ (32 - G.length)) 19 13
      = bitsVal ((G ++ List.replicate 13 false).take 13) := by
  rcases le_or_lt 13 G.length with h13 | h13
  · rw [List.take_append_of_le_length (by omega)]
    have hsplit : bitsVal G
        = bitsVal (G.take 13) * 2 ^ (G.length - 13) + bitsVal (G.drop 13) := by
      conv_lhs => rw [← List.take_append_drop 13 G]
      rw [bitsVal_append, List.length_drop]
    have hA : bitsVal (G.take 13) < 2 ^ 13 := by
      have h := bitsVal_lt (G.take 13)
      rwa [List.length_take, min_eq_left h13] at h
    have hB : bitsVal (G.drop 13) < 2 ^ (G.length - 13) := by
      have h := bitsVal_lt (G.drop 13)
      rwa [List.length_drop] at h
    have hC : bitsVal (G.drop 13) * 2 ^ (32 - G.length) < 2 ^ 19 := by
      calc bitsVal (G.drop 13) * 2 ^ (32 - G.length)
          < 2 ^ (G.length - 13) * 2 ^ (32 - G.length) :=
            mul_lt_mul_of_pos_right hB (by positivity)
        _ = 2 ^ 19 := by rw [← pow_add]; congr 1; omega
    show bitsVal G * 2 ^ (32 - G.length) / 2 ^ 19 % 2 ^ 13 = bitsVal (G.take 13)
    rw [hsplit, add_mul, mul_assoc, ← pow_add,
      show G.length - 13 + (32 - G.length) = 19 from by omega,
      add_comm, Nat.add_mul_div_right _ _ (by positivity),
      Nat.div_eq_of_lt hC, Nat.zero_add, Nat.mod_eq_of_lt hA]
  · have htake : (G ++ List.replicate 13 false).take 13
        = G ++ List.replicate (13 - G.length) false := by
      rw [List.take_append_eq_append_take, List.take_of_length_le (by omega),
        List.take_replicate]
      congr 2
      omega
    rw [htake, bitsVal_append, bitsVal_replicate_false, List.length_replicate,
      Nat.add_zero]
    have hA : bitsVal G < 2 ^ G.length := bitsVal_lt G
    show bitsVal G * 2 ^ (32 - G.length) / 2 ^ 19 % 2 ^ 13
      = bitsVal G * 2 ^ (13 - G.length)
    rw [show 32 - G.length = 13 - G.length + 19 from by omega, pow_add,
      ← mul_assoc, Nat.mul_div_cancel _ (by positivity),
      Nat.mod_eq_of_lt]
    calc bitsVal G * 2 ^ (13 - G.length)
        < 2 ^ G.length * 2 ^ (13 - G.length) :=
          mul_lt_mul_of_pos_right hA (by positivity)
      _ = 2 ^ 13 := by rw [← pow_add]; congr 1; omega

/-- Shifting a matched codeword of `len` bits off the top of the register
leaves the register holding the remaining bits `G.drop len`. -/
theorem shiftOut_rep (G : List Bool) (hG : G.length ≤ 32) (len : Nat)
    (hlen : len ≤ G.length) :
    ((bitsVal G * 2 ^ (32 - G.length)) <<< len) % 2 ^ 32
      = bitsVal (G.drop len) * 2 ^ (32 - (G.length - len)) := by
  rw [Nat.shiftLeft_eq]
  have hsplit : bitsVal G
      = bitsVal (G.take len) * 2 ^ (G.length - len) + bitsVal (G.drop len) := by
    conv_lhs => rw [← List.take_append_drop len G]
    rw [bitsVal_append, List.length_drop]
  have hB : bitsVal (G.drop len) < 2 ^ (G.length - len) := by
    have h := bitsVal_lt (G.drop len)
    rwa [List.length_drop] at h
  have hC : bitsVal (G.drop len) * 2 ^ (32 - (G.length - len)) < 2 ^ 32 := by
    calc bitsVal (G.drop len) * 2 ^ (32 - (G.length - len))
        < 2 ^ (G.length - len) * 2 ^ (32 - (G.length - len)) :=
          mul_lt_mul_of_pos_right hB (by positivity)
      _ = 2 ^ 32 := by rw [← pow_add]; congr 1; omega
  have key : bitsVal G * 2 ^ (32 - G.length) * 2 ^ len
      = bitsVal (G.take len) * 2 ^ 32
        + bitsVal (G.drop len) * 2 ^ (32 - (G.length - len)) := by
    have e1 : (2 : Nat) ^ (G.length - len) * (2 ^ (32 - G.length) * 2 ^ len)
        = 2 ^ 32 := by
      rw [← pow_add, ← pow_add]; congr 1; omega
    have e2 : (2 : Nat) ^ (32 - G.length) * 2 ^ len
        = 2 ^ (32 - (G.length - len)) := by
      rw [← pow_add]; congr 1; omega
    rw [hsplit]
    calc (bitsVal (G.take len) * 2 ^ (G.length - len) + bitsVal (G.drop len))
          * 2 ^ (32 - G.length) * 2 ^ len
        = bitsVal (G.take len)
            * (2 ^ (G.length - len) * (2 ^ (32 - G.length) * 2 ^ len))
          + bitsVal (G.drop len) * (2 ^ (32 - G.length) * 2 ^ len) := by ring
      _ = _ := by rw [e1, e2]
  rw [key, add_comm, Nat.add_mul_mod_self_right, Nat.mod_eq_of_lt hC]

/-- The register/padding invariant of the decode loop: `G` is the string
of genuine (non-padding) bits pending at the top of the register, `p`
counts bytes shifted in (real bytes first, then zero padding bytes), and
the genuine bits read so far are a prefix of the stream's bits ending
exactly at byte boundary `min p comp.length` with `G` its pending tail. -/
def flatInv (R0 : List Bool) (comp : List Nat) (p reg regSize padding : Nat)
    (G : List Bool) : Prop :=
  reg = bitsVal G * 2 ^ (32 - G.length) ∧
  regSize = G.length + padding ∧
  regSize ≤ 20 ∧
  padding = 8 * (p - min p comp.length) ∧
  p ≤ comp.length + 2 ∧
  ∃ T, R0 ++ bytesBits (comp.take (min p comp.length)) = T ++ G

/-- One iteration of the register refill: the byte shifted in extends `G`
when it is a real stream byte, and is an all-zero padding byte otherwise. -/
theorem refillStep_inv (R0 : List Bool) (comp : List Nat) (hb : ∀ b ∈ comp, b < 256)
    (p reg regSize padding : Nat) (G : List Bool)
    (hinv : flatInv R0 comp p reg regSize padding G) (hlt : regSize < 13) :
    ∃ G1 padding1,
      refillStep (comp ++ [0, 0]) comp.length p reg regSize padding
        = (p + 1, bitsVal G1 * 2 ^ (32 - G1.length), regSize + 8, padding1) ∧
      flatInv R0 comp (p + 1) (bitsVal G1 * 2 ^ (32 - G1.length)) (regSize + 8)
        padding1 G1 ∧
      G1 ++ bytesBits (comp.drop (p + 1)) = G ++ bytesBits (comp.drop p) := by
  obtain ⟨hreg, hsize, h20, hpad, hp, T, hT⟩ := hinv
  rcases lt_or_ge p comp.length with hcase | hcase
  · -- a genuine byte
    have hpad0 : padding = 0 := by
      rw [hpad, min_eq_left (by omega)]
      omega
    have hGlen : G.length = regSize := by omega
    have hbyte : (comp ++ [0, 0]).getD p 0 = comp[p] := by
      rw [List.getD_append _ _ _ _ (by omega)]
      exact List.getD_eq_getElem comp 0 hcase
    have hblt : comp[p] < 256 := hb _ (List.getElem_mem hcase)
    have hval : bitsVal (G ++ byteBits comp[p])
        = bitsVal G * 2 ^ 8 + comp[p] := by
      rw [bitsVal_append, byteBits_length, byteBits_val _ hblt]
    have hlen : (G ++ byteBits comp[p]).length = G.length + 8 := by
      rw [List.length_append, byteBits_length]
    have hb2 : comp[p] * 2 ^ (24 - G.length) < 2 ^ (32 - G.length) := by
      calc comp[p] * 2 ^ (24 - G.length)
          < 2 ^ 8 * 2 ^ (24 - G.length) :=
            mul_lt_mul_of_pos_right (by omega) (by positivity)
        _ = 2 ^ (32 - G.length) := by rw [← pow_add]; congr 1; omega
    have hcomp : reg ||| comp[p] <<< (24 - regSize)
        = bitsVal (G ++ byteBits comp[p])
            * 2 ^ (32 - (G ++ byteBits comp[p]).length) := by
      rw [hreg, Nat.shiftLeft_eq, ← hGlen, lor_disjoint hb2, hval, hlen,
        show (32 : Nat) - (G.length + 8) = 24 - G.length from by omega,
        add_mul, mul_assoc, ← pow_add,
        show (8 : Nat) + (24 - G.length) = 32 - G.length from by omega]
    refine ⟨G ++ byteBits comp[p], 0, ?_, ?_, ?_⟩
    · unfold refillStep
      rw [if_neg (by omega), hbyte, hcomp, hpad0]
    · refine ⟨rfl, ?_, by omega, ?_, by omega, T, ?_⟩
      · rw [hlen]; omega
      · rw [min_eq_left (by omega)]
        omega
      · rw [min_eq_left (by omega), List.take_succ,
          List.getElem?_eq_getElem hcase]
        have hT' : R0 ++ bytesBits (comp.take p) = T ++ G := by
          rw [min_eq_left (by omega)] at hT
          exact hT
        rw [bytesBits_append, ← List.append_assoc, hT']
        simp [bytesBits_cons, bytesBits_nil, List.append_assoc]
    · rw [List.drop_eq_getElem_cons hcase, bytesBits_cons, List.append_assoc]
  · -- a padding byte (value 0)
    have hbyte : (comp ++ [0, 0]).getD p 0 = 0 := by
      rw [List.getD_append_right _ _ _ _ (by omega)]
      have hz : ∀ i, ([0, 0] : List Nat).getD i 0 = 0 := by
        intro i
        rcases i with _ | _ | n <;> rfl
      exact hz _
    have hple : p ≤ comp.length + 1 := by
      rw [hpad, min_eq_right (by omega)] at hsize
      omega
    refine ⟨G, padding + 8, ?_, ?_, ?_⟩
    · unfold refillStep
      rw [if_pos (by omega), hbyte, Nat.zero_shiftLeft, hreg]
      refine congrArg (fun r => (p + 1, r, regSize + 8, padding + 8)) ?_
      simp
    · refine ⟨rfl, by omega, by omega, ?_, by omega, T, ?_⟩
      · rw [min_eq_right (by omega)]
        rw [hpad, min_eq_right (by omega)]
        omega
      · rw [min_eq_right (by omega)]
        rw [min_eq_right (by omega)] at hT
        exact hT
    · rw [List.drop_eq_nil_of_le (by omega), List.drop_eq_nil_of_le (by omega)]

/-- The full `while (reg_size < 13)` refill preserves the invariant and
leaves at least 13 bits in the register. -/
theorem flatRefill_inv (R0 : List Bool) (comp : List Nat) (hb : ∀ b ∈ comp, b < 256)
    (p reg regSize padding : Nat) (G : List Bool)
    (hinv : flatInv R0 comp p reg regSize padding G) :
    ∃ p1 G1 padding1,
      flatRefill 2 (comp ++ [0, 0]) comp.length (p, reg, regSize, padding)
        = (p1, bitsVal G1 * 2 ^ (32 - G1.length), G1.length + padding1,
           padding1) ∧
      flatInv R0 comp p1 (bitsVal G1 * 2 ^ (32 - G1.length))
        (G1.length + padding1) padding1 G1 ∧
      13 ≤ G1.length + padding1 ∧
      G1 ++ bytesBits (comp.drop p1) = G ++ bytesBits (comp.drop p) ∧
      p ≤ p1 := by
  have hchain : ∀ (f : Nat) cp cs q r rs pd,
      flatRefill (f + 1) cp cs (q, r, rs, pd)
        = if rs < 13 then
            flatRefill f cp cs (refillStep cp cs q r rs pd)
          else (q, r, rs, pd) := fun _ _ _ _ _ _ _ => rfl
  have hz : ∀ cp cs st, flatRefill 0 cp cs st = st := fun _ _ _ => rfl
  obtain ⟨hreg, hsize, h20, hpad, hp, T, hT⟩ := hinv
  rcases lt_or_ge regSize 13 with h13 | h13
  · obtain ⟨G1, pad1, hstep, hinv1, hS1⟩ :=
      refillStep_inv R0 comp hb p reg regSize padding G
        ⟨hreg, hsize, h20, hpad, hp, T, hT⟩ h13
    obtain ⟨hreg1, hsize1, h201, hpad1, hp1, T1, hT1⟩ := hinv1
    rcases lt_or_ge (regSize + 8) 13 with h13b | h13b
    · obtain ⟨G2, pad2, hstep2, hinv2, hS2⟩ :=
        refillStep_inv R0 comp hb (p + 1) _ (regSize + 8) pad1 G1
          ⟨rfl, hsize1, h201, hpad1, hp1, T1, hT1⟩ h13b
      obtain ⟨hreg2, hsize2, h202, hpad2, hp2, T2, hT2⟩ := hinv2
      refine ⟨p + 2, G2, pad2, ?_, ?_, by omega, hS2.trans hS1, by omega⟩
      · rw [hchain, if_pos h13, hstep, hchain, if_pos h13b, hstep2, hz,
          hsize2]
      · exact ⟨rfl, rfl, by omega, by omega, by omega, T2, hT2⟩
    · refine ⟨p + 1, G1, pad1, ?_, ?_, by omega, hS1, by omega⟩
      · rw [hchain, if_pos h13, hstep, hchain, if_neg (by omega), hsize1]
      · exact ⟨rfl, rfl, by omega, hpad1, hp1, T1, hT1⟩
  · refine ⟨p, G, padding, ?_, ?_, by omega, rfl, le_refl p⟩
    · rw [hchain, if_neg (by omega), hreg, hsize]
    · exact ⟨rfl, rfl, by omega, hpad, hp, T, hT⟩

/-- The trailing unget loop: whole bytes (first padding, then genuine)
leave the register and are put back into the stream until fewer than 8
bits remain; the remaining-suffix view of the state is unchanged. -/
theorem ungetLoop_inv (R0 : List Bool) (comp : List Nat)
    (hR0 : R0.length < 8) :
    ∀ fuel p reg regSize padding G,
    flatInv R0 comp p reg regSize padding G →
    regSize < 8 * fuel + 8 →
    ∃ p2 G2,
      ungetLoop fuel p reg regSize
        = (p2, bitsVal G2 * 2 ^ (32 - G2.length), G2.length) ∧
      flatInv R0 comp p2 (bitsVal G2 * 2 ^ (32 - G2.length)) G2.length 0 G2 ∧
      G2.length < 8 ∧ p2 ≤ comp.length ∧
      G2 ++ bytesBits (comp.drop p2) = G ++ bytesBits (comp.drop p) := by
  intro fuel
  induction fuel with
  | zero =>
    intro p reg regSize padding G hinv hf
    obtain ⟨hreg, hsize, h20, hpad, hp, T, hT⟩ := hinv
    have hpad0 : padding = 0 := by omega
    have hple : p ≤ comp.length := by omega
    refine ⟨p, G, ?_, ?_, by omega, hple, rfl⟩
    · show (p, reg, regSize) = _
      rw [hreg, hsize, hpad0, Nat.add_zero]
    · exact ⟨rfl, by omega, by omega, by omega, by omega, T, hT⟩
  | succ f ih =>
    intro p reg regSize padding G hinv hf
    obtain ⟨hreg, hsize, h20, hpad, hp, T, hT⟩ := hinv
    have hstep : ungetLoop (f + 1) p reg regSize
        = if 8 ≤ regSize then
            ungetLoop f (p - 1)
              (reg &&& (2 ^ 32 - 1 - (255 <<< (32 - regSize)) % 2 ^ 32))
              (regSize - 8)
          else (p, reg, regSize) := rfl
    rcases lt_or_ge regSize 8 with h8 | h8
    · -- loop exits at once
      have hpad0 : padding = 0 := by omega
      have hple : p ≤ comp.length := by omega
      refine ⟨p, G, ?_, ?_, by omega, hple, rfl⟩
      · rw [hstep, if_neg (by omega), hreg, hsize, hpad0, Nat.add_zero]
      · exact ⟨rfl, by omega, by omega, by omega, by omega, T, hT⟩
    · -- one byte leaves the register
      have hGle : G.length ≤ regSize := by omega
      have hreglt : reg < 2 ^ 32 := by
        rw [hreg]
        calc bitsVal G * 2 ^ (32 - G.length)
            < 2 ^ G.length * 2 ^ (32 - G.length) :=
              mul_lt_mul_of_pos_right (bitsVal_lt G) (by positivity)
          _ ≤ 2 ^ 32 := by
              rw [← pow_add]
              exact Nat.pow_le_pow_right (by norm_num) (by omega)
      have hmask : (255 <<< (32 - regSize)) % 2 ^ 32
          = 255 * 2 ^ (32 - regSize) := by
        rw [Nat.shiftLeft_eq]
        apply Nat.mod_eq_of_lt
        calc (255 : Nat) * 2 ^ (32 - regSize)
            < 2 ^ 8 * 2 ^ (32 - regSize) :=
              mul_lt_mul_of_pos_right (by norm_num) (by positivity)
          _ ≤ 2 ^ 32 := by
              rw [← pow_add]
              exact Nat.pow_le_pow_right (by norm_num) (by omega)
      have hand := @land_mask reg (32 - regSize) hreglt (by omega)
      have hmod0 : reg % 2 ^ (32 - regSize) = 0 := by
        rw [hreg, show (32 : Nat) - G.length
            = regSize - G.length + (32 - regSize) from by omega, pow_add,
          ← mul_assoc]
        exact Nat.mul_mod_left _ _
      rcases le_or_lt 8 padding with hpadcase | hpadcase
      · -- the departing byte is padding: the register value is unchanged
        have hdvd : (2 : Nat) ^ (32 - regSize + 8) ∣ reg := by
          rw [hreg]
          exact Dvd.dvd.mul_left (pow_dvd_pow 2 (by omega)) _
        have hself : reg / 2 ^ (32 - regSize + 8) * 2 ^ (32 - regSize + 8)
            = reg := Nat.div_mul_cancel hdvd
        have hval : reg &&& (2 ^ 32 - 1 - (255 <<< (32 - regSize)) % 2 ^ 32)
            = reg := by
          rw [hmask, hand, hmod0, hself, Nat.zero_add]
        have hplen : comp.length + 1 ≤ p := by omega
        have hinv' : flatInv R0 comp (p - 1) reg (regSize - 8) (padding - 8) G :=
          ⟨hreg, by omega, by omega, by omega, by omega, T, by
            have hm : min (p - 1) comp.length = min p comp.length := by omega
            rw [hm]
            exact hT⟩
        obtain ⟨p2, G2, heq, hinv2, h82, hp2, hS2⟩ :=
          ih (p - 1) reg (regSize - 8) (padding - 8) G hinv' (by omega)
        refine ⟨p2, G2, ?_, hinv2, h82, hp2, ?_⟩
        · rw [hstep, if_pos h8, hval]
          exact heq
        · rw [hS2, List.drop_eq_nil_of_le (by omega),
            List.drop_eq_nil_of_le (by omega)]
      · -- the departing byte is a genuine stream byte
        have hpad0 : padding = 0 := by omega
        have hGlen : G.length = regSize := by omega
        have hple : p ≤ comp.length := by omega
        rw [min_eq_left hple] at hT
        have hTlen : R0.length + 8 * p = T.length + G.length := by
          have hl := congrArg List.length hT
          rw [List.length_append, List.length_append, bytesBits_length,
            List.length_take, min_eq_left hple] at hl
          exact hl
        have hp1 : 1 ≤ p := by omega
        have hsplitG : bitsVal G
            = bitsVal (G.take (G.length - 8)) * 2 ^ 8
              + bitsVal (G.drop (G.length - 8)) := by
          conv_lhs => rw [← List.take_append_drop (G.length - 8) G]
          rw [bitsVal_append, List.length_drop,
            show G.length - (G.length - 8) = 8 from by omega]
        have hBlt : bitsVal (G.drop (G.length - 8)) < 2 ^ 8 := by
          have h := bitsVal_lt (G.drop (G.length - 8))
          rwa [List.length_drop,
            show G.length - (G.length - 8) = 8 from by omega] at h
        have hdivval : reg / 2 ^ (32 - regSize + 8)
            = bitsVal (G.take (G.length - 8)) := by
          rw [hreg, hsplitG, add_mul, mul_assoc, ← pow_add, ← hGlen,
            show (8 : Nat) + (32 - G.length) = 32 - G.length + 8 from by omega,
            add_comm, Nat.add_mul_div_right _ _ (by positivity),
            Nat.div_eq_of_lt, Nat.zero_add]
          calc bitsVal (G.drop (G.length - 8)) * 2 ^ (32 - G.length)
              < 2 ^ 8 * 2 ^ (32 - G.length) :=
                mul_lt_mul_of_pos_right hBlt (by positivity)
            _ = 2 ^ (32 - G.length + 8) := by rw [← pow_add]; congr 1; omega
        have hval : reg &&& (2 ^ 32 - 1 - (255 <<< (32 - regSize)) % 2 ^ 32)
            = bitsVal (G.take (G.length - 8))
              * 2 ^ (32 - (G.take (G.length - 8)).length) := by
          rw [hmask, hand, hmod0, hdivval, Nat.zero_add, List.length_take,
            min_eq_left (by omega), ← hGlen,
            show 32 - G.length + 8 = 32 - (G.length - 8) from by omega]
        have htake1 : comp.take (p - 1) = (comp.take p).take (p - 1) := by
          rw [List.take_take, min_eq_left (by omega)]
        have hb2 : bytesBits (comp.take (p - 1))
            = (bytesBits (comp.take p)).take (8 * (p - 1)) := by
          rw [htake1, bytesBits_take]
        have hbt : R0 ++ bytesBits (comp.take (p - 1))
            = T ++ G.take (G.length - 8) := by
          have e1 : R0 ++ bytesBits (comp.take (p - 1))
              = (R0 ++ bytesBits (comp.take p)).take
                  (R0.length + 8 * (p - 1)) := by
            rw [hb2, List.take_append_eq_append_take,
              List.take_of_length_le
                (show R0.length ≤ R0.length + 8 * (p - 1) from by omega)]
            congr 2
            omega
          rw [e1, hT, List.take_append_eq_append_take,
            List.take_of_length_le
              (show T.length ≤ R0.length + 8 * (p - 1) from by omega)]
          congr 1
          congr 1
          omega
        have hTG : bytesBits (comp.take p)
            = bytesBits (comp.take (p - 1)) ++ byteBits comp[p - 1] := by
          conv_lhs => rw [show p = p - 1 + 1 from by omega]
          rw [List.take_succ, List.getElem?_eq_getElem (by omega),
            bytesBits_append]
          simp [bytesBits_cons, bytesBits_nil]
        have hGsplit : G = G.take (G.length - 8) ++ byteBits comp[p - 1] := by
          have hTsplit : T ++ G
              = T ++ (G.take (G.length - 8) ++ byteBits comp[p - 1]) := by
            calc T ++ G = R0 ++ bytesBits (comp.take p) := hT.symm
              _ = R0 ++ (bytesBits (comp.take (p - 1))
                    ++ byteBits comp[p - 1]) := by rw [← hTG]
              _ = (R0 ++ bytesBits (comp.take (p - 1)))
                    ++ byteBits comp[p - 1] := by rw [List.append_assoc]
              _ = (T ++ G.take (G.length - 8)) ++ byteBits comp[p - 1] := by
                    rw [hbt]
              _ = T ++ (G.take (G.length - 8) ++ byteBits comp[p - 1]) := by
                    rw [List.append_assoc]
          exact List.append_cancel_left hTsplit
        have hinv' : flatInv R0 comp (p - 1)
            (bitsVal (G.take (G.length - 8))
              * 2 ^ (32 - (G.take (G.length - 8)).length))
            (regSize - 8) 0 (G.take (G.length - 8)) :=
          ⟨rfl, by rw [List.length_take]; omega, by omega, by omega,
            by omega, T, by
              rw [min_eq_left (by omega)]
              exact hbt⟩
        obtain ⟨p2, G2, heq, hinv2, h82, hp2, hS2⟩ :=
          ih (p - 1) _ (regSize - 8) 0 (G.take (G.length - 8)) hinv' (by omega)
        refine ⟨p2, G2, ?_, hinv2, h82, hp2, ?_⟩
        · rw [hstep, if_pos h8, hval]
          exact heq
        · rw [hS2]
          have hdrop : comp.drop (p - 1) = comp[p - 1] :: comp.drop p := by
            have hlt2 : p - 1 < comp.length := by omega
            have h := List.drop_eq_getElem_cons hlt2
            rwa [show p - 1 + 1 = p from by omega] at h
          rw [hdrop, bytesBits_cons, ← List.append_assoc, ← hGsplit]

/-- The top `len` bits of a 13-bit window positioned at bit 19. -/
theorem fld_top (t len : Nat) (hlen : len ≤ 13) (ht : t < 2 ^ 13) :
    fld (t * 2 ^ 19) (32 - len) len = t / 2 ^ (13 - len) := by
  have hdl : t / 2 ^ (13 - len) < 2 ^ len := by
    rw [Nat.div_lt_iff_lt_mul (by positivity)]
    calc t < 2 ^ 13 := ht
      _ = 2 ^ len * 2 ^ (13 - len) := by rw [← pow_add]; congr 1; omega
  show t * 2 ^ 19 / 2 ^ (32 - len) % 2 ^ len = t / 2 ^ (13 - len)
  rw [show (2 : Nat) ^ (32 - len) = 2 ^ 19 * 2 ^ (13 - len) from by
      rw [← pow_add]; congr 1; omega,
    ← Nat.div_div_eq_div_mul, Nat.mul_div_cancel _ (by positivity),
    Nat.mod_eq_of_lt hdl]

/-- A 13-bit window positioned at bit 19 reads back as itself. -/
theorem fld19_top (t : Nat) (ht : t < 2 ^ 13) : fld (t * 2 ^ 19) 19 13 = t := by
  show t * 2 ^ 19 / 2 ^ 19 % 2 ^ 13 = t
  rw [Nat.mul_div_cancel _ (by positivity), Nat.mod_eq_of_lt ht]


/-- Narrowing a bit field from its low end: dropping the `k` lowest bits
of the field at `lo` reads the field at `lo + k`. -/
theorem fld_shrink (reg lo w k : Nat) (hk : k ≤ w) :
    fld reg (lo + k) (w - k) = fld reg lo w / 2 ^ k := by
  show reg / 2 ^ (lo + k) % 2 ^ (w - k) = reg / 2 ^ lo % 2 ^ w / 2 ^ k
  rw [show (2 : Nat) ^ w = 2 ^ k * 2 ^ (w - k) from by
        rw [← pow_add]; congr 1; omega,
    Nat.mod_mul_right_div_self, pow_add, ← Nat.div_div_eq_div_mul]

/-- The classifier always matches: every register decodes to a codeword
of 3–13 bits producing 1–8 samples. -/
theorem decodeStep_total (reg : Nat) :
    ∃ len n diff, decodeStep reg = some (len, n, diff) ∧
      3 ≤ len ∧ len ≤ 13 ∧ 1 ≤ n ∧ n ≤ 8 := by
  have hF1 : fld reg 30 2 = fld reg 27 5 / 2 ^ 3 := by
    have h := fld_shrink reg 27 5 3 (by omega)
    exact h.symm ▸ rfl
  have hF2 : fld reg 29 3 = fld reg 27 5 / 2 ^ 2 := by
    have h := fld_shrink reg 27 5 2 (by omega)
    exact h.symm ▸ rfl
  have hF3 : fld reg 28 4 = fld reg 27 5 / 2 ^ 1 := by
    have h := fld_shrink reg 27 5 1 (by omega)
    exact h.symm ▸ rfl
  have hF : fld reg 27 5 < 2 ^ 5 := fld_lt reg 27 5
  have h252 : fld reg 25 2 < 2 ^ 2 := fld_lt reg 25 2
  have h253 : fld reg 25 3 < 2 ^ 3 := fld_lt reg 25 3
  unfold decodeStep
  rw [hF1, hF2, hF3]
  repeat' split
  all_goals first
    | exact ⟨_, _, _, rfl, by omega, by omega, by omega, by omega⟩
    | omega

/-- Prefix determinism of the classifier: a codeword match is determined
by the codeword's own bits, so any window agreeing with `W1` on the
matched codeword's `len` bits classifies identically. -/
theorem decodeStep_prefix {W1 W2 : Nat} {len n : Nat} {diff : Int}
    (h : decodeStep W1 = some (len, n, diff))
    (hagree : ∀ lo w, 32 - len ≤ lo → lo + w ≤ 32 → fld W1 lo w = fld W2 lo w) :
    decodeStep W2 = some (len, n, diff) := by
  by_cases h30 : fld W1 30 2 = 0
  · by_cases h29 : fld W1 29 3 = 0
    · -- 000
      have hres : decodeStep W1 = some (3, 2, 0) := by
        unfold decodeStep
        rw [if_pos h30, if_pos h29]
      rw [hres] at h
      cases h
      unfold decodeStep
      rw [if_pos ((hagree 30 2 (by omega) (by omega)).symm.trans h30),
        if_pos ((hagree 29 3 (by omega) (by omega)).symm.trans h29)]
    · by_cases h28 : fld W1 28 4 = 2
      · -- 0010
        have hres : decodeStep W1 = some (4, 3, 0) := by
          unfold decodeStep
          rw [if_pos h30, if_neg h29, if_pos h28]
        rw [hres] at h
        cases h
        unfold decodeStep
        rw [if_pos ((hagree 30 2 (by omega) (by omega)).symm.trans h30),
          if_neg (fun hc =>
            h29 ((hagree 29 3 (by omega) (by omega)).trans hc)),
          if_pos ((hagree 28 4 (by omega) (by omega)).symm.trans h28)]
      · by_cases h27 : fld W1 27 5 = 6
        · -- 00110
          have hres : decodeStep W1 = some (5, 4, 0) := by
            unfold decodeStep
            rw [if_pos h30, if_neg h29, if_neg h28, if_pos h27]
          rw [hres] at h
          cases h
          unfold decodeStep
          rw [if_pos ((hagree 30 2 (by omega) (by omega)).symm.trans h30),
            if_neg (fun hc =>
              h29 ((hagree 29 3 (by omega) (by omega)).trans hc)),
            if_neg (fun hc =>
              h28 ((hagree 28 4 (by omega) (by omega)).trans hc)),
            if_pos ((hagree 27 5 (by omega) (by omega)).symm.trans h27)]
        · by_cases h27b : fld W1 27 5 = 7
          · -- 00111xx
            have hres : decodeStep W1 = some (7, 5 + fld W1 25 2, 0) := by
              unfold decodeStep
              rw [if_pos h30, if_neg h29, if_neg h28, if_neg h27, if_pos h27b]
            rw [hres] at h
            cases h
            unfold decodeStep
            rw [if_pos ((hagree 30 2 (by omega) (by omega)).symm.trans h30),
              if_neg (fun hc =>
                h29 ((hagree 29 3 (by omega) (by omega)).trans hc)),
              if_neg (fun hc =>
                h28 ((hagree 28 4 (by omega) (by omega)).trans hc)),
              if_neg (fun hc =>
                h27 ((hagree 27 5 (by omega) (by omega)).trans hc)),
              if_pos ((hagree 27 5 (by omega) (by omega)).symm.trans h27b),
              ← hagree 25 2 (by omega) (by omega)]
          · -- unreachable: 00xxx with no case left
            exfalso
            have hF2 : fld W1 29 3 = fld W1 27 5 / 2 ^ 2 :=
              (fld_shrink W1 27 5 2 (by omega)).symm ▸ rfl
            have hF3 : fld W1 28 4 = fld W1 27 5 / 2 ^ 1 :=
              (fld_shrink W1 27 5 1 (by omega)).symm ▸ rfl
            have hF1 : fld W1 30 2 = fld W1 27 5 / 2 ^ 3 :=
              (fld_shrink W1 27 5 3 (by omega)).symm ▸ rfl
            rw [hF1] at h30
            rw [hF2] at h29
            rw [hF3] at h28
            omega
  · by_cases h30b : fld W1 30 2 = 1
    · -- 01 n s xx
      have hres : decodeStep W1
          = some (6, if fld W1 29 1 = 1 then 3 else 2,
              if fld W1 28 1 = 1 then -4 + (fld W1 26 2 : Int)
              else 1 + (fld W1 26 2 : Int)) := by
        unfold decodeStep
        rw [if_neg h30, if_pos h30b]
      rw [hres] at h
      cases h
      unfold decodeStep
      rw [if_neg (fun hc => h30 ((hagree 30 2 (by omega) (by omega)).trans hc)),
        if_pos ((hagree 30 2 (by omega) (by omega)).symm.trans h30b),
        ← hagree 29 1 (by omega) (by omega),
        ← hagree 28 1 (by omega) (by omega),
        ← hagree 26 2 (by omega) (by omega)]
    · -- 1x...
      by_cases h29 : fld W1 29 3 = 4
      · -- 100
        have hres : decodeStep W1 = some (3, 1, 0) := by
          unfold decodeStep
          rw [if_neg h30, if_neg h30b, if_pos h29]
        rw [hres] at h
        cases h
        unfold decodeStep
        rw [if_neg (fun hc =>
            h30 ((hagree 30 2 (by omega) (by omega)).trans hc)),
          if_neg (fun hc =>
            h30b ((hagree 30 2 (by omega) (by omega)).trans hc)),
          if_pos ((hagree 29 3 (by omega) (by omega)).symm.trans h29)]
      · by_cases h29b : fld W1 29 3 = 5
        · -- 1010 / 1011
          have hres : decodeStep W1
              = some (4, 1, if fld W1 28 4 = 10 then 1 else -1) := by
            unfold decodeStep
            rw [if_neg h30, if_neg h30b, if_neg h29, if_pos h29b]
          rw [hres] at h
          cases h
          unfold decodeStep
          rw [if_neg (fun hc =>
              h30 ((hagree 30 2 (by omega) (by omega)).trans hc)),
            if_neg (fun hc =>
              h30b ((hagree 30 2 (by omega) (by omega)).trans hc)),
            if_neg (fun hc =>
              h29 ((hagree 29 3 (by omega) (by omega)).trans hc)),
            if_pos ((hagree 29 3 (by omega) (by omega)).symm.trans h29b),
            ← hagree 28 4 (by omega) (by omega)]
        · by_cases h28 : fld W1 28 4 = 12
          · -- 1100xy
            have hres : decodeStep W1
                = some (6, 1, [(2 : Int), 3, -3, -2].getD (fld W1 26 2) 0) := by
              unfold decodeStep
              rw [if_neg h30, if_neg h30b, if_neg h29, if_neg h29b, if_pos h28]
            rw [hres] at h
            cases h
            unfold decodeStep
            rw [if_neg (fun hc =>
                h30 ((hagree 30 2 (by omega) (by omega)).trans hc)),
              if_neg (fun hc =>
                h30b ((hagree 30 2 (by omega) (by omega)).trans hc)),
              if_neg (fun hc =>
                h29 ((hagree 29 3 (by omega) (by omega)).trans hc)),
              if_neg (fun hc =>
                h29b ((hagree 29 3 (by omega) (by omega)).trans hc)),
              if_pos ((hagree 28 4 (by omega) (by omega)).symm.trans h28),
              ← hagree 26 2 (by omega) (by omega)]
          · by_cases h28b : fld W1 28 4 = 13
            · -- 1101xyy
              have hres : decodeStep W1
                  = some (7, 1,
                      [(4 : Int), 5, 6, 7, -7, -6, -5, -4].getD (fld W1 25 3) 0) := by
                unfold decodeStep
                rw [if_neg h30, if_neg h30b, if_neg h29, if_neg h29b,
                  if_neg h28, if_pos h28b]
              rw [hres] at h
              cases h
              unfold decodeStep
              rw [if_neg (fun hc =>
                  h30 ((hagree 30 2 (by omega) (by omega)).trans hc)),
                if_neg (fun hc =>
                  h30b ((hagree 30 2 (by omega) (by omega)).trans hc)),
                if_neg (fun hc =>
                  h29 ((hagree 29 3 (by omega) (by omega)).trans hc)),
                if_neg (fun hc =>
                  h29b ((hagree 29 3 (by omega) (by omega)).trans hc)),
                if_neg (fun hc =>
                  h28 ((hagree 28 4 (by omega) (by omega)).trans hc)),
                if_pos ((hagree 28 4 (by omega) (by omega)).symm.trans h28b),
                ← hagree 25 3 (by omega) (by omega)]
            · by_cases h28c : fld W1 28 4 = 14
              · -- 1110 band
                have hres : decodeStep W1
                    = some (10 + fld W1 25 3 / 2, 1,
                        ([(8 : Int), -15, 16, -31, 32, -63, 64,
                            -127].getD (fld W1 25 3) 0)
                          + (fld W1 (22 - fld W1 25 3 / 2)
                              (3 + fld W1 25 3 / 2) : Int)) := by
                  unfold decodeStep
                  rw [if_neg h30, if_neg h30b, if_neg h29, if_neg h29b,
                    if_neg h28, if_neg h28b, if_pos h28c]
                rw [hres] at h
                cases h
                have hs : fld W1 25 3 < 8 := fld_lt W1 25 3
                unfold decodeStep
                rw [if_neg (fun hc =>
                    h30 ((hagree 30 2 (by omega) (by omega)).trans hc)),
                  if_neg (fun hc =>
                    h30b ((hagree 30 2 (by omega) (by omega)).trans hc)),
                  if_neg (fun hc =>
                    h29 ((hagree 29 3 (by omega) (by omega)).trans hc)),
                  if_neg (fun hc =>
                    h29b ((hagree 29 3 (by omega) (by omega)).trans hc)),
                  if_neg (fun hc =>
                    h28 ((hagree 28 4 (by omega) (by omega)).trans hc)),
                  if_neg (fun hc =>
                    h28b ((hagree 28 4 (by omega) (by omega)).trans hc)),
                  if_pos ((hagree 28 4 (by omega) (by omega)).symm.trans h28c),
                  ← hagree 25 3 (by omega) (by omega),
                  ← hagree (22 - fld W1 25 3 / 2) (3 + fld W1 25 3 / 2)
                    (by omega) (by omega)]
              · -- 1111
                have h28d : fld W1 28 4 = 15 := by
                  have hF1 : fld W1 30 2 = fld W1 28 4 / 2 ^ 2 :=
                    (fld_shrink W1 28 4 2 (by omega)).symm ▸ rfl
                  have hF2 : fld W1 29 3 = fld W1 28 4 / 2 ^ 1 :=
                    (fld_shrink W1 28 4 1 (by omega)).symm ▸ rfl
                  have hB : fld W1 28 4 < 2 ^ 4 := fld_lt W1 28 4
                  rw [hF1] at h30 h30b
                  rw [hF2] at h29 h29b
                  omega
                have hres : decodeStep W1 = some (7, 1, -128) := by
                  unfold decodeStep
                  rw [if_neg h30, if_neg h30b, if_neg h29, if_neg h29b,
                    if_neg h28, if_neg h28b, if_neg h28c, if_pos h28d]
                rw [hres] at h
                cases h
                unfold decodeStep
                rw [if_neg (fun hc =>
                    h30 ((hagree 30 2 (by omega) (by omega)).trans hc)),
                  if_neg (fun hc =>
                    h30b ((hagree 30 2 (by omega) (by omega)).trans hc)),
                  if_neg (fun hc =>
                    h29 ((hagree 29 3 (by omega) (by omega)).trans hc)),
                  if_neg (fun hc =>
                    h29b ((hagree 29 3 (by omega) (by omega)).trans hc)),
                  if_neg (fun hc =>
                    h28 ((hagree 28 4 (by omega) (by omega)).trans hc)),
                  if_neg (fun hc =>
                    h28b ((hagree 28 4 (by omega) (by omega)).trans hc)),
                  if_neg (fun hc =>
                    h28c ((hagree 28 4 (by omega) (by omega)).trans hc)),
                  if_pos ((hagree 28 4 (by omega) (by omega)).symm.trans h28d)]

/-- The decode window the reference decoder sees: its next (up to) 13
bits, zero-padded past the end of the stream, positioned as `decode_flat`
positions them in its 32-bit register. -/
def refWindow (S : List Bool) : Nat :=
  bitsVal ((S ++ List.replicate 13 false).take 13) * 2 ^ 19

/-- The greedy bit-level reference decoder of the specification: decode
codewords from the bit stream while samples are still wanted and a whole
codeword of genuine bits remains; return the samples, the undecoded bit
suffix, and the final previous-sample value. -/
def refDecode : Nat → List Bool → Nat → Nat → List Nat × List Bool × Nat
  | 0, S, last, _ => ([], S, last)
  | fuel + 1, S, last, cap =>
    if cap = 0 then ([], S, last)
    else
      match decodeStep (refWindow S) with
      | none => ([], S, last)
      | some (len, nv, diff) =>
        if S.length < len then ([], S, last)
        else
          match (if fld (refWindow S) 30 2 = 0 then
                  (List.replicate nv last, last)
                else emitRun last nv diff) with
          | (samples, last1) =>
            match refDecode fuel (S.drop len) last1 (cap - nv) with
            | (rest, S2, last2) => (samples ++ rest, S2, last2)

/-- The reference decoder is stuck on `S`: its next codeword needs more
genuine bits than `S` holds. -/
def refStuck (S : List Bool) : Prop :=
  match decodeStep (refWindow S) with
  | none => True
  | some (len, _, _) => S.length < len

theorem windowBits_length (S : List Bool) :
    ((S ++ List.replicate 13 false).take 13).length = 13 := by
  rw [List.length_take, List.length_append, List.length_replicate]
  omega

theorem fld_refWindow (S : List Bool) :
    fld (refWindow S) 19 13
      = bitsVal ((S ++ List.replicate 13 false).take 13) := by
  apply fld19_top
  have h := bitsVal_lt ((S ++ List.replicate 13 false).take 13)
  rwa [windowBits_length] at h

theorem window_extend (G X : List Bool) (h : 13 ≤ G.length ∨ X = []) :
    ((G ++ X) ++ List.replicate 13 false).take 13
      = (G ++ List.replicate 13 false).take 13 := by
  rcases h with h | rfl
  · rw [List.append_assoc, List.take_append_of_le_length (by omega),
      List.take_append_of_le_length (by omega)]
  · rw [List.append_nil]

/-- The machine's refilled register decodes exactly as the reference
window over the remaining genuine bits: either at least 13 genuine bits
are in the register, or the register holds the whole remaining stream. -/
theorem decodeStep_rep (G X : List Bool) (hG : G.length ≤ 32)
    (h : 13 ≤ G.length ∨ X = []) :
    decodeStep (bitsVal G * 2 ^ (32 - G.length))
      = decodeStep (refWindow (G ++ X)) := by
  apply decodeStep_congr
  rw [fld_rep G hG, fld_refWindow, window_extend G X h]

theorem nextSample_lt (last : Nat) (diff : Int) : nextSample last diff < 256 := by
  unfold nextSample
  have h := Int.emod_lt_of_pos ((last : Int) + diff) (show (0:Int) < 256 by norm_num)
  omega

theorem emitRun_length (last n : Nat) (diff : Int) :
    (emitRun last n diff).1.length = n := by
  induction n generalizing last with
  | zero => rfl
  | succ m ih =>
    show (nextSample last diff :: (emitRun (nextSample last diff) m diff).1,
        (emitRun (nextSample last diff) m diff).2).1.length = m + 1
    rw [List.length_cons, ih]

theorem emitRun_last_lt (last n : Nat) (diff : Int) (h : last < 256) :
    (emitRun last n diff).2 < 256 := by
  induction n generalizing last with
  | zero => exact h
  | succ m ih =>
    show (nextSample last diff :: (emitRun (nextSample last diff) m diff).1,
        (emitRun (nextSample last diff) m diff).2).2 < 256
    exact ih (nextSample last diff) (nextSample_lt last diff)

/-- `refDecode` does not depend on its fuel once the fuel exceeds the
sample budget. -/
theorem refDecode_fuel :
    ∀ f1 f2 S last cap, cap < f1 → cap < f2 →
      refDecode f1 S last cap = refDecode f2 S last cap := by
  intro f1
  induction f1 with
  | zero => intro f2 S last cap h1; omega
  | succ g ih =>
    intro f2 S last cap h1 h2
    match f2, h2 with
    | m + 1, h2 =>
      show refDecode (g + 1) S last cap = refDecode (m + 1) S last cap
      rcases Nat.eq_zero_or_pos cap with hc | hc
      · subst hc
        rfl
      · obtain ⟨len, nv, diff, hstep, h3, h13, hn1, hn8⟩ :=
          decodeStep_total (refWindow S)
        show (if cap = 0 then ([], S, last) else _)
          = (if cap = 0 then ([], S, last) else _)
        rw [if_neg (by omega), if_neg (by omega), hstep]
        dsimp only
        rcases lt_or_ge S.length len with hsl | hsl
        · rw [if_pos hsl, if_pos hsl]
        · rw [if_neg (Nat.not_lt.2 hsl), if_neg (Nat.not_lt.2 hsl)]
          rcases hemit : (if fld (refWindow S) 30 2 = 0 then
              (List.replicate nv last, last)
            else emitRun last nv diff) with ⟨samples, last1⟩
          rw [ih m (S.drop len) (samples, last1).2 (cap - nv) (by omega)
            (by omega)]

/-- The main decoding loop agrees with the greedy bit-level reference:
from an invariant state it appends exactly the samples the reference
decodes from the remaining genuine bits under the remaining sample
budget, preserves the invariant, and exits with the budget spent or
stuck on the remaining bits. -/
theorem flatLoop_ref (R0 : List Bool) (comp : List Nat) (hb : ∀ b ∈ comp, b < 256) :
    ∀ fuel maxPixels numPixels p reg regSize padding G out last,
    flatInv R0 comp p reg regSize padding G →
    (p = comp.length + 2 → G.length ≤ 1) →
    last < 256 →
    maxPixels - numPixels < fuel →
    ∃ p2 G2 padding2 dec last2,
      flatLoop (comp ++ [0, 0]) comp.length maxPixels fuel
          p reg regSize padding numPixels out last
        = .ok p2 (bitsVal G2 * 2 ^ (32 - G2.length)) (G2.length + padding2)
            padding2 (numPixels + dec.length) (out ++ dec) last2 ∧
      refDecode (maxPixels - numPixels + 1) (G ++ bytesBits (comp.drop p))
          last (maxPixels - numPixels)
        = (dec, G2 ++ bytesBits (comp.drop p2), last2) ∧
      flatInv R0 comp p2 (bitsVal G2 * 2 ^ (32 - G2.length))
        (G2.length + padding2) padding2 G2 ∧
      last2 < 256 ∧
      (maxPixels ≤ numPixels + dec.length ∨
        refStuck (G2 ++ bytesBits (comp.drop p2))) ∧
      (numPixels + dec.length ≤ maxPixels + 7 ∨ dec = []) := by
  intro fuel
  induction fuel with
  | zero => intro maxPixels numPixels p reg regSize padding G out last _ _ _ hf; omega
  | succ f ih =>
    intro maxPixels numPixels p reg regSize padding G out last hinv h7 hlast hf
    obtain ⟨hreg, hsize, h20, hpad, hp, T, hT⟩ := hinv
    by_cases hguard : numPixels < maxPixels ∧ p < comp.length + 2
    · -- the loop body runs
      have hcap : 0 < maxPixels - numPixels := by omega
      obtain ⟨p1, G1, padding1, hrefill, hinv1, h13, hSpres, hpge⟩ :=
        flatRefill_inv R0 comp hb p reg regSize padding G
          ⟨hreg, hsize, h20, hpad, hp, T, hT⟩
      obtain ⟨hreg1, hsize1, h201, hpad1, hp1, T1, hT1⟩ := hinv1
      have hX : 13 ≤ G1.length ∨ bytesBits (comp.drop p1) = [] := by
        rcases Nat.eq_zero_or_pos padding1 with h0 | h0
        · left; omega
        · right
          rw [List.drop_eq_nil_of_le (by omega), bytesBits_nil]
      have hstepEq : decodeStep (bitsVal G1 * 2 ^ (32 - G1.length))
          = decodeStep (refWindow (G1 ++ bytesBits (comp.drop p1))) :=
        decodeStep_rep G1 _ (by omega) hX
      obtain ⟨len, nv, diff, hstep, hl3, hl13, hn1, hn8⟩ :=
        decodeStep_total (refWindow (G1 ++ bytesBits (comp.drop p1)))
      by_cases hbreak : G1.length < len
      · -- not enough genuine bits: the loop breaks
        have hpadpos : 0 < padding1 := by omega
        have hdropnil : bytesBits (comp.drop p1) = [] := by
          rw [List.drop_eq_nil_of_le (by omega), bytesBits_nil]
        have hS1len : (G1 ++ bytesBits (comp.drop p1)).length = G1.length := by
          rw [hdropnil, List.append_nil]
        have hm : flatLoop (comp ++ [0, 0]) comp.length maxPixels (f + 1)
            p reg regSize padding numPixels out last
            = .ok p1 (bitsVal G1 * 2 ^ (32 - G1.length))
                (G1.length + padding1) padding1 numPixels out last := by
          simp only [flatLoop]
          rw [if_pos hguard, hrefill]
          dsimp only
          rw [hstepEq, hstep]
          dsimp only
          rw [if_pos (by omega)]
        have hr : refDecode (maxPixels - numPixels + 1)
            (G ++ bytesBits (comp.drop p)) last (maxPixels - numPixels)
            = ([], G1 ++ bytesBits (comp.drop p1), last) := by
          rw [← hSpres]
          simp only [refDecode]
          rw [if_neg (by omega), hstep]
          dsimp only
          rw [if_pos (by omega)]
        refine ⟨p1, G1, padding1, [], last, ?_, hr, ?_, hlast, Or.inr ?_,
          Or.inr rfl⟩
        · rw [List.append_nil]
          exact hm
        · exact ⟨rfl, rfl, by omega, hpad1, hp1, T1, hT1⟩
        · unfold refStuck
          rw [hstep]
          omega
      · -- a full codeword is available: decode it and continue
        have hlen1 : len ≤ G1.length := by omega
        have hfld30 : fld (bitsVal G1 * 2 ^ (32 - G1.length)) 30 2
            = fld (refWindow (G1 ++ bytesBits (comp.drop p1))) 30 2 := by
          rw [fld_window _ 30 2 (by omega) (by omega),
            fld_window _ 30 2 (by omega) (by omega),
            fld_rep G1 (by omega), fld_refWindow,
            window_extend G1 _ hX]
        rcases hemit : (if fld (refWindow (G1 ++ bytesBits (comp.drop p1))) 30 2 = 0
            then (List.replicate nv last, last)
            else emitRun last nv diff) with ⟨samples, last1⟩
        have hslen : samples.length = nv := by
          by_cases hz : fld (refWindow (G1 ++ bytesBits (comp.drop p1))) 30 2 = 0
          · rw [if_pos hz] at hemit
            have h1 := congrArg Prod.fst hemit
            simp only at h1
            rw [← h1, List.length_replicate]
          · rw [if_neg hz] at hemit
            have h1 := congrArg Prod.fst hemit
            simp only at h1
            rw [← h1, emitRun_length]
        have hlast1 : last1 < 256 := by
          by_cases hz : fld (refWindow (G1 ++ bytesBits (comp.drop p1))) 30 2 = 0
          · rw [if_pos hz] at hemit
            have h2 := congrArg Prod.snd hemit
            simp only at h2
            omega
          · rw [if_neg hz] at hemit
            have h2 := congrArg Prod.snd hemit
            simp only at h2
            rw [← h2]
            exact emitRun_last_lt last nv diff hlast
        have hinv2 : flatInv R0 comp p1
            (bitsVal (G1.drop len) * 2 ^ (32 - (G1.drop len).length))
            ((G1.drop len).length + padding1) padding1 (G1.drop len) := by
          refine ⟨rfl, rfl, by rw [List.length_drop]; omega, hpad1, hp1,
            T1 ++ G1.take len, ?_⟩
          rw [List.append_assoc, List.take_append_drop]
          exact hT1
        have h7' : p1 = comp.length + 2 → (G1.drop len).length ≤ 1 := by
          intro heq
          rw [List.length_drop]
          have : padding1 = 16 := by omega
          omega
        obtain ⟨p2, G2, padding2, dec2, last2, hmEq, hrEq, hinv3, hl2, hstuck,
            hover⟩ :=
          ih maxPixels (numPixels + nv) p1
            (bitsVal (G1.drop len) * 2 ^ (32 - (G1.drop len).length))
            ((G1.drop len).length + padding1) padding1 (G1.drop len)
            (out ++ samples) last1 hinv2 h7' hlast1 (by omega)
        have hdropS : (G1 ++ bytesBits (comp.drop p1)).drop len
            = G1.drop len ++ bytesBits (comp.drop p1) := by
          rw [List.drop_append_eq_append_drop,
            show len - G1.length = 0 from by omega, List.drop_zero]
        have hm : flatLoop (comp ++ [0, 0]) comp.length maxPixels (f + 1)
            p reg regSize padding numPixels out last
            = .ok p2 (bitsVal G2 * 2 ^ (32 - G2.length)) (G2.length + padding2)
                padding2 (numPixels + (samples ++ dec2).length)
                (out ++ (samples ++ dec2)) last2 := by
          simp only [flatLoop]
          rw [if_pos hguard, hrefill]
          dsimp only
          rw [hstepEq, hstep]
          dsimp only
          rw [if_neg (by omega), hfld30, hemit]
          dsimp only
          rw [shiftOut_rep G1 (by omega) len hlen1,
            show (32 : Nat) - (G1.length - len) = 32 - (G1.drop len).length from
              by rw [List.length_drop],
            show G1.length + padding1 - len
                = (G1.drop len).length + padding1 from
              by rw [List.length_drop]; omega,
            hmEq, List.length_append, hslen, ← Nat.add_assoc,
            ← List.append_assoc]
        have hr : refDecode (maxPixels - numPixels + 1)
            (G ++ bytesBits (comp.drop p)) last (maxPixels - numPixels)
            = (samples ++ dec2, G2 ++ bytesBits (comp.drop p2), last2) := by
          rw [← hSpres]
          simp only [refDecode]
          rw [if_neg (by omega), hstep]
          dsimp only
          rw [if_neg (by rw [List.length_append]; omega), hemit]
          dsimp only
          rw [hdropS,
            show maxPixels - numPixels - nv = maxPixels - (numPixels + nv) from
              by omega,
            refDecode_fuel (maxPixels - numPixels)
              (maxPixels - (numPixels + nv) + 1)
              (G1.drop len ++ bytesBits (comp.drop p1)) last1
              (maxPixels - (numPixels + nv)) (by omega) (by omega),
            hrEq]
        have hstuck2 : maxPixels ≤ numPixels + (samples ++ dec2).length ∨
            refStuck (G2 ++ bytesBits (comp.drop p2)) := by
          rcases hstuck with h | h
          · left
            rw [List.length_append, hslen]
            omega
          · right
            exact h
        have hover2 : numPixels + (samples ++ dec2).length ≤ maxPixels + 7 ∨
            (samples ++ dec2) = [] := by
          left
          rw [List.length_append, hslen]
          rcases hover with h | h
          · omega
          · rw [h, List.length_nil]
            omega
        exact ⟨p2, G2, padding2, samples ++ dec2, last2, hm, hr, hinv3, hl2,
          hstuck2, hover2⟩
    · -- the loop guard fails: budget spent or pointer past the pad
      have hm : flatLoop (comp ++ [0, 0]) comp.length maxPixels (f + 1)
          p reg regSize padding numPixels out last
          = .ok p (bitsVal G * 2 ^ (32 - G.length)) (G.length + padding)
              padding numPixels out last := by
        simp only [flatLoop]
        rw [if_neg hguard, hreg, hsize]
      rcases Nat.lt_or_ge numPixels maxPixels with hnp | hnp
      · -- then p = comp.length + 2: at most one genuine bit remains
        have hpeq : p = comp.length + 2 := by omega
        have hg1 : G.length ≤ 1 := h7 hpeq
        have hdropnil : bytesBits (comp.drop p) = [] := by
          rw [List.drop_eq_nil_of_le (by omega), bytesBits_nil]
        obtain ⟨len, nv, diff, hstep, hl3, hl13, hn1, hn8⟩ :=
          decodeStep_total (refWindow (G ++ bytesBits (comp.drop p)))
        have hr : refDecode (maxPixels - numPixels + 1)
            (G ++ bytesBits (comp.drop p)) last (maxPixels - numPixels)
            = ([], G ++ bytesBits (comp.drop p), last) := by
          simp only [refDecode]
          rw [if_neg (by omega), hstep]
          dsimp only
          rw [if_pos (by rw [List.length_append, hdropnil]; simp; omega)]
        refine ⟨p, G, padding, [], last, ?_, hr, ?_, hlast, Or.inr ?_,
          Or.inr rfl⟩
        · rw [List.append_nil]
          exact hm
        · exact ⟨rfl, rfl, by omega, hpad, hp, T, hT⟩
        · unfold refStuck
          rw [hstep]
          rw [List.length_append, hdropnil]
          simp
          omega
      · -- the budget is spent
        have hr : refDecode (maxPixels - numPixels + 1)
            (G ++ bytesBits (comp.drop p)) last (maxPixels - numPixels)
            = ([], G ++ bytesBits (comp.drop p), last) := by
          rw [show maxPixels - numPixels = 0 from by omega]
          rfl
        refine ⟨p, G, padding, [], last, ?_, hr, ?_, hlast, Or.inl (by omega),
          Or.inr rfl⟩
        · rw [List.append_nil]
          exact hm
        · exact ⟨rfl, rfl, by omega, hpad, hp, T, hT⟩

/-- Cross-call state representation: the machine state carries the bit
string `R` (fewer than 8 genuine bits) at the top of its register. -/
def flatRep (st : FlatState) (R : List Bool) : Prop :=
  st.reg = bitsVal R * 2 ^ (32 - R.length) ∧
  st.regSize = R.length ∧ R.length < 8 ∧ st.last < 256

/-- One `decode_flat` call against the reference: it consumes whole
bytes, decodes exactly what the reference decodes from the carried bits
plus the buffer's bits under the sample budget, and ends with the budget
spent or stuck on the remaining bits. -/
theorem decodeFlat_ref (comp : List Nat) (hb : ∀ b ∈ comp, b < 256)
    (hlen : comp.length ≤ 100) (st : FlatState) (R : List Bool)
    (hrep : flatRep st R) (cap : Nat) :
    ∃ consumed out st2 R2,
      decodeFlat comp cap st = .ok consumed out st2 ∧
      consumed ≤ comp.length ∧
      flatRep st2 R2 ∧
      refDecode (cap + 1) (R ++ bytesBits comp) st.last cap
        = (out, R2 ++ bytesBits (comp.drop consumed), st2.last) ∧
      (cap ≤ out.length ∨ refStuck (R2 ++ bytesBits (comp.drop consumed))) := by
  obtain ⟨hreg, hsize, h8, hlast⟩ := hrep
  have hinv0 : flatInv R comp 0 st.reg st.regSize 0 R := by
    refine ⟨hreg, by omega, by omega, by simp, by omega, [], ?_⟩
    simp [bytesBits_nil]
  obtain ⟨p2, G2, padding2, dec, last2, hm, hr, hinv2, hl2, hstuck, hover⟩ :=
    flatLoop_ref R comp hb (cap + 1) cap 0 0 st.reg st.regSize 0 R [] st.last
      hinv0 (fun h => absurd h (by omega)) hlast (by omega)
  obtain ⟨hreg2, hsize2, h202, hpad2, hp2, T2, hT2⟩ := hinv2
  obtain ⟨p3, G3, hueq, hinv3, h83, hple3, hS3⟩ :=
    ungetLoop_inv R comp h8 4 p2 (bitsVal G2 * 2 ^ (32 - G2.length))
      (G2.length + padding2) padding2 G2
      ⟨rfl, rfl, by omega, hpad2, hp2, T2, hT2⟩ (by omega)
  have hnover : ¬(cap + 8 < ([] ++ dec).length) := by
    rcases hover with h | h
    · simp only [List.nil_append]
      omega
    · rw [h]
      simp
  refine ⟨min comp.length p3, [] ++ dec,
    ⟨bitsVal G3 * 2 ^ (32 - G3.length), G3.length, last2⟩, G3, ?_, ?_, ?_,
    ?_, ?_⟩
  · show (if 100 < comp.length then DFRes.assertFail else _) = _
    rw [if_neg (by omega), hm]
    dsimp only
    rw [if_neg hnover, hueq]
  · omega
  · exact ⟨rfl, rfl, h83, hl2⟩
  · show refDecode (cap + 1) (R ++ bytesBits comp) st.last cap
      = ([] ++ dec, G3 ++ bytesBits (comp.drop (min comp.length p3)), last2)
    rw [min_eq_right hple3, List.nil_append, hS3]
    exact hr
  · rw [min_eq_right hple3, hS3, List.nil_append]
    rcases hstuck with h | h
    · left
      omega
    · right
      exact h

/-- The top `len` bits of a bit string, as a truncating division of its
value. -/
theorem bitsVal_take_div (W : List Bool) (len : Nat) (h : len ≤ W.length) :
    bitsVal W / 2 ^ (W.length - len) = bitsVal (W.take len) := by
  have hsplit : bitsVal W
      = bitsVal (W.take len) * 2 ^ (W.length - len) + bitsVal (W.drop len) := by
    conv_lhs => rw [← List.take_append_drop len W]
    rw [bitsVal_append, List.length_drop]
  have hB : bitsVal (W.drop len) < 2 ^ (W.length - len) := by
    have hx := bitsVal_lt (W.drop len)
    rwa [List.length_drop] at hx
  rw [hsplit, add_comm, Nat.add_mul_div_right _ _ (by positivity),
    Nat.div_eq_of_lt hB, Nat.zero_add]

/-- Appending further bits to the stream does not change any field lying
inside an initial codeword of `len` bits. -/
theorem refWindow_agree (S T : List Bool) (len : Nat) (hlen : len ≤ S.length)
    (hl13 : len ≤ 13) :
    ∀ lo w, 32 - len ≤ lo → lo + w ≤ 32 →
      fld (refWindow S) lo w = fld (refWindow (S ++ T)) lo w := by
  intro lo w hlo hw
  have ht1 : bitsVal ((S ++ List.replicate 13 false).take 13) < 2 ^ 13 := by
    have hx := bitsVal_lt ((S ++ List.replicate 13 false).take 13)
    rwa [windowBits_length] at hx
  have ht2 : bitsVal (((S ++ T) ++ List.replicate 13 false).take 13) < 2 ^ 13 := by
    have hx := bitsVal_lt (((S ++ T) ++ List.replicate 13 false).take 13)
    rwa [windowBits_length] at hx
  have hq : bitsVal ((S ++ List.replicate 13 false).take 13) / 2 ^ (13 - len)
      = bitsVal (((S ++ T) ++ List.replicate 13 false).take 13)
          / 2 ^ (13 - len) := by
    have e1 : ((S ++ List.replicate 13 false).take 13).take len
        = S.take len := by
      rw [List.take_take, min_eq_left hl13,
        List.take_append_of_le_length hlen]
    have e2 : (((S ++ T) ++ List.replicate 13 false).take 13).take len
        = S.take len := by
      rw [List.take_take, min_eq_left hl13, List.append_assoc,
        List.take_append_of_le_length hlen]
    have d1 := bitsVal_take_div ((S ++ List.replicate 13 false).take 13) len
      (by rw [windowBits_length]; omega)
    have d2 := bitsVal_take_div (((S ++ T) ++ List.replicate 13 false).take 13)
      len (by rw [windowBits_length]; omega)
    rw [windowBits_length] at d1 d2
    rw [d1, d2, e1, e2]
  rw [fld_window _ lo w (by omega) hw, fld_window _ lo w (by omega) hw,
    fld_refWindow, fld_refWindow]
  show fld (bitsVal ((S ++ List.replicate 13 false).take 13)) (lo - 19) w = _
  unfold fld
  rw [show (2 : Nat) ^ (lo - 19) = 2 ^ (13 - len) * 2 ^ (lo - 19 - (13 - len))
      from by rw [← pow_add]; congr 1; omega,
    ← Nat.div_div_eq_div_mul, ← Nat.div_div_eq_div_mul, hq]

/-- The reference decoder on an empty stream decodes nothing. -/
theorem refDecode_nil (f last cap : Nat) :
    refDecode f [] last cap = ([], [], last) := by
  match f with
  | 0 => rfl
  | g + 1 =>
    rcases Nat.eq_zero_or_pos cap with hc | hc
    · subst hc
      rfl
    · obtain ⟨len, nv, diff, hstep, hl3, _, _, _⟩ :=
        decodeStep_total (refWindow [])
      show (if cap = 0 then (([] : List Nat), ([] : List Bool), last) else _)
        = _
      rw [if_neg (by omega), hstep]
      dsimp only
      rw [if_pos (by simp; omega)]

/-- A stuck reference decoder decodes nothing. -/
theorem refDecode_stuck {S : List Bool} (hs : refStuck S) (f last cap : Nat) :
    refDecode f S last cap = ([], S, last) := by
  match f with
  | 0 => rfl
  | g + 1 =>
    rcases Nat.eq_zero_or_pos cap with hc | hc
    · subst hc
      rfl
    · obtain ⟨len, nv, diff, hstep, hl3, _, _, _⟩ :=
        decodeStep_total (refWindow S)
      unfold refStuck at hs
      rw [hstep] at hs
      show (if cap = 0 then (([] : List Nat), S, last) else _) = _
      rw [if_neg (by omega), hstep]
      dsimp only
      rw [if_pos hs]

/-- Decoding a stream with further bits appended first decodes the
stream's own prefix of whole codewords, then continues into the appended
bits from the leftover. -/
theorem refDecode_extend :
    ∀ fuel S T last cap, cap < fuel →
      refDecode fuel (S ++ T) last cap
        = ((refDecode fuel S last cap).1
            ++ (refDecode (cap - (refDecode fuel S last cap).1.length + 1)
                ((refDecode fuel S last cap).2.1 ++ T)
                (refDecode fuel S last cap).2.2
                (cap - (refDecode fuel S last cap).1.length)).1,
           (refDecode (cap - (refDecode fuel S last cap).1.length + 1)
              ((refDecode fuel S last cap).2.1 ++ T)
              (refDecode fuel S last cap).2.2
              (cap - (refDecode fuel S last cap).1.length)).2.1,
           (refDecode (cap - (refDecode fuel S last cap).1.length + 1)
              ((refDecode fuel S last cap).2.1 ++ T)
              (refDecode fuel S last cap).2.2
              (cap - (refDecode fuel S last cap).1.length)).2.2) := by
  intro fuel
  induction fuel with
  | zero => intro S T last cap h; omega
  | succ g ih =>
    intro S T last cap hf
    rcases Nat.eq_zero_or_pos cap with hc | hc
    · subst hc
      show refDecode (g + 1) (S ++ T) last 0 = _
      have h1 : refDecode (g + 1) (S ++ T) last 0 = ([], S ++ T, last) := rfl
      have h2 : refDecode (g + 1) S last 0 = ([], S, last) := rfl
      rw [h1, h2]
      rfl
    · obtain ⟨len, nv, diff, hstep, hl3, hl13, hn1, hn8⟩ :=
        decodeStep_total (refWindow S)
      rcases lt_or_ge S.length len with hsl | hsl
      · -- the stream itself is stuck: everything happens in the extension
        have h2 : refDecode (g + 1) S last cap = ([], S, last) := by
          show (if cap = 0 then (([] : List Nat), S, last) else _) = _
          rw [if_neg (by omega), hstep]
          dsimp only
          rw [if_pos hsl]
        rw [h2]
        show refDecode (g + 1) (S ++ T) last cap
          = ([] ++ (refDecode (cap - 0 + 1) (S ++ T) last (cap - 0)).1,
             (refDecode (cap - 0 + 1) (S ++ T) last (cap - 0)).2.1,
             (refDecode (cap - 0 + 1) (S ++ T) last (cap - 0)).2.2)
        rw [List.nil_append, Nat.sub_zero,
          refDecode_fuel (g + 1) (cap + 1) (S ++ T) last cap hf (by omega)]
      · -- a whole codeword of S is decoded on both sides
        have hstep2 : decodeStep (refWindow (S ++ T)) = some (len, nv, diff) :=
          decodeStep_prefix hstep
            (refWindow_agree S T len hsl hl13)
        have hfld : fld (refWindow (S ++ T)) 30 2 = fld (refWindow S) 30 2 :=
          (refWindow_agree S T len hsl hl13 30 2 (by omega) (by omega)).symm
        rcases hemit : (if fld (refWindow S) 30 2 = 0 then
            (List.replicate nv last, last)
          else emitRun last nv diff) with ⟨samples, last1⟩
        have hdropS : (S ++ T).drop len = S.drop len ++ T := by
          rw [List.drop_append_eq_append_drop,
            show len - S.length = 0 from by omega, List.drop_zero]
        have hL : refDecode (g + 1) (S ++ T) last cap
            = (samples ++ (refDecode g (S.drop len ++ T) last1 (cap - nv)).1,
               (refDecode g (S.drop len ++ T) last1 (cap - nv)).2.1,
               (refDecode g (S.drop len ++ T) last1 (cap - nv)).2.2) := by
          show (if cap = 0 then (([] : List Nat), S ++ T, last) else _) = _
          rw [if_neg (by omega), hstep2]
          dsimp only
          rw [if_neg (by rw [List.length_append]; omega), hfld, hemit]
          dsimp only
          rw [hdropS]
        have hR : refDecode (g + 1) S last cap
            = (samples ++ (refDecode g (S.drop len) last1 (cap - nv)).1,
               (refDecode g (S.drop len) last1 (cap - nv)).2.1,
               (refDecode g (S.drop len) last1 (cap - nv)).2.2) := by
          show (if cap = 0 then (([] : List Nat), S, last) else _) = _
          rw [if_neg (by omega), hstep]
          dsimp only
          rw [if_neg (by omega), hemit]
        have hslen : samples.length = nv := by
          by_cases hz : fld (refWindow S) 30 2 = 0
          · rw [if_pos hz] at hemit
            have h1 := congrArg Prod.fst hemit
            simp only at h1
            rw [← h1, List.length_replicate]
          · rw [if_neg hz] at hemit
            have h1 := congrArg Prod.fst hemit
            simp only at h1
            rw [← h1, emitRun_length]
        rw [hL, hR]
        rw [ih (S.drop len) T last1 (cap - nv) (by omega)]
        have harith : cap - nv
              - (refDecode g (S.drop len) last1 (cap - nv)).1.length
            = cap - (samples
                ++ (refDecode g (S.drop len) last1 (cap - nv)).1).length := by
          rw [List.length_append, hslen]
          omega
        rw [List.append_assoc, harith]

/-- Embedding of the per-row refill protocol in `read_flat_data`: the
row's compressed bytes arrive as successive chunks; each `decode_flat`
call sees the leftover buffered bytes followed by the next chunk, gets
the remaining sample budget, carries the decode state, and leaves its
unconsumed bytes in the buffer.  `none` is a failed assertion. -/
def chunkRun : List (List Nat) → List Nat → FlatState → Nat →
    Option (List Nat × List Nat × FlatState)
  | [], buf, st, _ => some ([], buf, st)
  | c :: cs, buf, st, cap =>
    match decodeFlat (buf ++ c) cap st with
    | .assertFail => none
    | .ok consumed out st1 =>
      match chunkRun cs ((buf ++ c).drop consumed) st1 (cap - out.length) with
      | none => none
      | some (rest, bufF, stF) => some (out ++ rest, bufF, stF)

/-- A chunked run decodes exactly the reference decode of the carried
bits followed by all the bytes it was fed, and ends with the budget
spent, stuck, or having made no call at all. -/
theorem chunkRun_ref :
    ∀ chunks buf st R cap out bufF stF,
      flatRep st R →
      (∀ b ∈ buf, b < 256) →
      (∀ c ∈ chunks, ∀ b ∈ c, b < 256) →
      chunkRun chunks buf st cap = some (out, bufF, stF) →
      ∃ RF,
        flatRep stF RF ∧
        (∀ b ∈ bufF, b < 256) ∧
        refDecode (cap + 1) (R ++ bytesBits (buf ++ chunks.join)) st.last cap
          = (out ++ (refDecode (cap - out.length + 1) (RF ++ bytesBits bufF)
                stF.last (cap - out.length)).1,
             (refDecode (cap - out.length + 1) (RF ++ bytesBits bufF)
                stF.last (cap - out.length)).2.1,
             (refDecode (cap - out.length + 1) (RF ++ bytesBits bufF)
                stF.last (cap - out.length)).2.2) ∧
        ((chunks = [] ∧ out = [] ∧ bufF = buf ∧ stF = st ∧ RF = R) ∨
          cap ≤ out.length ∨ refStuck (RF ++ bytesBits bufF)) := by
  intro chunks
  induction chunks with
  | nil =>
    intro buf st R cap out bufF stF hrep hbb _ hrun
    have h1 : chunkRun [] buf st cap = some ([], buf, st) := rfl
    rw [h1] at hrun
    simp only [Option.some.injEq, Prod.mk.injEq] at hrun
    obtain ⟨h2, h3, h4⟩ := hrun
    subst h2 h3 h4
    refine ⟨R, hrep, hbb, ?_, Or.inl ⟨rfl, rfl, rfl, rfl, rfl⟩⟩
    simp only [List.join_nil, List.append_nil, List.length_nil, Nat.sub_zero,
      List.nil_append]
  | cons c cs ih =>
    intro buf st R cap out bufF stF hrep hbb hcb hrun
    have hlen : (buf ++ c).length ≤ 100 := by
      by_contra hgt
      have hdf : decodeFlat (buf ++ c) cap st = .assertFail := by
        unfold decodeFlat
        rw [if_pos (by omega)]
      unfold chunkRun at hrun
      rw [hdf] at hrun
      exact absurd hrun (by simp)
    have hb2 : ∀ b ∈ buf ++ c, b < 256 := by
      intro b hbmem
      rcases List.mem_append.mp hbmem with h | h
      · exact hbb b h
      · exact hcb c (List.mem_cons_self c cs) b h
    obtain ⟨consumed, out1, st1, R1, hdf, hcons, hrep1, href1, hstuck1⟩ :=
      decodeFlat_ref (buf ++ c) hb2 hlen st R hrep cap
    unfold chunkRun at hrun
    rw [hdf] at hrun
    dsimp only at hrun
    rcases hrec : chunkRun cs ((buf ++ c).drop consumed) st1
        (cap - out1.length) with _ | ⟨rest, bufF1, stF1⟩
    · rw [hrec] at hrun
      exact absurd hrun (by simp)
    rw [hrec] at hrun
    dsimp only at hrun
    simp only [Option.some.injEq, Prod.mk.injEq] at hrun
    obtain ⟨hout, hbufF, hstF⟩ := hrun
    subst hout hbufF hstF
    have hbdrop : ∀ b ∈ (buf ++ c).drop consumed, b < 256 :=
      fun b h => hb2 b (List.mem_of_mem_drop h)
    have hcb2 : ∀ u ∈ cs, ∀ b ∈ u, b < 256 :=
      fun u h => hcb u (List.mem_cons_of_mem c h)
    obtain ⟨RF, hrepF, hbF, hdec, hst⟩ :=
      ih ((buf ++ c).drop consumed) st1 R1 (cap - out1.length) rest bufF1 stF1
        hrep1 hbdrop hcb2 hrec
    refine ⟨RF, hrepF, hbF, ?_, ?_⟩
    · have hjoin : buf ++ (c :: cs).join = (buf ++ c) ++ cs.join := by
        simp
      rw [hjoin, bytesBits_append, ← List.append_assoc]
      rw [refDecode_extend (cap + 1) (R ++ bytesBits (buf ++ c))
        (bytesBits cs.join) st.last cap (by omega)]
      rw [href1]
      dsimp only
      rw [List.append_assoc, ← bytesBits_append, hdec]
      dsimp only
      have harith : cap - out1.length - rest.length
          = cap - (out1 ++ rest).length := by
        rw [List.length_append]
        omega
      rw [← List.append_assoc, harith]
    · rcases hst with ⟨hcs, hrest, hbufeq, hsteq, hRFeq⟩ | hst
      · subst hrest
        rcases hstuck1 with hcap | hstk
        · right
          left
          rw [List.append_nil]
          omega
        · right
          right
          rw [hbufeq, hRFeq]
          exact hstk
      · right
        rcases hst with hcap | hstk
        · left
          rw [List.length_append]
          omega
        · right
          exact hstk

/-- A chunked run from a fresh state decodes exactly the reference
decode of the bytes it was fed. -/
theorem chunkRun_out (chunks : List (List Nat)) (last cap : Nat)
    (out bufF : List Nat) (stF : FlatState)
    (hb : ∀ c ∈ chunks, ∀ b ∈ c, b < 256) (hl : last < 256)
    (hrun : chunkRun chunks [] ⟨0, 0, last⟩ cap = some (out, bufF, stF)) :
    out = (refDecode (cap + 1) (bytesBits chunks.join) last cap).1 := by
  have hrep : flatRep ⟨0, 0, last⟩ [] := by
    refine ⟨?_, rfl, by simp, hl⟩
    simp [bitsVal]
  obtain ⟨RF, hrepF, hbF, hdec, hst⟩ :=
    chunkRun_ref chunks [] ⟨0, 0, last⟩ [] cap out bufF stF hrep
      (by intro b h; exact absurd h (List.not_mem_nil b)) hb hrun
  have hcont : (refDecode (cap - out.length + 1) (RF ++ bytesBits bufF)
      stF.last (cap - out.length)).1 = [] := by
    rcases hst with ⟨hcs, hout, hbuf, hstf, hRF⟩ | hcap | hstk
    · rw [hRF, hbuf, bytesBits_nil, List.nil_append, refDecode_nil]
    · rw [show cap - out.length = 0 from by omega]
      rfl
    · rw [refDecode_stuck hstk]
  rw [hcont, List.append_nil] at hdec
  have h1 := congrArg Prod.fst hdec
  simp only [List.nil_append] at h1
  exact h1.symm

/-- C7: running the BCFLAT entropy decoder chunk by chunk — carrying
`last`, the register contents and the register bit count across
`decode_flat` calls and ungetting leftover whole bytes at each call's
end — decodes exactly the reference decode of the joined byte stream,
so the decoded samples are independent of where the chunk boundaries
fall: any two chunkings of the same compressed bytes that both run to
completion produce identical output. -/
theorem C7_theorem :
    (∀ chunks last cap out bufF stF,
      (∀ c ∈ chunks, ∀ b ∈ c, b < 256) → last < 256 →
      chunkRun chunks [] ⟨0, 0, last⟩ cap = some (out, bufF, stF) →
      out = (refDecode (cap + 1) (bytesBits chunks.join) last cap).1) ∧
    (∀ chunks1 chunks2 last cap out1 bufF1 stF1 out2 bufF2 stF2,
      chunks1.join = chunks2.join →
      (∀ c ∈ chunks1, ∀ b ∈ c, b < 256) →
      (∀ c ∈ chunks2, ∀ b ∈ c, b < 256) →
      last < 256 →
      chunkRun chunks1 [] ⟨0, 0, last⟩ cap = some (out1, bufF1, stF1) →
      chunkRun chunks2 [] ⟨0, 0, last⟩ cap = some (out2, bufF2, stF2) →
      out1 = out2) := by
  constructor
  · exact chunkRun_out
  · intro chunks1 chunks2 last cap out1 bufF1 stF1 out2 bufF2 stF2 hjoin hb1
      hb2 hl h1 h2
    rw [chunkRun_out chunks1 last cap out1 bufF1 stF1 hb1 hl h1,
      chunkRun_out chunks2 last cap out2 bufF2 stF2 hb2 hl h2, hjoin]

/-- A concrete run of C7: the two-byte codeword stream `EC 00` fed as
one chunk or as two single-byte chunks (the first call consumes nothing
and ungets its byte) decodes to the same single sample 80. -/
theorem C7_witness :
    ([80] : List Nat)
        = (refDecode (1 + 1) (bytesBits (List.join [[236], [0]])) 16 1).1 ∧
    ([80] : List Nat) = [80] := by
  constructor
  · exact C7_theorem.1 [[236], [0]] 16 1 [80] [] ⟨0, 3, 80⟩ (by decide)
      (by decide) (by decide)
  · exact C7_theorem.2 [[236], [0]] [[236, 0]] 16 1 [80] [] ⟨0, 3, 80⟩ [80] []
      ⟨0, 3, 80⟩ (by decide) (by decide) (by decide) (by decide) (by decide)
      (by decide)


set_option maxRecDepth 40000 in
/-- Every table entry has a codeword of 1–13 bits whose value fits its
length. -/
theorem codeTable_shape :
    ∀ e ∈ codeTable, e.1 ≤ 13 ∧ 0 < e.1 ∧ e.2.1 < 2 ^ e.1 := by decide

set_option maxHeartbeats 4000000 in
set_option maxRecDepth 100000 in
/-- Exhaustive check (8192 registers): a register whose 13-bit decode
window starts with a table codeword classifies to exactly that entry. -/
theorem codeTable_complete :
    ∀ e ∈ codeTable, ∀ x, x < 2 ^ (13 - e.1) →
      decodeStep ((e.2.1 * 2 ^ (13 - e.1) + x) * 2 ^ 19)
        = some (e.1, e.2.2.1, e.2.2.2) := by decide

/-- Bridge from the exhaustive check to an arbitrary register: if the top
`len` bits of `reg` spell the codeword `val` of a table entry, the
classifier returns that entry. -/
theorem decodeStep_of_match {len val n : Nat} {diff : Int}
    (hmem : (len, val, n, diff) ∈ codeTable) (reg : Nat)
    (hmatch : fld reg (32 - len) len = val) :
    decodeStep reg = some (len, n, diff) := by
  obtain ⟨hle, hpos, hval⟩ := codeTable_shape _ hmem
  have htlt : fld reg 19 13 < 2 ^ 13 := fld_lt reg 19 13
  have hxlt : fld reg 19 (13 - len) < 2 ^ (13 - len) := fld_lt reg 19 (13 - len)
  have hdiv : fld reg 19 13 / 2 ^ (13 - len) = val := by
    have h1 := fld_window reg (32 - len) len (by omega) (by omega)
    rw [show 32 - len - 19 = 13 - len from by omega] at h1
    rw [hmatch] at h1
    have h2 : fld reg 19 13 / 2 ^ (13 - len) < 2 ^ len := by
      rw [Nat.div_lt_iff_lt_mul (by positivity)]
      calc fld reg 19 13 < 2 ^ 13 := htlt
        _ = 2 ^ len * 2 ^ (13 - len) := by rw [← pow_add]; congr 1; omega
    rw [h1]
    show fld reg 19 13 / 2 ^ (13 - len)
      = fld reg 19 13 / 2 ^ (13 - len) % 2 ^ len
    rw [Nat.mod_eq_of_lt h2]
  have hmod : fld reg 19 13 % 2 ^ (13 - len) = fld reg 19 (13 - len) := by
    show reg / 2 ^ 19 % 2 ^ 13 % 2 ^ (13 - len) = reg / 2 ^ 19 % 2 ^ (13 - len)
    exact Nat.mod_mod_of_dvd _ (pow_dvd_pow 2 (by omega))
  have hsplit : fld reg 19 13
      = val * 2 ^ (13 - len) + fld reg 19 (13 - len) := by
    conv_lhs => rw [← Nat.div_add_mod (fld reg 19 13) (2 ^ (13 - len))]
    rw [hdiv, hmod]
    ring
  have hy : fld ((val * 2 ^ (13 - len) + fld reg 19 (13 - len)) * 2 ^ 19) 19 13
      = val * 2 ^ (13 - len) + fld reg 19 (13 - len) := by
    show (val * 2 ^ (13 - len) + fld reg 19 (13 - len)) * 2 ^ 19 / 2 ^ 19 % 2 ^ 13
      = val * 2 ^ (13 - len) + fld reg 19 (13 - len)
    rw [Nat.mul_div_cancel _ (by positivity)]
    exact Nat.mod_eq_of_lt (by rw [← hsplit]; exact htlt)
  rw [decodeStep_congr (show fld reg 19 13 = _ from by rw [hy]; exact hsplit)]
  exact codeTable_complete _ hmem (fld reg 19 (13 - len)) hxlt

/-- Run semantics of `emitRun`: `n` samples, the `i`-th being
`last + (i+1) * diff` wrapped mod 256, and the final running `last` is
the last appended sample. -/
theorem emitRun_spec (last n : Nat) (diff : Int) :
    (emitRun last n diff).1.length = n ∧
    (∀ i, i < n → (emitRun last n diff).1.getD i 0
      = (((last : Int) + ((i : Int) + 1) * diff) % 256).toNat) ∧
    (0 < n → (emitRun last n diff).2 = (emitRun last n diff).1.getD (n - 1) 0) := by
  induction n generalizing last with
  | zero => exact ⟨rfl, fun i hi => absurd hi (by omega), fun h => absurd h (by omega)⟩
  | succ m ih =>
    obtain ⟨ihlen, ihval, ihlast⟩ := ih (nextSample last diff)
    have hstep : emitRun last (m + 1) diff
        = (nextSample last diff :: (emitRun (nextSample last diff) m diff).1,
           (emitRun (nextSample last diff) m diff).2) := by
      show (let nx := nextSample last diff
            let (rest, fin) := emitRun nx m diff
            (nx :: rest, fin)) = _
      dsimp only
    rw [hstep]
    refine ⟨by simpa using ihlen, ?_, ?_⟩
    · intro i hi
      match i with
      | 0 =>
        show nextSample last diff = (((last : Int) + (0 + 1) * diff) % 256).toNat
        unfold nextSample
        norm_num
      | j + 1 =>
        show (emitRun (nextSample last diff) m diff).1.getD j 0 = _
        rw [ihval j (by omega)]
        have hnx : ((nextSample last diff : Nat) : Int)
            = ((last : Int) + diff) % 256 := by
          unfold nextSample
          rw [Int.toNat_of_nonneg (Int.emod_nonneg _ (by norm_num))]
        rw [hnx]
        congr 1
        obtain ⟨D, hD⟩ : ∃ D, D = ((j : Int) + 1) * diff := ⟨_, rfl⟩
        have hj2 : (((j : Nat) + 1 : Nat) : Int) + 1 = (j : Int) + 2 := by
          push_cast; ring
        rw [← hD, hj2, show ((j : Int) + 2) * diff = diff + D from by
          rw [hD]; ring]
        omega
    · intro _
      match m with
      | 0 =>
        show nextSample last diff
          = (nextSample last diff :: (emitRun (nextSample last diff) 0 diff).1).getD 0 0
        rfl
      | k + 1 =>
        rw [ihlast (by omega)]
        show (emitRun (nextSample last diff) (k + 1) diff).1.getD k 0
          = (nextSample last diff :: (emitRun (nextSample last diff) (k + 1) diff).1).getD (k + 1) 0
        rfl

/-- A run of zero differences on an in-range `last` is `n` verbatim
copies of `last`, with `last` unchanged — exactly the repeated-pixel
branch of the decoder loop. -/
theorem emitRun_zero (last : Nat) (hl : last < 256) (n : Nat) :
    emitRun last n 0 = (List.replicate n last, last) := by
  induction n with
  | zero => rfl
  | succ m ih =>
    have hnx : nextSample last 0 = last := by
      unfold nextSample
      rw [add_zero, Int.emod_eq_of_lt (by positivity) (by exact_mod_cast hl)]
      exact Int.toNat_natCast last
  -- unfold one step
    show (let nx := nextSample last 0
          let (rest, fin) := emitRun nx m 0
          (nx :: rest, fin)) = (List.replicate (m + 1) last, last)
    rw [hnx]
    dsimp only
    rw [ih]
    rfl

set_option maxHeartbeats 4000000 in
set_option maxRecDepth 100000 in
/-- No codeword of the (fully expanded) table is an initial segment of
another. -/
theorem codeTable_noStart :
    codeTable.Pairwise (fun e1 e2 =>
      ¬ isCodeStart e1.1 e1.2.1 e2.1 e2.2.1 ∧
      ¬ isCodeStart e2.1 e2.2.1 e1.1 e1.2.1) := by decide

/-- Claim C6: (1) for every entry of the expanded code table and every
register whose top bits spell that codeword, the decoder classifies it to
exactly the table's length, sample count, and difference; (2) decoding a
matched codeword appends exactly `n` samples, the `i`-th equal to
`last + (i+1)*diff` wrapped mod 256, and leaves the running `last` equal
to the final appended sample — with the zero-difference runs appending
verbatim copies of `last`; (3) no codeword of the table is a prefix of
another. -/
theorem C6_theorem :
    (∀ len val n diff, (len, val, n, diff) ∈ codeTable →
      ∀ reg, fld reg (32 - len) len = val →
        decodeStep reg = some (len, n, diff)) ∧
    (∀ last n diff,
      (emitRun last n diff).1.length = n ∧
      (∀ i, i < n → (emitRun last n diff).1.getD i 0
        = (((last : Int) + ((i : Int) + 1) * diff) % 256).toNat) ∧
      (0 < n →
        (emitRun last n diff).2 = (emitRun last n diff).1.getD (n - 1) 0)) ∧
    (∀ last, last < 256 → ∀ n,
      emitRun last n 0 = (List.replicate n last, last)) ∧
    codeTable.Pairwise (fun e1 e2 =>
      ¬ isCodeStart e1.1 e1.2.1 e2.1 e2.2.1 ∧
      ¬ isCodeStart e2.1 e2.2.1 e1.1 e1.2.1) :=
  ⟨fun _ _ _ _ hmem reg hmatch => decodeStep_of_match hmem reg hmatch,
   fun last n diff => emitRun_spec last n diff,
   fun last hl n => emitRun_zero last hl n,
   codeTable_noStart⟩

/-- Witness for C6 at concrete inputs: the all-zero register decodes the
`000` codeword; the second sample of a 2-sample run of +1 steps from
`last = 10` is 12; a 3-long zero run from `last = 7` is three verbatim
copies of 7. -/
theorem C6_witness :
    decodeStep 0 = some (3, 2, 0) ∧
    (emitRun 10 2 1).1.getD 1 0 = (((10 : Int) + ((1 : Int) + 1) * 1) % 256).toNat ∧
    emitRun 7 3 0 = (List.replicate 3 7, 7) :=
  ⟨C6_theorem.1 3 0 2 0 (by decide) 0 (by decide),
   (C6_theorem.2.1 10 2 1).2.1 1 (by decide),
   C6_theorem.2.2.1 7 (by decide) 3⟩

/-! ### C8: truncation reaches a failing assertion -/

/-- A complete, valid BCFLAT stream (after the magic number): flags,
width 2, height 1, a bare `DATA` tag section, and for each of the three
channels a literal first byte followed by the 13-bit codeword
`1110110 000000` (single sample, difference +64) padded to two bytes —
`0xEC 0x00`. -/
def c8Full : List Nat :=
  [0, 0, 0, 0, 0, 0, 13, 3] ++
    ([0, 0, 0, 0, 0, 0, 0, 2] ++ ([0, 0, 0, 0, 0, 0, 0, 1] ++
      (dataId ++ [16, 236, 0, 32, 236, 0, 48, 236, 0])))

/-- `c8Full` with its final byte removed (truncation at the last byte). -/
def c8Trunc : List Nat := c8Full.dropLast

/-- Claim C8 refuted on the code: the full 2×1 BCFLAT file decodes
successfully to the raster 16 32 48 80 96 112, but its one-byte
truncation aborts instead of reporting a format error.  On the truncated
file the third channel's row leaves only the single byte `0xEC` for the
compressed part of the row: `decode_flat` refills the register with its
8 genuine bits plus 8 padding bits, classifies the 13-bit codeword but
refuses to match it (13 exceeds the 8 genuine bits), exits with zero
pixels after putting the whole byte back, and `read_flat_data` then
fails the assertion `assert(num_pixels > 0)` — a crash, not a
`ShortRead`-style error return. -/
theorem C8_theorem :
    parseBcflat sizeLimitDefault c8Full defaultLoggingFmt
      = .ok ⟨2, 1, -1, [16, 32, 48, 80, 96, 112]⟩ ∧
    c8Trunc = c8Full.take (c8Full.length - 1) ∧
    parseBcflat sizeLimitDefault c8Trunc defaultLoggingFmt = .assertFail := by
  refine ⟨by decide, by decide, by decide⟩

end BCI
